import Mathlib

/-!
# mugrad: a scalar reverse-mode automatic differentiation engine

Shallow embedding of `engine.go`.

* A Go `*Value` is a pointer; the embedding keeps every `Value` in a heap
  (a list of records) and a pointer is an index into it.  An index past the
  end of the heap plays the part of a nil pointer: dereferencing it faults.
* `float64` is embedded as an arbitrary field `α` (rounding, infinities and
  NaN are outside the embedding).  The functions of Go's `math` and `fmt`
  packages that the engine calls are a parameter `GoLib α`.  A theorem that
  takes `math.Exp` or `math.Pow` to be the real function says on which
  arguments it does.
* The `Backward` closure of a node is embedded by the constructor that made
  it (`BackwardFn`), together with what it captures (`k` for `Pow`).
* `buildTopology` is recursive; the embedding recurses on a fuel argument
  and `Backprop` supplies more fuel than the heap has nodes.
-/

namespace Mugrad

/-- A `*Value`: the index of the record in the heap. -/
abbrev Ptr := Nat

/-- What the engine uses of Go's `math` package (`math.Pow`, `math.Exp`,
`math.Tanh`, `math.E`) and of `fmt` (the `%v` rendering of a number). -/
structure GoLib (α : Type) where
  Pow : α → α → α
  Exp : α → α
  Tanh : α → α
  E : α
  Fmt : α → String

/-- The closures stored in `Value.Backward`, named after the constructor
that builds them; `pow` captures the exponent `k`. -/
inductive BackwardFn (α : Type) where
  | add : BackwardFn α
  | sub : BackwardFn α
  | mul : BackwardFn α
  | pow (k : α) : BackwardFn α
  | exp : BackwardFn α
  | tanh : BackwardFn α

/-- The struct `Value`; `Backward = none` is the nil function. -/
structure Value (α : Type) where
  Label : String
  Data : α
  Grad : α
  Children : List Ptr
  Op : String
  Backward : Option (BackwardFn α)

/-- The store of all `Value` records allocated so far. -/
abbrev Heap (α : Type) := List (Value α)

variable {α : Type}

/-- Allocation `&res`: the record goes to the end of the heap and its index
is the new pointer. -/
def alloc (h : Heap α) (v : Value α) : Heap α × Ptr :=
  (h ++ [v], h.length)

/-- `Val(data, label)`. -/
def Val [Field α] (data : α) (label : String) (h : Heap α) : Heap α × Ptr :=
  alloc h ⟨label, data, 0, [], " ", none⟩

/-- `Add(a, b, label)`. -/
def Add [Field α] (a b : Ptr) (label : String) (h : Heap α) : Option (Heap α × Ptr) :=
  match h[a]?, h[b]? with
  | some va, some vb =>
    some (alloc h ⟨label, va.Data + vb.Data, 0, [a, b], "+", some BackwardFn.add⟩)
  | _, _ => none

/-- `AddConst(a, num, label)`. -/
def AddConst [Field α] (a : Ptr) (num : α) (label : String) (h : Heap α) :
    Option (Heap α × Ptr) :=
  let r := Val num "const" h
  Add a r.2 label r.1

/-- `Sub(a, b, label)`. -/
def Sub [Field α] (a b : Ptr) (label : String) (h : Heap α) : Option (Heap α × Ptr) :=
  match h[a]?, h[b]? with
  | some va, some vb =>
    some (alloc h ⟨label, va.Data - vb.Data, 0, [a, b], "-", some BackwardFn.sub⟩)
  | _, _ => none

/-- `SubConst(a, num, label)`. -/
def SubConst [Field α] (a : Ptr) (num : α) (label : String) (h : Heap α) :
    Option (Heap α × Ptr) :=
  let r := Val num "const" h
  Sub a r.2 label r.1

/-- `Mul(a, b, label)`. -/
def Mul [Field α] (a b : Ptr) (label : String) (h : Heap α) : Option (Heap α × Ptr) :=
  match h[a]?, h[b]? with
  | some va, some vb =>
    some (alloc h ⟨label, va.Data * vb.Data, 0, [a, b], "*", some BackwardFn.mul⟩)
  | _, _ => none

/-- `MulConst(a, num, label)`. -/
def MulConst [Field α] (a : Ptr) (num : α) (label : String) (h : Heap α) :
    Option (Heap α × Ptr) :=
  let r := Val num "const" h
  Mul a r.2 label r.1

/-- `Pow(x, k, label)`. -/
def Pow [Field α] (L : GoLib α) (x : Ptr) (k : α) (label : String) (h : Heap α) :
    Option (Heap α × Ptr) :=
  match h[x]? with
  | some vx =>
    some (alloc h ⟨label, L.Pow vx.Data k, 0, [x], "^ " ++ L.Fmt k, some (BackwardFn.pow k)⟩)
  | none => none

/-- `Div(a, b, label)`: `b_1 := Pow(b, -1, "")` and then `Mul(a, b_1, label)`. -/
def Div [Field α] (L : GoLib α) (a b : Ptr) (label : String) (h : Heap α) :
    Option (Heap α × Ptr) :=
  match Pow L b (-1) "" h with
  | some r => Mul a r.2 label r.1
  | none => none

/-- `DivConst(a, num, label)`. -/
def DivConst [Field α] (L : GoLib α) (a : Ptr) (num : α) (label : String) (h : Heap α) :
    Option (Heap α × Ptr) :=
  let r := Val num "const" h
  Div L a r.2 label r.1

/-- `Exp(x, label)`. -/
def Exp [Field α] (L : GoLib α) (x : Ptr) (label : String) (h : Heap α) :
    Option (Heap α × Ptr) :=
  match h[x]? with
  | some vx => some (alloc h ⟨label, L.Exp vx.Data, 0, [x], "exp", some BackwardFn.exp⟩)
  | none => none

/-- `Tanh(x, label)`. -/
def Tanh [Field α] (L : GoLib α) (x : Ptr) (label : String) (h : Heap α) :
    Option (Heap α × Ptr) :=
  match h[x]? with
  | some vx =>
    let two_x := 2 * vx.Data
    let data := (L.Pow L.E two_x - 1) / (L.Pow L.E two_x + 1)
    some (alloc h ⟨label, data, 0, [x], "Tanh", some BackwardFn.tanh⟩)
  | none => none

/-- The statement `p.Grad += g`; faults when `p` is not a record. -/
def addGrad [Field α] (h : Heap α) (p : Ptr) (g : α) : Option (Heap α) :=
  match h[p]? with
  | some v => some (h.set p { v with Grad := v.Grad + g })
  | none => none

/-- The statement `val.Children[i].Grad += f(val)`, where `f` reads the
heap as it is when the statement runs; faults on a nil `val`, on an index
out of range and on a nil child. -/
def bumpChild [Field α] (h : Heap α) (val : Ptr) (i : Nat)
    (f : Value α → Option α) : Option (Heap α) :=
  match h[val]? with
  | none => none
  | some v =>
    match v.Children[i]? with
    | none => none
    | some c =>
      match f v with
      | none => none
      | some g => addGrad h c g

/-- The value `val.Children[i].Data`, read from heap `h`. -/
def childData (h : Heap α) (v : Value α) (i : Nat) : Option α :=
  match v.Children[i]? with
  | none => none
  | some c =>
    match h[c]? with
    | none => none
    | some vc => some vc.Data

/-- Running the closure `fn` on `val`, statement by statement. -/
def runBackward [Field α] (L : GoLib α) (fn : BackwardFn α) (val : Ptr) (h : Heap α) :
    Option (Heap α) :=
  match fn with
  | BackwardFn.add =>
    match bumpChild h val 0 (fun v => some v.Grad) with
    | none => none
    | some h1 => bumpChild h1 val 1 (fun v => some v.Grad)
  | BackwardFn.sub =>
    match bumpChild h val 0 (fun v => some v.Grad) with
    | none => none
    | some h1 => bumpChild h1 val 1 (fun v => some v.Grad)
  | BackwardFn.mul =>
    match bumpChild h val 0 (fun v => (childData h v 1).map (fun d => d * v.Grad)) with
    | none => none
    | some h1 => bumpChild h1 val 1 (fun v => (childData h1 v 0).map (fun d => d * v.Grad))
  | BackwardFn.pow k =>
    match h[val]? with
    | none => none
    | some v =>
      match childData h v 0 with
      | none => none
      | some d =>
        let derivative := k * L.Pow d (k - 1)
        bumpChild h val 0 (fun v => some (derivative * v.Grad))
  | BackwardFn.exp =>
    bumpChild h val 0 (fun v => some (v.Data * v.Grad))
  | BackwardFn.tanh =>
    match h[val]? with
    | none => none
    | some v =>
      match childData h v 0 with
      | none => none
      | some d =>
        let derivative := 1 - L.Pow (L.Tanh d) 2
        bumpChild h val 0 (fun v => some (derivative * v.Grad))

/-- The two variables `buildTopology` closes over: the slice `topology` and
the map `visited` (the list of the keys mapped to `true`). -/
structure TopoState where
  topology : List Ptr
  visited : List Ptr

/-- The loop `for _, child := range val.Children { buildTopology(child) }`,
with the loop body as a parameter. -/
def forChildren (body : Ptr → TopoState → Option TopoState) :
    List Ptr → TopoState → Option TopoState
  | [], st => some st
  | child :: rest, st =>
    match body child st with
    | none => none
    | some st1 => forChildren body rest st1

/-- The closure `buildTopology` of `Backprop`; `none` when the fuel runs
out or a nil pointer is dereferenced. -/
def buildTopology (h : Heap α) : Nat → Ptr → TopoState → Option TopoState
  | 0, _, _ => none
  | fuel + 1, val, st =>
    if val ∈ st.visited then some st
    else
      match h[val]? with
      | none => none
      | some v =>
        match forChildren (buildTopology h fuel) v.Children
            { st with visited := val :: st.visited } with
        | none => none
        | some st1 => some { st1 with topology := st1.topology ++ [val] }

/-- The loop `for i := len(topology) - 1; i >= 0; i--` of `Backprop`; the
first argument counts the iterations left, so the index in this iteration
is one less. -/
def backwardLoop [Field α] (L : GoLib α) (topology : List Ptr) :
    Nat → Heap α → Option (Heap α)
  | 0, h => some h
  | i + 1, h =>
    match topology[i]? with
    | none => none
    | some node =>
      match h[node]? with
      | none => none
      | some v =>
        match v.Backward with
        | none => backwardLoop L topology i h
        | some fn =>
          match runBackward L fn node h with
          | none => none
          | some h1 => backwardLoop L topology i h1

/-- The slice `topology` as `Backprop` has it after `buildTopology(x)`. -/
def topologyOf (h : Heap α) (x : Ptr) : Option (List Ptr) :=
  (buildTopology h (h.length + 1) x ⟨[], []⟩).map (fun st => st.topology)

/-- The method `x.Backprop()`: the heap after the call, `none` on a fault. -/
def Backprop [Field α] (L : GoLib α) (x : Ptr) (h : Heap α) : Option (Heap α) :=
  match topologyOf h x with
  | none => none
  | some topology =>
    match h[x]? with
    | none => none
    | some vx =>
      backwardLoop L topology topology.length (h.set x { vx with Grad := 1 })

/-- The field `p.Grad` in heap `h`. -/
def gradOf (h : Heap α) (p : Ptr) : Option α :=
  (h[p]?).map (fun v => v.Grad)

/-- The field `p.Data` in heap `h`. -/
def dataOf (h : Heap α) (p : Ptr) : Option α :=
  (h[p]?).map (fun v => v.Data)

/-- The field `p.Children` in heap `h`. -/
def childrenOf (h : Heap α) (p : Ptr) : Option (List Ptr) :=
  (h[p]?).map (fun v => v.Children)

/-! ## Notions used to state the properties -/

/-- A `Children` link: `c` is an operand of the record at `p`. -/
def Link (h : Heap α) (p c : Ptr) : Prop :=
  ∃ v : Value α, h[p]? = some v ∧ c ∈ v.Children

/-- Reachability through zero or more `Children` links. -/
def Reachable (h : Heap α) (root p : Ptr) : Prop :=
  Relation.ReflTransGen (Link h) root p

/-- The operand graph is acyclic: no record reaches itself through one or
more `Children` links. -/
def Acyclic (h : Heap α) : Prop :=
  ∀ p, ¬ Relation.TransGen (Link h) p p

/-- No `Children` slice holds a nil (dangling) pointer. -/
def Closed (h : Heap α) : Prop :=
  ∀ (p : Ptr) (v : Value α), h[p]? = some v → ∀ c ∈ v.Children, c < h.length

/-- Every record only has operands allocated before it, which is how the
constructors of the engine build a graph. Checked from index `i` on. -/
def builtInOrderFrom : Nat → List (Value α) → Bool
  | _, [] => true
  | i, v :: rest => v.Children.all (fun c => decide (c < i)) && builtInOrderFrom (i + 1) rest

/-- Every record of the heap only has operands allocated before it. -/
def builtInOrder (h : Heap α) : Bool :=
  builtInOrderFrom 0 h

/-- The operands of every entry of `l` are in `S` or stand earlier in `l`. -/
def OperandsFirst (h : Heap α) : (Ptr → Prop) → List Ptr → Prop
  | _, [] => True
  | S, x :: xs => (∀ c, Link h x c → S c) ∧ OperandsFirst h (fun y => S y ∨ y = x) xs

/-- What a run of the traversal adds when it takes the state `st` to `st1`:
the entries `new` are appended to `topology` and marked visited, they are
distinct and were not visited before, each is reachable from a start node in
`T`, and the operands of each were visited before or stand earlier in `new`. -/
structure Extends (h : Heap α) (T : Ptr → Prop) (st st1 : TopoState) (new : List Ptr) :
    Prop where
  topo : st1.topology = st.topology ++ new
  vis : ∀ x, x ∈ st1.visited ↔ x ∈ st.visited ∨ x ∈ new
  nodup : new.Nodup
  fresh : ∀ x ∈ new, x ∉ st.visited
  reach : ∀ x ∈ new, ∃ t, T t ∧ Reachable h t x
  order : OperandsFirst h (fun y => y ∈ st.visited) new

/-- The nodes whose `Backward` closure the loop of `Backprop` calls, in the
order of the calls: the loop `backwardLoop` with a record of each call in
place of the heap it returns. -/
def backwardCalls [Field α] (L : GoLib α) (topology : List Ptr) :
    Nat → Heap α → List Ptr
  | 0, _ => []
  | i + 1, h =>
    match topology[i]? with
    | none => []
    | some node =>
      match h[node]? with
      | none => []
      | some v =>
        match v.Backward with
        | none => backwardCalls L topology i h
        | some fn =>
          match runBackward L fn node h with
          | none => [node]
          | some h1 => node :: backwardCalls L topology i h1

/-- A graph with a shared operand: `y`, `a`, `b` are leaves, `p = Mul(y, a)`,
`q = Mul(y, b)` and `r = Add(p, q)`, at the pointers 0 to 5. -/
def sharedHeap : Heap ℝ :=
  [⟨"y", 3, 0, [], " ", none⟩, ⟨"a", 4, 0, [], " ", none⟩, ⟨"b", 5, 0, [], " ", none⟩,
   ⟨"p", 12, 0, [0, 1], "*", some BackwardFn.mul⟩, ⟨"q", 15, 0, [0, 2], "*", some BackwardFn.mul⟩,
   ⟨"r", 27, 0, [3, 4], "+", some BackwardFn.add⟩]

/-! ## Test programs of the rules and the worked example of the source -/

/-- The program `a := Val(u, "a"); b := Val(v, "b"); c := op(a, b, "c");
c.Backprop()` run on the heap `h0`, for a two-operand constructor `op`: the
heap after the program and the pointers `a`, `b`, `c`. -/
def binaryProgram [Field α] (op : Ptr → Ptr → String → Heap α → Option (Heap α × Ptr))
    (L : GoLib α) (u v : α) (h0 : Heap α) : Option (Heap α × Ptr × Ptr × Ptr) :=
  let ra := Val u "a" h0
  let rb := Val v "b" ra.1
  match op ra.2 rb.2 "c" rb.1 with
  | none => none
  | some rc =>
    match Backprop L rc.2 rc.1 with
    | none => none
    | some hf => some (hf, ra.2, rb.2, rc.2)

/-- The program `x := Val(v, "x"); y := Pow(x, k, "y"); y.Backprop()` run on
the heap `h0`: the heap after the program and the pointers `x`, `y`. -/
def powProgram [Field α] (L : GoLib α) (v k : α) (h0 : Heap α) :
    Option (Heap α × Ptr × Ptr) :=
  let rx := Val v "x" h0
  match Pow L rx.2 k "y" rx.1 with
  | none => none
  | some ry =>
    match Backprop L ry.2 ry.1 with
    | none => none
    | some hf => some (hf, rx.2, ry.2)

/-- The program `y := Val(v, "y"); p := Mul(y, y, "p"); p.Backprop()` run on
the heap `h0`: the heap after the program and the pointers `y`, `p`. -/
def squareProgram [Field α] (L : GoLib α) (v : α) (h0 : Heap α) :
    Option (Heap α × Ptr × Ptr) :=
  let ry := Val v "y" h0
  match Mul ry.2 ry.2 "p" ry.1 with
  | none => none
  | some rp =>
    match Backprop L rp.2 rp.1 with
    | none => none
    | some hf => some (hf, ry.2, rp.2)

/-- The program `y := Val(vy); a := Val(va); b := Val(vb); p := Mul(y, a);
q := Mul(y, b); r := Add(p, q); r.Backprop()` run on the heap `h0`: the heap
after the program and the pointers `y`, `a`, `b`, `r`. -/
def sharedProgram [Field α] (L : GoLib α) (vy va vb : α) (h0 : Heap α) :
    Option (Heap α × Ptr × Ptr × Ptr × Ptr) := do
  let (h1, y) := Val vy "y" h0
  let (h2, a) := Val va "a" h1
  let (h3, b) := Val vb "b" h2
  let (h4, p) ← Mul y a "p" h3
  let (h5, q) ← Mul y b "q" h4
  let (h6, r) ← Add p q "r" h5
  let hf ← Backprop L r h6
  pure (hf, y, a, b, r)

/-- The body of `example1` up to `o.Backprop()`, with the five input values
as parameters: the heap with the graph and the pointers `w1`, `w2`, `n`, `o`. -/
def example1Graph [Field α] (L : GoLib α) (x1v x2v w1v w2v bv : α) (h0 : Heap α) :
    Option (Heap α × Ptr × Ptr × Ptr × Ptr) := do
  let (h1, x1) := Val x1v "x1" h0
  let (h2, x2) := Val x2v "x2" h1
  let (h3, w1) := Val w1v "w1" h2
  let (h4, w2) := Val w2v "w2" h3
  let (h5, b) := Val bv "b" h4
  let (h6, x1w1) ← Mul x1 w1 "x1*w1" h5
  let (h7, x2w2) ← Mul x2 w2 "x2*w2" h6
  let (h8, x1w1x2w2) ← Add x1w1 x2w2 "x1*w1 + x2*w2" h7
  let (h9, n) ← Add x1w1x2w2 b "n" h8
  let (h10, n2) ← MulConst n 2 "2n" h9
  let (h11, e) ← Exp L n2 "e^2n" h10
  let (h12, em1) ← SubConst e 1 "e^2n-1" h11
  let (h13, ep1) ← AddConst e 1 "e^2n+1" h12
  let (h14, o) ← Div L em1 ep1 "tanh_sub" h13
  pure (h14, w1, w2, n, o)

/-- The function `example1` with the five input values as parameters (the
call of `VisualiseValue` left out): the heap after `o.Backprop()` and the
pointers `w1`, `w2`, `n`, `o`. -/
def example1With [Field α] (L : GoLib α) (x1v x2v w1v w2v bv : α) (h0 : Heap α) :
    Option (Heap α × Ptr × Ptr × Ptr × Ptr) := do
  let (h, w1, w2, n, o) ← example1Graph L x1v x2v w1v w2v bv h0
  let hf ← Backprop L o h
  pure (hf, w1, w2, n, o)

/-- The function `example1` with the input values of the source. -/
def example1 [Field α] (L : GoLib α) (h0 : Heap α) :
    Option (Heap α × Ptr × Ptr × Ptr × Ptr) :=
  example1With L 2 0 (-3) 1 6.8813735970195432 h0

/-- The value `c.Data` that `binaryProgram` ends with, as a function of the
two input values `u` and `v` (0 if the program faults). -/
def binaryValue [Field α] (op : Ptr → Ptr → String → Heap α → Option (Heap α × Ptr))
    (L : GoLib α) (h0 : Heap α) (u v : α) : α :=
  match binaryProgram op L u v h0 with
  | none => 0
  | some r => (dataOf r.1 r.2.2.2).getD 0

/-- The program `x := Val(v, "x"); y := op(x, "y"); y.Backprop()` run on the
heap `h0`, for a one-operand constructor `op`: the heap after the program and
the pointers `x`, `y`. -/
def unaryProgram [Field α] (op : Ptr → String → Heap α → Option (Heap α × Ptr))
    (L : GoLib α) (v : α) (h0 : Heap α) : Option (Heap α × Ptr × Ptr) :=
  let rx := Val v "x" h0
  match op rx.2 "y" rx.1 with
  | none => none
  | some ry =>
    match Backprop L ry.2 ry.1 with
    | none => none
    | some hf => some (hf, rx.2, ry.2)

/-- Every record of `h` is the same record of `h1`: with its `Label`, `Data`,
`Grad`, `Children`, `Op` and `Backward`. -/
def Unchanged (h h1 : Heap α) : Prop :=
  ∀ (q : Ptr) (w : Value α), h[q]? = some w → h1[q]? = some w

/-- The pointer `p` is a record of `h1` that `h` does not have, its `Grad` is
0 and its `Children` are `children`. -/
def FreshNode [Field α] (h h1 : Heap α) (p : Ptr) (children : List Ptr) : Prop :=
  h.length ≤ p ∧ gradOf h1 p = some 0 ∧ childrenOf h1 p = some children

/-- Two leaves `a = Val(6)` and `b = Val(3)` at the pointers 0 and 1. -/
def twoLeaves : Heap ℝ :=
  [⟨"a", 6, 0, [], " ", none⟩, ⟨"b", 3, 0, [], " ", none⟩]

/-! ## Notions used to state what `Backprop` does to the gradients -/

/-- Resetting the `Grad` of every record of the heap to 0. -/
def resetGrads [Field α] (h : Heap α) : Heap α :=
  h.map (fun v => { v with Grad := 0 })

/-- The field `p.Grad` in heap `h`, read as 0 when `p` is not a record. -/
def gradD [Field α] (h : Heap α) (p : Ptr) : α :=
  (gradOf h p).getD 0

/-- The number of operand slots that the closure indexes: `Children[0]` and
`Children[1]` for `Add`, `Sub` and `Mul`, `Children[0]` for the others. -/
def BackwardFn.arity : BackwardFn α → Nat
  | BackwardFn.add => 2
  | BackwardFn.sub => 2
  | BackwardFn.mul => 2
  | BackwardFn.pow _ => 1
  | BackwardFn.exp => 1
  | BackwardFn.tanh => 1

/-- The factor that the closure `fn` of the record `v` puts on `v.Grad` in
the statement for operand slot `i`: 1 for `Add` and for `Sub`, the `Data` of
the other operand for `Mul`, `k * math.Pow(x, k-1)` for `Pow`, `v.Data` for
`Exp` and `1 - math.Pow(math.Tanh(x), 2)` for `Tanh`. -/
def slotPartial [Field α] (L : GoLib α) (h : Heap α) (v : Value α) (fn : BackwardFn α)
    (i : Nat) : α :=
  match fn, i with
  | BackwardFn.add, _ => 1
  | BackwardFn.sub, _ => 1
  | BackwardFn.mul, 0 => (childData h v 1).getD 0
  | BackwardFn.mul, _ => (childData h v 0).getD 0
  | BackwardFn.pow k, _ => k * L.Pow ((childData h v 0).getD 0) (k - 1)
  | BackwardFn.exp, _ => v.Data
  | BackwardFn.tanh, _ => 1 - L.Pow (L.Tanh ((childData h v 0).getD 0)) 2

/-- What the `Backward` closure of `p` adds to `n.Grad`: the sum, over the
operand slots `i` of `p` with `p.Children[i] = n`, of the factor of the slot
times `p.Grad`. -/
def pushed [Field α] (L : GoLib α) (h : Heap α) (p n : Ptr) : α :=
  match h[p]? with
  | none => 0
  | some v =>
    match v.Backward with
    | none => 0
    | some fn =>
      ((List.range fn.arity).map (fun i =>
        if v.Children[i]? = some n then slotPartial L h v fn i * v.Grad else 0)).sum

/-- Every record with a `Backward` closure has the operand slots that the
closure indexes. -/
def ArityOk (h : Heap α) : Prop :=
  ∀ (p : Ptr) (v : Value α) (fn : BackwardFn α), h[p]? = some v →
    v.Backward = some fn → fn.arity ≤ v.Children.length

/-- The loop of `Backprop` as a pass over the list of the nodes in the order
in which the loop takes them (the slice `topology` reversed). -/
def runNodes [Field α] (L : GoLib α) : List Ptr → Heap α → Option (Heap α)
  | [], h => some h
  | node :: rest, h =>
    match h[node]? with
    | none => none
    | some v =>
      match v.Backward with
      | none => runNodes L rest h
      | some fn =>
        match runBackward L fn node h with
        | none => none
        | some h1 => runNodes L rest h1

/-- Every record of the heap has `Grad` 0. -/
def AllGradZero [Field α] (h : Heap α) : Prop :=
  ∀ (p : Ptr) (v : Value α), h[p]? = some v → v.Grad = 0

/-- A check of `ArityOk` that runs: every record with a closure has at least
as many operands as the closure indexes. -/
def arityCheck (h : Heap α) : Bool :=
  h.all (fun v =>
    match v.Backward with
    | none => true
    | some fn => decide (fn.arity ≤ v.Children.length))

/-- A graph two levels deep: `a`, `b`, `c` are leaves, `m = Add(a, b)` and
`r = Add(m, c)`, at the pointers 0 to 4. -/
def chainHeap : Heap ℝ :=
  [⟨"a", 2, 0, [], " ", none⟩, ⟨"b", 3, 0, [], " ", none⟩, ⟨"c", 4, 0, [], " ", none⟩,
   ⟨"m", 5, 0, [0, 1], "+", some BackwardFn.add⟩, ⟨"r", 9, 0, [3, 2], "+", some BackwardFn.add⟩]

/-- The graph is built only from `Val`, `Add` and `Mul`: every record is a
leaf, with no closure and no operand, or has two operands and the closure of
`Add` or of `Mul`. -/
def AddMulGraph (h : Heap α) : Prop :=
  ∀ (p : Ptr) (v : Value α), h[p]? = some v →
    (v.Backward = none ∧ v.Children = []) ∨
    ∃ a b, v.Children = [a, b] ∧
      (v.Backward = some BackwardFn.add ∨ v.Backward = some BackwardFn.mul)

/-! ## The value of the root as a function of the value of one node -/

/-- The field `p.Data` in heap `h`, read as 0 when `p` is not a record. -/
def dataD [Field α] (h : Heap α) (p : Ptr) : α :=
  (dataOf h p).getD 0

/-- The value of node `i` when the value of node `n` is replaced by `t` and
the nodes above it are computed again by the value rule of their constructor:
`a.Data + b.Data` for `Add` and `a.Data * b.Data` for `Mul`; any other node
keeps its `Data`.  The first argument bounds the depth of the recursion. -/
def valueWith [Field α] (h : Heap α) (n : Ptr) (t : α) : Nat → Ptr → α
  | 0, _ => 0
  | fuel + 1, i =>
    if i = n then t
    else
      match h[i]? with
      | none => 0
      | some v =>
        match v.Backward, v.Children with
        | some BackwardFn.add, [a, b] => valueWith h n t fuel a + valueWith h n t fuel b
        | some BackwardFn.mul, [a, b] => valueWith h n t fuel a * valueWith h n t fuel b
        | _, _ => v.Data

/-- The derivative of `valueWith` in `t`, computed along the same recursion by
the sum and product rules. -/
def tangentWith [Field α] (h : Heap α) (n : Ptr) (t : α) : Nat → Ptr → α
  | 0, _ => 0
  | fuel + 1, i =>
    if i = n then 1
    else
      match h[i]? with
      | none => 0
      | some v =>
        match v.Backward, v.Children with
        | some BackwardFn.add, [a, b] => tangentWith h n t fuel a + tangentWith h n t fuel b
        | some BackwardFn.mul, [a, b] =>
          tangentWith h n t fuel a * valueWith h n t fuel b
            + valueWith h n t fuel a * tangentWith h n t fuel b
        | _, _ => 0

/-- The `Data` of every `Add` node is the sum, and of every `Mul` node the
product, of the `Data` of its two operands, as the constructors compute it. -/
def DataConsistent [Field α] (h : Heap α) : Prop :=
  ∀ (p : Ptr) (v : Value α) (a b : Ptr), h[p]? = some v → v.Children = [a, b] →
    (v.Backward = some BackwardFn.add → v.Data = dataD h a + dataD h b) ∧
    (v.Backward = some BackwardFn.mul → v.Data = dataD h a * dataD h b)



/-- Where `math.Pow(x, k)` is a power of real numbers: for a positive base,
for the base 0 with an exponent that is not negative (`math.Pow(0, 0)` is 1
and `math.Pow(0, k)` is 0 for `k > 0`), and for a negative base with a whole
exponent.  Everywhere else `math.Pow` returns an infinity or NaN. -/
def PowDomain (x k : ℝ) : Prop :=
  0 < x ∨ (x = 0 ∧ 0 ≤ k) ∨ (x < 0 ∧ ∃ n : ℤ, k = n)

/-- The program `p := Mul(y, a, "p"); q := Mul(y, b, "q"); r := Add(p, q, "r");
r.Backprop()` run on the heap `h` for three nodes `y`, `a`, `b` of it: the
heap after the program and the pointers `p`, `q`, `r`. -/
def sharedGraph [Field α] (L : GoLib α) (y a b : Ptr) (h : Heap α) :
    Option (Heap α × Ptr × Ptr × Ptr) := do
  let (h1, p) ← Mul y a "p" h
  let (h2, q) ← Mul y b "q" h1
  let (h3, r) ← Add p q "r" h2
  let hf ← Backprop L r h3
  pure (hf, p, q, r)

/-- Two leaves `y = Val(3)` and `b = Val(5)` at the pointers 0 and 1. -/
def yAndB : Heap ℝ :=
  [⟨"y", 3, 0, [], " ", none⟩, ⟨"b", 5, 0, [], " ", none⟩]

/-- The number of records of the heap that are not in `visited`. -/
def unvisited (h : Heap α) (visited : List Ptr) : Nat :=
  ((Finset.range h.length).filter (fun p => p ∉ visited)).card


/-! ## The traversal `buildTopology`: order, reachability, termination -/

theorem operandsFirst_mono (h : Heap α) {S T : Ptr → Prop} (hST : ∀ y, S y → T y) :
    ∀ l, OperandsFirst h S l → OperandsFirst h T l := by
  intro l
  induction l generalizing S T with
  | nil => intro _; trivial
  | cons x xs ih =>
    intro hl
    refine ⟨fun c hc => hST c (hl.1 c hc), ih ?_ hl.2⟩
    intro y hy
    exact hy.imp (hST y) id

theorem operandsFirst_append (h : Heap α) (S : Ptr → Prop) (l1 l2 : List Ptr)
    (h1 : OperandsFirst h S l1) (h2 : OperandsFirst h (fun y => S y ∨ y ∈ l1) l2) :
    OperandsFirst h S (l1 ++ l2) := by
  induction l1 generalizing S with
  | nil =>
    refine operandsFirst_mono h ?_ l2 h2
    intro y hy
    simpa using hy
  | cons x xs ih =>
    refine ⟨h1.1, ih _ h1.2 (operandsFirst_mono h ?_ l2 h2)⟩
    intro y hy
    rcases hy with hy | hy
    · exact Or.inl (Or.inl hy)
    · rcases List.mem_cons.mp hy with hy | hy
      · exact Or.inl (Or.inr hy)
      · exact Or.inr hy

theorem operandsFirst_restrict (h : Heap α) (Q : Ptr → Prop) :
    ∀ (l : List Ptr) (S : Ptr → Prop), OperandsFirst h S l →
      (∀ x ∈ l, ∀ c, Link h x c → Q c) → OperandsFirst h (fun y => S y ∧ Q y) l := by
  intro l
  induction l with
  | nil => intro _ _ _; trivial
  | cons x xs ih =>
    intro S hl hQ
    refine ⟨fun c hc => ⟨hl.1 c hc, hQ x (List.mem_cons_self _ _) c hc⟩, ?_⟩
    have h2 := ih _ hl.2 (fun y hy c hc => hQ y (List.mem_cons_of_mem _ hy) c hc)
    refine operandsFirst_mono h ?_ xs h2
    intro y hy
    rcases hy with ⟨hy | hy, hq⟩
    · exact Or.inl ⟨hy, hq⟩
    · exact Or.inr hy

theorem operandsFirst_index (h : Heap α) :
    ∀ (l : List Ptr) (S : Ptr → Prop), OperandsFirst h S l →
      ∀ (i : Nat) (x : Ptr), l[i]? = some x → ∀ c, Link h x c →
        S c ∨ ∃ j : Nat, j < i ∧ l[j]? = some c := by
  intro l
  induction l with
  | nil => intro S _ i x hx; simp at hx
  | cons y ys ih =>
    intro S hl i x hx c hc
    cases i with
    | zero =>
      simp at hx
      subst hx
      exact Or.inl (hl.1 c hc)
    | succ i =>
      simp at hx
      rcases ih _ hl.2 i x hx c hc with (hS | hS) | ⟨j, hj, hjc⟩
      · exact Or.inl hS
      · exact Or.inr ⟨0, Nat.succ_pos _, by simp [hS]⟩
      · exact Or.inr ⟨j + 1, Nat.succ_lt_succ hj, by simpa using hjc⟩

theorem forChildren_extends (h : Heap α) (body : Ptr → TopoState → Option TopoState)
    (hbody : ∀ c st st1, body c st = some st1 →
      ∃ new, Extends h (fun t => t = c) st st1 new ∧ c ∈ st1.visited) :
    ∀ cs st st1, forChildren body cs st = some st1 →
      ∃ new, Extends h (fun t => t ∈ cs) st st1 new ∧ ∀ c ∈ cs, c ∈ st1.visited := by
  intro cs
  induction cs with
  | nil =>
    intro st st1 hrun
    simp only [forChildren, Option.some.injEq] at hrun
    subst hrun
    exact ⟨[], ⟨by simp, by simp, List.nodup_nil, by simp, by simp, trivial⟩, by simp⟩
  | cons c rest ih =>
    intro st st2 hrun
    simp only [forChildren] at hrun
    cases hb : body c st with
    | none => simp [hb] at hrun
    | some st1 =>
      simp only [hb] at hrun
      obtain ⟨new1, e1, hc⟩ := hbody c st st1 hb
      obtain ⟨new2, e2, hrest⟩ := ih st1 st2 hrun
      have hmono : ∀ x, x ∈ st1.visited → x ∈ st2.visited := fun x hx =>
        (e2.vis x).mpr (Or.inl hx)
      refine ⟨new1 ++ new2, ⟨?_, ?_, ?_, ?_, ?_, ?_⟩, ?_⟩
      · rw [e2.topo, e1.topo, List.append_assoc]
      · intro x
        rw [e2.vis, e1.vis, List.mem_append, or_assoc]
      · refine List.Nodup.append e1.nodup e2.nodup ?_
        intro x hx1 hx2
        exact e2.fresh x hx2 ((e1.vis x).mpr (Or.inr hx1))
      · intro x hx
        rcases List.mem_append.mp hx with hx | hx
        · exact e1.fresh x hx
        · exact fun hv => e2.fresh x hx ((e1.vis x).mpr (Or.inl hv))
      · intro x hx
        rcases List.mem_append.mp hx with hx | hx
        · obtain ⟨t, ht, hr⟩ := e1.reach x hx
          exact ⟨t, by rw [ht]; exact List.mem_cons_self _ _, hr⟩
        · obtain ⟨t, ht, hr⟩ := e2.reach x hx
          exact ⟨t, List.mem_cons_of_mem _ ht, hr⟩
      · refine operandsFirst_append h _ new1 new2 e1.order ?_
        exact operandsFirst_mono h (fun y hy => (e1.vis y).mp hy) new2 e2.order
      · intro x hx
        rcases List.mem_cons.mp hx with hx | hx
        · rw [hx]; exact hmono c hc
        · exact hrest x hx

theorem buildTopology_extends (h : Heap α) (hac : Acyclic h) :
    ∀ fuel val st st1, buildTopology h fuel val st = some st1 →
      ∃ new, Extends h (fun t => t = val) st st1 new ∧ val ∈ st1.visited := by
  intro fuel
  induction fuel with
  | zero => intro val st st1 hrun; simp [buildTopology] at hrun
  | succ fuel ih =>
    intro val st st2 hrun
    rw [buildTopology] at hrun
    by_cases hvis : val ∈ st.visited
    · rw [if_pos hvis, Option.some.injEq] at hrun
      subst hrun
      exact ⟨[], ⟨by simp, by simp, List.nodup_nil, by simp, by simp, trivial⟩, hvis⟩
    · rw [if_neg hvis] at hrun
      cases hv : h[val]? with
      | none => simp [hv] at hrun
      | some v =>
        simp only [hv] at hrun
        cases hloop : forChildren (buildTopology h fuel) v.Children
            { st with visited := val :: st.visited } with
        | none => simp [hloop] at hrun
        | some st1 =>
          simp only [hloop, Option.some.injEq] at hrun
          subst hrun
          obtain ⟨new, e, hch⟩ := forChildren_extends h (buildTopology h fuel) ih _ _ _ hloop
          have hlink : ∀ c, c ∈ v.Children → Link h val c := fun c hc => ⟨v, hv, hc⟩
          have hne_val : ∀ c, Link h val c → c ≠ val := by
            intro c hc hcv
            rw [hcv] at hc
            exact hac val (Relation.TransGen.single hc)
          have hne : ∀ x ∈ new, ∀ c, Link h x c → c ≠ val := by
            intro x hx c hc hcv
            obtain ⟨t, ht, hr⟩ := e.reach x hx
            rw [hcv] at hc
            exact hac val (Relation.TransGen.tail'
              (Relation.ReflTransGen.head (hlink t ht) hr) hc)
          have hval_new : val ∉ new := fun hx => e.fresh val hx (List.mem_cons_self _ _)
          refine ⟨new ++ [val], ⟨?_, ?_, ?_, ?_, ?_, ?_⟩, ?_⟩
          · show st1.topology ++ [val] = st.topology ++ (new ++ [val])
            rw [e.topo, List.append_assoc]
          · intro x
            show x ∈ st1.visited ↔ _
            rw [e.vis]
            simp only [List.mem_cons, List.mem_append, List.mem_singleton]
            tauto
          · refine List.Nodup.append e.nodup (List.nodup_singleton _) ?_
            intro x hx1 hx2
            rw [List.mem_singleton] at hx2
            rw [hx2] at hx1
            exact hval_new hx1
          · intro x hx
            rcases List.mem_append.mp hx with hx | hx
            · exact fun hv => e.fresh x hx (List.mem_cons_of_mem _ hv)
            · rw [List.mem_singleton] at hx
              rw [hx]; exact hvis
          · intro x hx
            rcases List.mem_append.mp hx with hx | hx
            · obtain ⟨t, ht, hr⟩ := e.reach x hx
              exact ⟨val, rfl, Relation.ReflTransGen.head (hlink t ht) hr⟩
            · rw [List.mem_singleton] at hx
              exact ⟨val, rfl, by rw [hx]; exact Relation.ReflTransGen.refl⟩
          · refine operandsFirst_append h _ new [val] ?_ ?_
            · refine operandsFirst_mono h ?_ new
                (operandsFirst_restrict h (fun c => c ≠ val) new _ e.order hne)
              intro y hy
              rcases List.mem_cons.mp hy.1 with hy1 | hy1
              · exact absurd hy1 hy.2
              · exact hy1
            · refine ⟨?_, trivial⟩
              intro c hc
              obtain ⟨v1, hv1, hc1⟩ := hc
              rw [hv] at hv1
              cases hv1
              have := (e.vis c).mp (hch c hc1)
              rcases this with hcv | hcn
              · rcases List.mem_cons.mp hcv with hcv | hcv
                · exact absurd hcv (hne_val c (hlink c hc1))
                · exact Or.inl hcv
              · exact Or.inr hcn
          · show val ∈ st1.visited
            exact (e.vis val).mpr (Or.inl (List.mem_cons_self _ _))

theorem unvisited_mono (h : Heap α) {vis vis1 : List Ptr} (hsub : ∀ x ∈ vis, x ∈ vis1) :
    unvisited h vis1 ≤ unvisited h vis := by
  unfold unvisited
  apply Finset.card_le_card
  intro x hx
  simp only [Finset.mem_filter] at hx ⊢
  exact ⟨hx.1, fun hv => hx.2 (hsub x hv)⟩

theorem unvisited_cons_lt (h : Heap α) {vis : List Ptr} {val : Ptr} (hval : val < h.length)
    (hnew : val ∉ vis) : unvisited h (val :: vis) < unvisited h vis := by
  unfold unvisited
  apply Finset.card_lt_card
  rw [Finset.ssubset_iff_of_subset]
  · refine ⟨val, ?_, ?_⟩
    · simp only [Finset.mem_filter, Finset.mem_range]
      exact ⟨hval, hnew⟩
    · simp
  · intro x hx
    simp only [Finset.mem_filter] at hx ⊢
    exact ⟨hx.1, fun hv => hx.2 (List.mem_cons_of_mem _ hv)⟩

theorem forChildren_terminates (h : Heap α) (fuel : Nat)
    (body : Ptr → TopoState → Option TopoState)
    (hbody : ∀ c st, c < h.length → unvisited h st.visited < fuel →
      ∃ st1, body c st = some st1 ∧ ∀ x ∈ st.visited, x ∈ st1.visited) :
    ∀ cs st, (∀ c ∈ cs, c < h.length) → unvisited h st.visited < fuel →
      ∃ st1, forChildren body cs st = some st1 ∧ ∀ x ∈ st.visited, x ∈ st1.visited := by
  intro cs
  induction cs with
  | nil => intro st _ _; exact ⟨st, rfl, fun _ hx => hx⟩
  | cons c rest ih =>
    intro st hcs hfuel
    obtain ⟨st1, hb, hsub1⟩ := hbody c st (hcs c (List.mem_cons_self _ _)) hfuel
    obtain ⟨st2, hr, hsub2⟩ := ih st1 (fun x hx => hcs x (List.mem_cons_of_mem _ hx))
      (lt_of_le_of_lt (unvisited_mono h hsub1) hfuel)
    refine ⟨st2, ?_, fun x hx => hsub2 x (hsub1 x hx)⟩
    simp only [forChildren, hb, hr]

theorem buildTopology_terminates (h : Heap α) (hcl : Closed h) :
    ∀ fuel val st, val < h.length → unvisited h st.visited < fuel →
      ∃ st1, buildTopology h fuel val st = some st1 ∧ ∀ x ∈ st.visited, x ∈ st1.visited := by
  intro fuel
  induction fuel with
  | zero => intro val st _ hfuel; exact absurd hfuel (Nat.not_lt_zero _)
  | succ fuel ih =>
    intro val st hval hfuel
    rw [buildTopology]
    by_cases hvis : val ∈ st.visited
    · rw [if_pos hvis]
      exact ⟨st, rfl, fun _ hx => hx⟩
    · rw [if_neg hvis]
      obtain ⟨v, hv⟩ : ∃ v, h[val]? = some v := ⟨h[val], List.getElem?_eq_getElem hval⟩
      have hlt : unvisited h (val :: st.visited) < fuel :=
        lt_of_lt_of_le (unvisited_cons_lt h hval hvis) (Nat.le_of_lt_succ hfuel)
      obtain ⟨st1, hloop, hsub⟩ := forChildren_terminates h fuel (buildTopology h fuel) ih
        v.Children { st with visited := val :: st.visited } (hcl val v hv) hlt
      refine ⟨{ st1 with topology := st1.topology ++ [val] }, ?_, ?_⟩
      · simp only [hv, hloop]
      · intro x hx
        exact hsub x (List.mem_cons_of_mem _ hx)

theorem forChildren_congr (body body1 : Ptr → TopoState → Option TopoState)
    (hb : ∀ c st r, body c st = some r → body1 c st = some r) :
    ∀ cs st r, forChildren body cs st = some r → forChildren body1 cs st = some r := by
  intro cs
  induction cs with
  | nil => intro st r hrun; exact hrun
  | cons c rest ih =>
    intro st r hrun
    simp only [forChildren] at hrun ⊢
    cases hc : body c st with
    | none => simp [hc] at hrun
    | some st1 =>
      simp only [hc] at hrun
      simp only [hb c st st1 hc]
      exact ih st1 r hrun

theorem buildTopology_fuel_succ (h : Heap α) :
    ∀ fuel val st r, buildTopology h fuel val st = some r →
      buildTopology h (fuel + 1) val st = some r := by
  intro fuel
  induction fuel with
  | zero => intro val st r hrun; simp [buildTopology] at hrun
  | succ fuel ih =>
    intro val st r hrun
    rw [buildTopology] at hrun ⊢
    by_cases hvis : val ∈ st.visited
    · rw [if_pos hvis] at hrun ⊢; exact hrun
    · rw [if_neg hvis] at hrun ⊢
      cases hv : h[val]? with
      | none => simp [hv] at hrun
      | some v =>
        simp only [hv] at hrun ⊢
        cases hloop : forChildren (buildTopology h fuel) v.Children
            { st with visited := val :: st.visited } with
        | none => simp [hloop] at hrun
        | some st1 =>
          simp only [hloop] at hrun
          simp only [forChildren_congr _ _ ih _ _ _ hloop]
          exact hrun

theorem buildTopology_fuel_le (h : Heap α) (fuel fuel1 : Nat) (hle : fuel ≤ fuel1)
    (val : Ptr) (st r : TopoState) (hrun : buildTopology h fuel val st = some r) :
    buildTopology h fuel1 val st = some r := by
  induction hle with
  | refl => exact hrun
  | step _ ih => exact buildTopology_fuel_succ h _ val st r ih

theorem unvisited_nil (h : Heap α) : unvisited h [] = h.length := by
  simp [unvisited]

theorem builtInOrderFrom_lt :
    ∀ (l : List (Value α)) (i j : Nat) (v : Value α), builtInOrderFrom i l = true →
      l[j]? = some v → ∀ c ∈ v.Children, c < i + j := by
  intro l
  induction l with
  | nil => intro i j v _ hj; simp at hj
  | cons w rest ih =>
    intro i j v hb hj c hc
    simp only [builtInOrderFrom, Bool.and_eq_true, List.all_eq_true, decide_eq_true_eq] at hb
    cases j with
    | zero =>
      simp at hj
      subst hj
      exact hb.1 c hc
    | succ j =>
      simp at hj
      have h1 : c < i + 1 + j := ih (i + 1) j v hb.2 hj c hc
      rw [Nat.add_assoc, Nat.add_comm 1 j] at h1
      exact h1

theorem builtInOrder_link (h : Heap α) (hb : builtInOrder h = true) {p c : Ptr}
    (hl : Link h p c) : c < p := by
  obtain ⟨v, hv, hc⟩ := hl
  simpa using builtInOrderFrom_lt h 0 p v hb hv c hc

theorem builtInOrder_closed (h : Heap α) (hb : builtInOrder h = true) : Closed h := by
  intro p v hv c hc
  have hp : p < h.length := (List.getElem?_eq_some_iff.mp hv).1
  exact lt_trans (builtInOrder_link h hb ⟨v, hv, hc⟩) hp

theorem builtInOrder_acyclic (h : Heap α) (hb : builtInOrder h = true) : Acyclic h := by
  have key : ∀ a b, Relation.TransGen (Link h) a b → b < a := by
    intro a b hab
    induction hab with
    | single hl => exact builtInOrder_link h hb hl
    | tail _ hl ih => exact lt_trans (builtInOrder_link h hb hl) ih
  intro p hp
  exact lt_irrefl p (key p p hp)

theorem topologyOf_extends (h : Heap α) (root : Ptr) (hcl : Closed h) (hac : Acyclic h)
    (hroot : root < h.length) :
    ∃ topology, topologyOf h root = some topology ∧
      (∀ fuel, h.length < fuel →
        (buildTopology h fuel root ⟨[], []⟩).map (fun st => st.topology) = some topology) ∧
      root ∈ topology ∧
      Extends h (fun t => t = root) ⟨[], []⟩ ⟨topology, topology⟩ topology := by
  obtain ⟨st1, hrun, -⟩ := buildTopology_terminates h hcl (h.length + 1) root ⟨[], []⟩ hroot
    (by rw [unvisited_nil]; exact Nat.lt_succ_self _)
  obtain ⟨new, e, hvis⟩ := buildTopology_extends h hac _ _ _ _ hrun
  have htopo : st1.topology = new := by simpa using e.topo
  refine ⟨new, ?_, ?_, ?_, ?_⟩
  · simp [topologyOf, hrun, htopo]
  · intro fuel hfuel
    rw [buildTopology_fuel_le h _ fuel hfuel root _ st1 hrun]
    simp [htopo]
  · simpa using (e.vis root).mp hvis
  · exact ⟨by simp, by simp, e.nodup, by simp, e.reach, e.order⟩

theorem backwardCalls_count [Field α] (L : GoLib α) (topology : List Ptr) (p : Ptr) :
    ∀ (i : Nat) (h : Heap α),
      (backwardCalls L topology i h).count p ≤ (topology.take i).count p := by
  intro i
  induction i with
  | zero => intro h; simp [backwardCalls]
  | succ i ih =>
    intro h
    rw [backwardCalls]
    cases hn : topology[i]? with
    | none => simp
    | some node =>
      have hi : i < topology.length := (List.getElem?_eq_some_iff.mp hn).1
      have hnode : topology[i] = node := (List.getElem?_eq_some_iff.mp hn).2
      have htake : (topology.take (i + 1)).count p
          = (topology.take i).count p + [node].count p := by
        rw [List.take_succ, hn]
        simp [List.count_append]
      simp only []
      cases hv : h[node]? with
      | none => simp
      | some v =>
        simp only []
        cases hb : v.Backward with
        | none =>
          simp only []
          exact le_trans (ih h) (by rw [htake]; exact Nat.le_add_right _ _)
        | some fn =>
          simp only []
          cases hr : runBackward L fn node h with
          | none =>
            simp only []
            rw [htake]
            exact Nat.le_add_left _ _
          | some h1 =>
            simp only []
            rw [htake, List.count_cons, List.count_singleton]
            exact Nat.add_le_add_right (ih h1) _

/-- C2. For an acyclic heap without dangling operands and a root in it, the
slice `topology` that `Backprop` records holds no node twice, and every
operand of the node at index `i` stands at some index `j < i`. -/
theorem topology_operands_first (h : Heap α) (root : Ptr) (hcl : Closed h)
    (hac : Acyclic h) (hroot : root < h.length) :
    ∃ topology, topologyOf h root = some topology ∧ topology.Nodup ∧
      ∀ (i : Nat) (node : Ptr) (v : Value α), topology[i]? = some node →
        h[node]? = some v → ∀ c ∈ v.Children, ∃ j : Nat, j < i ∧ topology[j]? = some c := by
  obtain ⟨topology, hrun, -, -, e⟩ := topologyOf_extends h root hcl hac hroot
  refine ⟨topology, hrun, e.nodup, ?_⟩
  intro i node v hi hv c hc
  rcases operandsFirst_index h topology _ e.order i node hi c ⟨v, hv, hc⟩ with hin | hj
  · simp at hin
  · exact hj

/-- Witness of C2 on the graph `sharedHeap` with root `r`. -/
theorem topology_operands_first_witness :
    ∃ topology, topologyOf sharedHeap 5 = some topology ∧ topology.Nodup ∧
      ∀ (i : Nat) (node : Ptr) (v : Value ℝ), topology[i]? = some node →
        sharedHeap[node]? = some v →
          ∀ c ∈ v.Children, ∃ j : Nat, j < i ∧ topology[j]? = some c :=
  topology_operands_first sharedHeap 5 (builtInOrder_closed _ rfl)
    (builtInOrder_acyclic _ rfl) (by decide)

/-- C3. For an acyclic heap without dangling operands and a root in it, the
traversal `buildTopology` returns, with the fuel that `Backprop` gives it and
with any larger fuel; the slice it records holds every node reachable from the
root exactly once and no other node; and the loop of `Backprop` calls the
`Backward` closure of each node at most once, whatever the closures do. -/
theorem topology_exactly_reachable [Field α] (L : GoLib α) (h : Heap α) (root : Ptr)
    (hcl : Closed h) (hac : Acyclic h) (hroot : root < h.length) :
    ∃ topology, topologyOf h root = some topology ∧
      (∀ fuel, h.length < fuel →
        (buildTopology h fuel root ⟨[], []⟩).map (fun st => st.topology) = some topology) ∧
      (∀ p, Reachable h root p → topology.count p = 1) ∧
      (∀ p, ¬ Reachable h root p → topology.count p = 0) ∧
      ∀ (p : Ptr) (h1 : Heap α), (backwardCalls L topology topology.length h1).count p ≤ 1 := by
  obtain ⟨topology, hrun, hfuel, hmem, e⟩ := topologyOf_extends h root hcl hac hroot
  have hclosed : ∀ p, Reachable h root p → p ∈ topology := by
    intro p hp
    induction hp with
    | refl => exact hmem
    | tail _ hl ih =>
      obtain ⟨i, hi⟩ := List.getElem?_of_mem ih
      rcases operandsFirst_index h topology _ e.order i _ hi _ hl with hin | ⟨j, -, hj⟩
      · simp at hin
      · exact List.getElem?_mem hj
  refine ⟨topology, hrun, hfuel, ?_, ?_, ?_⟩
  · intro p hp
    exact List.count_eq_one_of_mem e.nodup (hclosed p hp)
  · intro p hp
    apply List.count_eq_zero_of_not_mem
    intro hin
    obtain ⟨t, ht, hr⟩ := e.reach p hin
    rw [ht] at hr
    exact hp hr
  · intro p h1
    refine le_trans (backwardCalls_count L topology p topology.length h1) ?_
    rw [List.take_length]
    exact List.nodup_iff_count_le_one.mp e.nodup p

/-- Witness of C3 on the graph `sharedHeap` with root `r`. -/
theorem topology_exactly_reachable_witness :
    ∃ topology, topologyOf sharedHeap 5 = some topology ∧
      (∀ fuel, sharedHeap.length < fuel →
        (buildTopology sharedHeap fuel 5 ⟨[], []⟩).map (fun st => st.topology)
          = some topology) ∧
      (∀ p, Reachable sharedHeap 5 p → topology.count p = 1) ∧
      (∀ p, ¬ Reachable sharedHeap 5 p → topology.count p = 0) ∧
      ∀ (p : Ptr) (h1 : Heap ℝ),
        (backwardCalls ⟨fun x k => x ^ k, Real.exp, Real.tanh, Real.exp 1, fun _ => ""⟩
          topology topology.length h1).count p ≤ 1 :=
  topology_exactly_reachable _ sharedHeap 5 (builtInOrder_closed _ rfl)
    (builtInOrder_acyclic _ rfl) (by decide)

/-! ## Running the engine on a graph allocated on top of any heap -/

theorem heap_get_new {β : Type} (h0 l : List β) (i : Nat) :
    (h0 ++ l)[h0.length + i]? = l[i]? := by
  rw [List.getElem?_append_right (Nat.le_add_right _ _), Nat.add_sub_cancel_left]

theorem heap_get_new_zero {β : Type} (h0 l : List β) :
    (h0 ++ l)[h0.length]? = l[0]? := heap_get_new h0 l 0

theorem heap_set_new {β : Type} (h0 l : List β) (i : Nat) (x : β) :
    (h0 ++ l).set (h0.length + i) x = h0 ++ l.set i x := by
  rw [List.set_append_right _ _ (Nat.le_add_right _ _), Nat.add_sub_cancel_left]

theorem heap_set_new_zero {β : Type} (h0 l : List β) (x : β) :
    (h0 ++ l).set h0.length x = h0 ++ l.set 0 x := heap_set_new h0 l 0 x

theorem buildTopology_succ (h : Heap α) (fuel : Nat) (val : Ptr) (st : TopoState) :
    buildTopology h (fuel + 1) val st =
      if val ∈ st.visited then some st
      else
        match h[val]? with
        | none => none
        | some v =>
          match forChildren (buildTopology h fuel) v.Children
              { st with visited := val :: st.visited } with
          | none => none
          | some st1 => some { st1 with topology := st1.topology ++ [val] } := by
  rw [buildTopology]


/-- C6. Multiply rule: on any heap and for all values `u`, `v`, the program
`a := Val(u); b := Val(v); c := Mul(a, b); c.Backprop()` runs without a fault,
`a` and `b` are distinct, `c.Data` is `u * v`, `a.Grad` is `v` and `b.Grad` is
`u`; for `u = 2`, `v = 3` these are 6, 3 and 2. -/
theorem mul_rule [Field α] (L : GoLib α) (u v : α) (h0 : Heap α) :
    (∃ hf a b c, binaryProgram Mul L u v h0 = some (hf, a, b, c) ∧ a ≠ b ∧
      dataOf hf c = some (u * v) ∧ gradOf hf a = some v ∧ gradOf hf b = some u) ∧
    ∃ hf a b c, binaryProgram Mul L 2 3 h0 = some (hf, a, b, c) ∧
      dataOf hf c = some 6 ∧ gradOf hf a = some 3 ∧ gradOf hf b = some 2 := by
  have key : ∀ u v : α, ∃ hf a b c, binaryProgram Mul L u v h0 = some (hf, a, b, c) ∧ a ≠ b ∧
      dataOf hf c = some (u * v) ∧ gradOf hf a = some v ∧ gradOf hf b = some u := by
    intro u v
    simp [-List.getElem?_eq_getElem, List.getElem?_cons_zero, List.getElem?_cons_succ,
      binaryProgram, Val, Mul, alloc, Backprop, topologyOf, buildTopology_succ, forChildren,
      backwardLoop, runBackward, bumpChild, addGrad, childData, Nat.add_assoc,
      heap_get_new, heap_get_new_zero, heap_set_new, heap_set_new_zero]
    refine ⟨_, _, _, _, ⟨rfl, rfl, rfl, rfl⟩, ?_⟩
    simp [-List.getElem?_eq_getElem, List.getElem?_cons_zero, List.getElem?_cons_succ,
      gradOf, dataOf, heap_get_new, heap_get_new_zero]
  refine ⟨key u v, ?_⟩
  obtain ⟨hf, a, b, c, hrun, -, hd, ha, hb⟩ := key 2 3
  exact ⟨hf, a, b, c, hrun, by rw [hd]; norm_num, ha, hb⟩

/-- C7. Add rule: on any heap and for all values `u`, `v`, the program
`a := Val(u); b := Val(v); c := Add(a, b); c.Backprop()` runs without a fault,
`a` and `b` are distinct, `c.Data` is `u + v` and `a.Grad` and `b.Grad` are both
1; for `u = 2`, `v = 3` the value `c.Data` is 5. -/
theorem add_rule [Field α] (L : GoLib α) (u v : α) (h0 : Heap α) :
    (∃ hf a b c, binaryProgram Add L u v h0 = some (hf, a, b, c) ∧ a ≠ b ∧
      dataOf hf c = some (u + v) ∧ gradOf hf a = some 1 ∧ gradOf hf b = some 1) ∧
    ∃ hf a b c, binaryProgram Add L 2 3 h0 = some (hf, a, b, c) ∧
      dataOf hf c = some 5 ∧ gradOf hf a = some 1 ∧ gradOf hf b = some 1 := by
  have key : ∀ u v : α, ∃ hf a b c, binaryProgram Add L u v h0 = some (hf, a, b, c) ∧ a ≠ b ∧
      dataOf hf c = some (u + v) ∧ gradOf hf a = some 1 ∧ gradOf hf b = some 1 := by
    intro u v
    simp [-List.getElem?_eq_getElem, List.getElem?_cons_zero, List.getElem?_cons_succ,
      binaryProgram, Val, Add, alloc, Backprop, topologyOf, buildTopology_succ, forChildren,
      backwardLoop, runBackward, bumpChild, addGrad, childData, Nat.add_assoc,
      heap_get_new, heap_get_new_zero, heap_set_new, heap_set_new_zero]
    refine ⟨_, _, _, _, ⟨rfl, rfl, rfl, rfl⟩, ?_⟩
    simp [-List.getElem?_eq_getElem, List.getElem?_cons_zero, List.getElem?_cons_succ,
      gradOf, dataOf, heap_get_new, heap_get_new_zero]
  refine ⟨key u v, ?_⟩
  obtain ⟨hf, a, b, c, hrun, -, hd, ha, hb⟩ := key 2 3
  exact ⟨hf, a, b, c, hrun, by rw [hd]; norm_num, ha, hb⟩

/-- C10. Subtract rule as implemented: on any heap and for all values `u`,
`v`, the program `a := Val(u); b := Val(v); c := Sub(a, b); c.Backprop()` runs
without a fault, `c.Data` is `u - v` and `a.Grad` and `b.Grad` are both `+1`,
which are the gradients the same program with `Add` in place of `Sub` gives. -/
theorem sub_rule_as_implemented [Field α] (L : GoLib α) (u v : α) (h0 : Heap α) :
    ∃ hf a b c, binaryProgram Sub L u v h0 = some (hf, a, b, c) ∧ a ≠ b ∧
      dataOf hf c = some (u - v) ∧ gradOf hf a = some 1 ∧ gradOf hf b = some 1 ∧
      ∃ hg c1, binaryProgram Add L u v h0 = some (hg, a, b, c1) ∧
        gradOf hg a = gradOf hf a ∧ gradOf hg b = gradOf hf b := by
  simp [-List.getElem?_eq_getElem, List.getElem?_cons_zero, List.getElem?_cons_succ,
    binaryProgram, Val, Sub, Add, alloc, Backprop, topologyOf, buildTopology_succ, forChildren,
    backwardLoop, runBackward, bumpChild, addGrad, childData, Nat.add_assoc,
    heap_get_new, heap_get_new_zero, heap_set_new, heap_set_new_zero]
  refine ⟨_, _, _, _, ⟨rfl, rfl, rfl, rfl⟩, ?_⟩
  simp [-List.getElem?_eq_getElem, List.getElem?_cons_zero, List.getElem?_cons_succ,
    gradOf, dataOf, heap_get_new, heap_get_new_zero]

theorem squareProgram_eval (L : GoLib ℝ) (v : ℝ) (h0 : Heap ℝ) :
    ∃ hf y p, squareProgram L v h0 = some (hf, y, p) ∧ gradOf hf y = some (2 * v) := by
  simp [-List.getElem?_eq_getElem, List.getElem?_cons_zero, List.getElem?_cons_succ,
    squareProgram, Val, Mul, alloc, Backprop, topologyOf, buildTopology_succ, forChildren,
    backwardLoop, runBackward, bumpChild, addGrad, childData, Nat.add_assoc,
    heap_get_new, heap_get_new_zero, heap_set_new, heap_set_new_zero]
  refine ⟨_, _, ⟨rfl, rfl⟩, ?_⟩
  simp [-List.getElem?_eq_getElem, List.getElem?_cons_zero, List.getElem?_cons_succ,
    gradOf, dataOf, heap_get_new, heap_get_new_zero]
  ring

theorem sharedProgram_eval (L : GoLib ℝ) (vy va vb : ℝ) (h0 : Heap ℝ) :
    ∃ hf y a b r, sharedProgram L vy va vb h0 = some (hf, y, a, b, r) ∧
      dataOf hf a = some va ∧ dataOf hf b = some vb ∧ gradOf hf y = some (va + vb) := by
  simp [-List.getElem?_eq_getElem, List.getElem?_cons_zero, List.getElem?_cons_succ,
    sharedProgram, Val, Mul, Add, alloc, Backprop, topologyOf, buildTopology_succ, forChildren,
    backwardLoop, runBackward, bumpChild, addGrad, childData, Nat.add_assoc,
    heap_get_new, heap_get_new_zero, heap_set_new, heap_set_new_zero]
  refine ⟨_, _, _, _, ⟨rfl, rfl, rfl, rfl⟩, ?_⟩
  simp [-List.getElem?_eq_getElem, List.getElem?_cons_zero, List.getElem?_cons_succ,
    gradOf, dataOf, heap_get_new, heap_get_new_zero]
  exact add_comm vb va

theorem powProgram_eval [Field α] (L : GoLib α) (v k : α) (h0 : Heap α) :
    ∃ hf x y, powProgram L v k h0 = some (hf, x, y) ∧
      dataOf hf y = some (L.Pow v k) ∧ gradOf hf x = some (k * L.Pow v (k - 1)) := by
  simp [-List.getElem?_eq_getElem, List.getElem?_cons_zero, List.getElem?_cons_succ,
    powProgram, Val, Pow, alloc, Backprop, topologyOf, buildTopology_succ, forChildren,
    backwardLoop, runBackward, bumpChild, addGrad, childData, Nat.add_assoc,
    heap_get_new, heap_get_new_zero, heap_set_new, heap_set_new_zero]
  refine ⟨_, _, _, ⟨rfl, rfl, rfl⟩, ?_⟩
  simp [-List.getElem?_eq_getElem, List.getElem?_cons_zero, List.getElem?_cons_succ,
    gradOf, dataOf, heap_get_new, heap_get_new_zero]

/-- C8. Power rule.  On any heap and for every value `v` and exponent `k` the
program `x := Val(v); y := Pow(x, k); y.Backprop()` runs without a fault,
`y.Data` is `math.Pow(v, k)` and `x.Grad` is `k * math.Pow(v, k - 1)`.
`math.Pow` is taken to be the power of real numbers only where that power
exists (`PowDomain`): there `y.Data` is `v ^ k` and `x.Grad` is
`k * v ^ (k - 1)`; for `v = 3`, `k = 2` these are 9 and 6. -/
theorem pow_rule (L : GoLib ℝ) (hPow : ∀ x k : ℝ, PowDomain x k → L.Pow x k = x ^ k)
    (v k : ℝ) (h0 : Heap ℝ) :
    (∃ hf x y, powProgram L v k h0 = some (hf, x, y) ∧
      dataOf hf y = some (L.Pow v k) ∧ gradOf hf x = some (k * L.Pow v (k - 1)) ∧
      (PowDomain v k → dataOf hf y = some (v ^ k)) ∧
      (PowDomain v (k - 1) → gradOf hf x = some (k * v ^ (k - 1)))) ∧
    ∃ hf x y, powProgram L 3 2 h0 = some (hf, x, y) ∧
      dataOf hf y = some 9 ∧ gradOf hf x = some 6 := by
  constructor
  · obtain ⟨hf, x, y, hrun, hd, hg⟩ := powProgram_eval L v k h0
    exact ⟨hf, x, y, hrun, hd, hg, fun hdom => by rw [hd, hPow v k hdom],
      fun hdom => by rw [hg, hPow v (k - 1) hdom]⟩
  · obtain ⟨hf, x, y, hrun, hd, hg⟩ := powProgram_eval L 3 2 h0
    have h3 : ∀ k : ℝ, PowDomain 3 k := fun k => Or.inl (by norm_num)
    refine ⟨hf, x, y, hrun, ?_, ?_⟩
    · rw [hd, hPow 3 2 (h3 2), Real.rpow_two]; norm_num
    · rw [hg, hPow 3 (2 - 1) (h3 _)]; norm_num

/-- Witness of C8 with the negative base `v = -2` and the whole exponent
`k = 3` on the empty heap, where `y.Data` is `(-2) ^ 3` and `x.Grad` is
`3 * (-2) ^ 2`. -/
theorem pow_rule_witness :
    (∃ hf x y, powProgram ⟨fun x k => x ^ k, Real.exp, Real.tanh, Real.exp 1, fun _ => ""⟩
        (-2 : ℝ) 3 [] = some (hf, x, y) ∧
      dataOf hf y = some ((-2 : ℝ) ^ (3 : ℝ)) ∧
      gradOf hf x = some ((3 : ℝ) * (-2 : ℝ) ^ ((3 : ℝ) - 1))) ∧
    ∃ hf x y, powProgram ⟨fun x k => x ^ k, Real.exp, Real.tanh, Real.exp 1, fun _ => ""⟩
        (3 : ℝ) 2 [] = some (hf, x, y) ∧
      dataOf hf y = some 9 ∧ gradOf hf x = some 6 := by
  obtain ⟨⟨hf, x, y, hrun, -, -, hd, hg⟩, hex⟩ :=
    pow_rule ⟨fun x k => x ^ k, Real.exp, Real.tanh, Real.exp 1, fun _ => ""⟩
      (fun _ _ _ => rfl) (-2) 3 []
  exact ⟨⟨hf, x, y, hrun, hd (Or.inr (Or.inr ⟨by norm_num, 3, by norm_num⟩)),
    hg (Or.inr (Or.inr ⟨by norm_num, 2, by norm_num⟩))⟩, hex⟩

theorem divProgram_eval [Field α] (L : GoLib α) (u v : α) (h0 : Heap α) :
    ∃ hf a b d, binaryProgram (Div L) L u v h0 = some (hf, a, b, d) ∧ a ≠ b ∧
      dataOf hf d = some (u * L.Pow v (-1)) ∧ gradOf hf a = some (L.Pow v (-1)) ∧
      gradOf hf b = some (-1 * L.Pow v (-1 - 1) * u) ∧
      ∃ b1, childrenOf hf d = some [a, b1] ∧ childrenOf hf b1 = some [b] := by
  simp [-List.getElem?_eq_getElem, List.getElem?_cons_zero, List.getElem?_cons_succ,
    binaryProgram, Val, Mul, Div, Pow, alloc, Backprop, topologyOf, buildTopology_succ,
    forChildren, backwardLoop, runBackward, bumpChild, addGrad, childData, Nat.add_assoc,
    heap_get_new, heap_get_new_zero, heap_set_new, heap_set_new_zero]
  refine ⟨_, _, _, _, ⟨rfl, rfl, rfl, rfl⟩, ?_⟩
  simp [-List.getElem?_eq_getElem, List.getElem?_cons_zero, List.getElem?_cons_succ,
    gradOf, dataOf, childrenOf, heap_get_new, heap_get_new_zero]

theorem binaryValue_div [Field α] (L : GoLib α) (h0 : Heap α) (u v : α) :
    binaryValue (Div L) L h0 u v = u * L.Pow v (-1) := by
  obtain ⟨hf, a, b, d, hrun, -, hd, -⟩ := divProgram_eval L u v h0
  simp [binaryValue, hrun, hd]

theorem subProgram_eval [Field α] (L : GoLib α) (u v : α) (h0 : Heap α) :
    ∃ hf a b c, binaryProgram Sub L u v h0 = some (hf, a, b, c) ∧
      dataOf hf c = some (u - v) ∧ gradOf hf b = some 1 ∧ childrenOf hf c = some [a, b] := by
  simp [-List.getElem?_eq_getElem, List.getElem?_cons_zero, List.getElem?_cons_succ,
    binaryProgram, Val, Sub, alloc, Backprop, topologyOf, buildTopology_succ, forChildren,
    backwardLoop, runBackward, bumpChild, addGrad, childData, Nat.add_assoc,
    heap_get_new, heap_get_new_zero, heap_set_new, heap_set_new_zero]
  refine ⟨_, _, _, _, ⟨rfl, rfl, rfl, rfl⟩, ?_⟩
  simp [-List.getElem?_eq_getElem, List.getElem?_cons_zero, List.getElem?_cons_succ,
    gradOf, dataOf, childrenOf, heap_get_new, heap_get_new_zero]

theorem binaryValue_sub [Field α] (L : GoLib α) (h0 : Heap α) (u v : α) :
    binaryValue Sub L h0 u v = u - v := by
  obtain ⟨hf, a, b, c, hrun, hd, -⟩ := subProgram_eval L u v h0
  simp [binaryValue, hrun, hd]

/-- C9. Divide: when `math.Pow` is the real power function, for all `u` and
`v ≠ 0` the program `a := Val(u); b := Val(v); d := Div(a, b); d.Backprop()`
runs without a fault, `d.Data` is `u * v ^ (-1)`, `a.Grad` is `v ^ (-1)` and
`b.Grad` is `-u * v ^ (-2)`; `d` is the product of `a` and an intermediate node
whose only operand is `b`; and the two gradients are the partial derivatives
of the value of `d`, which is `u / v`, in `u` and in `v`. -/
theorem div_rule (L : GoLib ℝ) (hPow : ∀ x k : ℝ, L.Pow x k = x ^ k) (u v : ℝ)
    (hv : v ≠ 0) (h0 : Heap ℝ) :
    ∃ hf a b d, binaryProgram (Div L) L u v h0 = some (hf, a, b, d) ∧ a ≠ b ∧
      dataOf hf d = some (u * v ^ (-1 : ℝ)) ∧
      gradOf hf a = some (v ^ (-1 : ℝ)) ∧
      gradOf hf b = some (-u * v ^ (-2 : ℝ)) ∧
      (∃ b1, childrenOf hf d = some [a, b1] ∧ childrenOf hf b1 = some [b]) ∧
      binaryValue (Div L) L h0 = (fun s t => s / t) ∧
      HasDerivAt (fun s => binaryValue (Div L) L h0 s v) (v ^ (-1 : ℝ)) u ∧
      HasDerivAt (fun t => binaryValue (Div L) L h0 u t) (-u * v ^ (-2 : ℝ)) v := by
  obtain ⟨hf, a, b, d, hrun, hab, hd, ha, hb, hch⟩ := divProgram_eval L u v h0
  have hval : binaryValue (Div L) L h0 = (fun s t => s / t) := by
    funext s t
    rw [binaryValue_div, hPow, Real.rpow_neg_one, div_eq_mul_inv]
  have hm2 : v ^ (-2 : ℝ) = (v ^ 2)⁻¹ := by
    have h2 : (-2 : ℝ) = ((-2 : ℤ) : ℝ) := by norm_num
    rw [h2, Real.rpow_intCast, zpow_neg, zpow_ofNat]
  refine ⟨hf, a, b, d, hrun, hab, ?_, ?_, ?_, hch, hval, ?_, ?_⟩
  · rw [hd, hPow]
  · rw [ha, hPow]
  · rw [hb, hPow]
    congr 1
    have h2 : (-1 - 1 : ℝ) = -2 := by norm_num
    rw [h2]
    ring
  · rw [hval, Real.rpow_neg_one]
    simpa using (hasDerivAt_id u).div_const v
  · rw [hval, hm2]
    have := (hasDerivAt_const v u).div (hasDerivAt_id v) hv
    convert this using 1
    simp
    field_simp

/-- Witness of C9 with `u = 6`, `v = 3` on the empty heap. -/
theorem div_rule_witness :
    ∃ hf a b d,
      binaryProgram (Div ⟨fun x k => x ^ k, Real.exp, Real.tanh, Real.exp 1, fun _ => ""⟩)
        ⟨fun x k => x ^ k, Real.exp, Real.tanh, Real.exp 1, fun _ => ""⟩ (6 : ℝ) 3 []
        = some (hf, a, b, d) ∧ a ≠ b ∧
      dataOf hf d = some ((6 : ℝ) * (3 : ℝ) ^ (-1 : ℝ)) ∧
      gradOf hf a = some ((3 : ℝ) ^ (-1 : ℝ)) ∧
      gradOf hf b = some (-(6 : ℝ) * (3 : ℝ) ^ (-2 : ℝ)) ∧
      (∃ b1, childrenOf hf d = some [a, b1] ∧ childrenOf hf b1 = some [b]) ∧
      binaryValue (Div ⟨fun x k => x ^ k, Real.exp, Real.tanh, Real.exp 1, fun _ => ""⟩)
        ⟨fun x k => x ^ k, Real.exp, Real.tanh, Real.exp 1, fun _ => ""⟩ []
        = (fun s t => s / t) ∧
      HasDerivAt (fun s => binaryValue
        (Div ⟨fun x k => x ^ k, Real.exp, Real.tanh, Real.exp 1, fun _ => ""⟩)
        ⟨fun x k => x ^ k, Real.exp, Real.tanh, Real.exp 1, fun _ => ""⟩ [] s 3)
        ((3 : ℝ) ^ (-1 : ℝ)) 6 ∧
      HasDerivAt (fun t => binaryValue
        (Div ⟨fun x k => x ^ k, Real.exp, Real.tanh, Real.exp 1, fun _ => ""⟩)
        ⟨fun x k => x ^ k, Real.exp, Real.tanh, Real.exp 1, fun _ => ""⟩ [] 6 t)
        (-(6 : ℝ) * (3 : ℝ) ^ (-2 : ℝ)) 3 :=
  div_rule _ (fun _ _ => rfl) 6 3 (by norm_num) []

/-- C1, at the input where it fails: after `a := Val(u); b := Val(v);
c := Sub(a, b); c.Backprop()` the node `b` is reachable from the root `c` and
`b.Grad` is `+1`, while the derivative of the value of `c` in the value of `b`
is `-1`. -/
theorem sub_gradient_is_not_derivative (L : GoLib ℝ) (u v : ℝ) (h0 : Heap ℝ) :
    ∃ hf a b c, binaryProgram Sub L u v h0 = some (hf, a, b, c) ∧
      Reachable hf c b ∧ gradOf hf b = some 1 ∧
      HasDerivAt (fun t => binaryValue Sub L h0 u t) (-1) v := by
  obtain ⟨hf, a, b, c, hrun, -, hb, hch⟩ := subProgram_eval L u v h0
  refine ⟨hf, a, b, c, hrun, ?_, hb, ?_⟩
  · obtain ⟨vc, hvc, hchildren⟩ := Option.map_eq_some'.mp hch
    exact Relation.ReflTransGen.single ⟨vc, hvc, by rw [hchildren]; simp⟩
  · have hval : (fun t => binaryValue Sub L h0 u t) = (fun t => u - t) := by
      funext t
      exact binaryValue_sub L h0 u t
    rw [hval]
    simpa using (hasDerivAt_id v).const_sub u

/-! ## The worked example `example1` -/

set_option maxHeartbeats 4000000 in
theorem example1With_eval [Field α] (L : GoLib α) (x1 x2 w1 w2 b : α) (h0 : Heap α) :
    ∃ hf pw1 pw2 pn po, example1With L x1 x2 w1 w2 b h0 = some (hf, pw1, pw2, pn, po) ∧
      dataOf hf pn = some (x1 * w1 + x2 * w2 + b) ∧
      dataOf hf po = some ((L.Exp ((x1 * w1 + x2 * w2 + b) * 2) - 1) *
        L.Pow (L.Exp ((x1 * w1 + x2 * w2 + b) * 2) + 1) (-1)) ∧
      gradOf hf pw1 = some (x1 * (2 * (L.Exp ((x1 * w1 + x2 * w2 + b) * 2) *
        (-(L.Pow (L.Exp ((x1 * w1 + x2 * w2 + b) * 2) + 1) (-1 - 1) *
            (L.Exp ((x1 * w1 + x2 * w2 + b) * 2) - 1)) +
          L.Pow (L.Exp ((x1 * w1 + x2 * w2 + b) * 2) + 1) (-1))))) ∧
      gradOf hf pw2 = some (x2 * (2 * (L.Exp ((x1 * w1 + x2 * w2 + b) * 2) *
        (-(L.Pow (L.Exp ((x1 * w1 + x2 * w2 + b) * 2) + 1) (-1 - 1) *
            (L.Exp ((x1 * w1 + x2 * w2 + b) * 2) - 1)) +
          L.Pow (L.Exp ((x1 * w1 + x2 * w2 + b) * 2) + 1) (-1))))) := by
  simp [-List.getElem?_eq_getElem, List.getElem?_cons_zero, List.getElem?_cons_succ,
    example1With, example1Graph, Val, Mul, Add, Sub, MulConst, AddConst, SubConst, Exp, Div,
    Pow, alloc, Nat.add_assoc, Backprop, topologyOf, buildTopology_succ, forChildren,
    backwardLoop, runBackward, bumpChild, addGrad, childData,
    heap_get_new, heap_get_new_zero, heap_set_new, heap_set_new_zero]
  refine ⟨_, _, _, _, _, ⟨rfl, rfl, rfl, rfl, rfl⟩, ?_⟩
  simp [-List.getElem?_eq_getElem, List.getElem?_cons_zero, List.getElem?_cons_succ,
    gradOf, dataOf, heap_get_new, heap_get_new_zero]

theorem tanh_gradient_formula (t : ℝ) :
    2 * (Real.exp (t * 2) * (-((Real.exp (t * 2) + 1) ^ (-1 - 1 : ℝ) * (Real.exp (t * 2) - 1))
      + (Real.exp (t * 2) + 1) ^ (-1 : ℝ))) = 1 - Real.tanh t ^ 2 := by
  have hpos : 0 < Real.exp t := Real.exp_pos t
  have hE : Real.exp (t * 2) = Real.exp t ^ 2 := by
    rw [mul_two, Real.exp_add, sq]
  have h2 : (-1 - 1 : ℝ) = ((-2 : ℤ) : ℝ) := by norm_num
  rw [Real.rpow_neg_one, h2, Real.rpow_intCast, zpow_neg, zpow_ofNat, hE,
    Real.tanh_eq_sinh_div_cosh, Real.sinh_eq, Real.cosh_eq, Real.exp_neg]
  field_simp
  ring

theorem tanh_value_formula (t : ℝ) :
    (Real.exp (t * 2) - 1) * (Real.exp (t * 2) + 1) ^ (-1 : ℝ) = Real.tanh t := by
  have hpos : 0 < Real.exp t := Real.exp_pos t
  have hE : Real.exp (t * 2) = Real.exp t ^ 2 := by
    rw [mul_two, Real.exp_add, sq]
  rw [Real.rpow_neg_one, hE,
    Real.tanh_eq_sinh_div_cosh, Real.sinh_eq, Real.cosh_eq, Real.exp_neg]
  field_simp
  ring

theorem exp_example_lower : (5.82842718 : ℝ) < Real.exp 1.7627471940390864 := by
  have h : ∑ i ∈ Finset.range 16, (1.7627471940390864 : ℝ) ^ i / (Nat.factorial i : ℝ)
      ≤ Real.exp 1.7627471940390864 := Real.sum_le_exp_of_nonneg (by norm_num) 16
  refine lt_of_lt_of_le ?_ h
  simp only [Finset.sum_range_succ, Finset.sum_range_zero, Nat.factorial]
  norm_num

theorem tanh_sq_example (E : ℝ) (hE : (5.82842718 : ℝ) < E) :
    1 / 2 < ((E - 1) / (E + 1)) ^ 2 := by
  have hpos : (0 : ℝ) < E + 1 := by linarith
  rw [div_pow, lt_div_iff₀ (by positivity)]
  nlinarith [mul_pos (sub_pos.mpr hE) (sub_pos.mpr hE), sq_nonneg (E - 3)]

theorem tanh_example_gt : 1 / 2 < Real.tanh 0.8813735970195432 ^ 2 := by
  have h := tanh_sq_example _ exp_example_lower
  have hv := tanh_value_formula 0.8813735970195432
  rw [Real.rpow_neg_one, ← div_eq_mul_inv] at hv
  have harg : (0.8813735970195432 * 2 : ℝ) = 1.7627471940390864 := by norm_num
  rw [harg] at hv
  rw [← hv]
  exact h

theorem exp_350_bound : Real.exp 350 + 1 ≤ 2 ^ 511 := by
  have h1 : Real.exp 350 = Real.exp 1 ^ 350 := by
    rw [← Real.exp_nat_mul]; norm_num
  have h2 : Real.exp 1 < 2.72 := by
    have := Real.exp_one_lt_d9
    linarith
  have h3 : Real.exp 1 ^ 350 ≤ (2.72 : ℝ) ^ 350 :=
    pow_le_pow_left₀ (Real.exp_pos 1).le h2.le 350
  have h4 : (2.72 : ℝ) ^ 350 + 1 ≤ 2 ^ 511 := by norm_num
  linarith

theorem example_lib_values (L : GoLib ℝ)
    (hExp : ∀ x : ℝ, x ≤ 709 → L.Exp x = Real.exp x)
    (hPow : ∀ x k : ℝ, 0 < x → 1 / 2 ^ 1022 ≤ x ^ k → x ^ k ≤ 2 ^ 1023 → L.Pow x k = x ^ k)
    (n : ℝ) (hn : n ≤ 175) :
    L.Exp (n * 2) = Real.exp (n * 2) ∧
    L.Pow (Real.exp (n * 2) + 1) (-1) = (Real.exp (n * 2) + 1) ^ (-1 : ℝ) ∧
    L.Pow (Real.exp (n * 2) + 1) (-1 - 1) = (Real.exp (n * 2) + 1) ^ (-1 - 1 : ℝ) := by
  have he : Real.exp (n * 2) ≤ Real.exp 350 := Real.exp_le_exp.mpr (by linarith)
  have hpos : 0 < Real.exp (n * 2) := Real.exp_pos _
  have hc0 : 0 < Real.exp (n * 2) + 1 := by linarith
  have hc1 : 1 ≤ Real.exp (n * 2) + 1 := by linarith
  have hc2 : Real.exp (n * 2) + 1 ≤ 2 ^ 511 := by linarith [exp_350_bound]
  have hsq1 : 1 ≤ (Real.exp (n * 2) + 1) ^ 2 := one_le_pow₀ hc1
  have hsq2 : (Real.exp (n * 2) + 1) ^ 2 ≤ 2 ^ 1022 := by
    have := pow_le_pow_left₀ hc0.le hc2 2
    have e : ((2 : ℝ) ^ 511) ^ 2 = 2 ^ 1022 := by rw [← pow_mul]
    rw [e] at this
    exact this
  have hbig : (2 : ℝ) ^ 511 ≤ 2 ^ 1022 := pow_le_pow_right₀ (by norm_num) (by norm_num)
  have hone : (1 : ℝ) ≤ 2 ^ 1023 := one_le_pow₀ (by norm_num)
  have hm1 : (Real.exp (n * 2) + 1) ^ (-1 : ℝ) = 1 / (Real.exp (n * 2) + 1) := by
    rw [Real.rpow_neg_one, one_div]
  have hm2 : (Real.exp (n * 2) + 1) ^ (-1 - 1 : ℝ) = 1 / (Real.exp (n * 2) + 1) ^ 2 := by
    have h2 : (-1 - 1 : ℝ) = ((-2 : ℤ) : ℝ) := by norm_num
    rw [h2, Real.rpow_intCast, zpow_neg, zpow_ofNat, one_div]
  refine ⟨hExp _ (by linarith), hPow _ _ hc0 ?_ ?_, hPow _ _ hc0 ?_ ?_⟩
  · rw [hm1]
    exact one_div_le_one_div_of_le hc0 (hc2.trans hbig)
  · rw [hm1]
    exact ((div_le_one hc0).mpr hc1).trans hone
  · rw [hm2]
    exact one_div_le_one_div_of_le (by positivity) hsq2
  · rw [hm2]
    exact ((div_le_one (by positivity)).mpr hsq1).trans hone

/-- C5, as amended.  `math.Exp` is taken to be the real exponential where it
does not overflow (arguments up to 709) and `math.Pow` the real power for a
positive base where the power is in the normal range of `float64` (from
`2^-1022` to `2^1023`).  For all input values with
`n.Data = x1*w1 + x2*w2 + b` at most 175, `example1` runs without a fault and
ends with `o.Data = tanh(n.Data)`, `w1.Grad = x1.Data * (1 - tanh(n.Data)^2)`
and `w2.Grad = x2.Data * (1 - tanh(n.Data)^2)`; with the input values of the
source, `n.Data = 0.8813735970195432`,
`w1.Grad = 2 * (1 - tanh(0.8813735970195432)^2)` and `w2.Grad = 0`. -/
theorem example1_tanh_gradient (L : GoLib ℝ)
    (hExp : ∀ x : ℝ, x ≤ 709 → L.Exp x = Real.exp x)
    (hPow : ∀ x k : ℝ, 0 < x → 1 / 2 ^ 1022 ≤ x ^ k → x ^ k ≤ 2 ^ 1023 → L.Pow x k = x ^ k)
    (x1 x2 w1 w2 b : ℝ) (hn : x1 * w1 + x2 * w2 + b ≤ 175) (h0 : Heap ℝ) :
    (∃ hf pw1 pw2 pn po, example1With L x1 x2 w1 w2 b h0 = some (hf, pw1, pw2, pn, po) ∧
      dataOf hf pn = some (x1 * w1 + x2 * w2 + b) ∧
      dataOf hf po = some (Real.tanh (x1 * w1 + x2 * w2 + b)) ∧
      gradOf hf pw1 = some (x1 * (1 - Real.tanh (x1 * w1 + x2 * w2 + b) ^ 2)) ∧
      gradOf hf pw2 = some (x2 * (1 - Real.tanh (x1 * w1 + x2 * w2 + b) ^ 2))) ∧
    ∃ hf pw1 pw2 pn po, example1 L h0 = some (hf, pw1, pw2, pn, po) ∧
      dataOf hf pn = some 0.8813735970195432 ∧
      gradOf hf pw1 = some (2 * (1 - Real.tanh 0.8813735970195432 ^ 2)) ∧
      gradOf hf pw2 = some 0 := by
  have key : ∀ x1 x2 w1 w2 b : ℝ, x1 * w1 + x2 * w2 + b ≤ 175 →
      ∃ hf pw1 pw2 pn po, example1With L x1 x2 w1 w2 b h0 = some (hf, pw1, pw2, pn, po) ∧
        dataOf hf pn = some (x1 * w1 + x2 * w2 + b) ∧
        dataOf hf po = some (Real.tanh (x1 * w1 + x2 * w2 + b)) ∧
        gradOf hf pw1 = some (x1 * (1 - Real.tanh (x1 * w1 + x2 * w2 + b) ^ 2)) ∧
        gradOf hf pw2 = some (x2 * (1 - Real.tanh (x1 * w1 + x2 * w2 + b) ^ 2)) := by
    intro x1 x2 w1 w2 b hle
    obtain ⟨hf, pw1, pw2, pn, po, hrun, hn, ho, h1, h2⟩ := example1With_eval L x1 x2 w1 w2 b h0
    obtain ⟨e1, e2, e3⟩ := example_lib_values L hExp hPow (x1 * w1 + x2 * w2 + b) hle
    refine ⟨hf, pw1, pw2, pn, po, hrun, hn, ?_, ?_, ?_⟩
    · rw [ho, e1, e2, tanh_value_formula]
    · rw [h1, e1, e2, e3, tanh_gradient_formula]
    · rw [h2, e1, e2, e3, tanh_gradient_formula]
  refine ⟨key x1 x2 w1 w2 b hn, ?_⟩
  obtain ⟨hf, pw1, pw2, pn, po, hrun, hn, -, h1, h2⟩ :=
    key 2 0 (-3) 1 6.8813735970195432 (by norm_num)
  have harg : (2 * -3 + 0 * 1 + 6.8813735970195432 : ℝ) = 0.8813735970195432 := by norm_num
  rw [harg] at hn h1 h2
  exact ⟨hf, pw1, pw2, pn, po, hrun, hn, h1, by rw [h2, zero_mul]⟩

/-- Witness of C5 as amended, with the bias 7 on the empty heap. -/
theorem example1_tanh_gradient_witness :
    (∃ hf pw1 pw2 pn po,
      example1With ⟨fun x k => x ^ k, Real.exp, Real.tanh, Real.exp 1, fun _ => ""⟩
        (2 : ℝ) 0 (-3) 1 7 [] = some (hf, pw1, pw2, pn, po) ∧
      dataOf hf pn = some ((2 : ℝ) * -3 + 0 * 1 + 7) ∧
      dataOf hf po = some (Real.tanh ((2 : ℝ) * -3 + 0 * 1 + 7)) ∧
      gradOf hf pw1 = some ((2 : ℝ) * (1 - Real.tanh ((2 : ℝ) * -3 + 0 * 1 + 7) ^ 2)) ∧
      gradOf hf pw2 = some ((0 : ℝ) * (1 - Real.tanh ((2 : ℝ) * -3 + 0 * 1 + 7) ^ 2))) ∧
    ∃ hf pw1 pw2 pn po,
      example1 ⟨fun x k => x ^ k, Real.exp, Real.tanh, Real.exp 1, fun _ => ""⟩
        ([] : Heap ℝ) = some (hf, pw1, pw2, pn, po) ∧
      dataOf hf pn = some 0.8813735970195432 ∧
      gradOf hf pw1 = some (2 * (1 - Real.tanh 0.8813735970195432 ^ 2)) ∧
      gradOf hf pw2 = some 0 :=
  example1_tanh_gradient _ (fun _ _ => rfl) (fun _ _ _ _ _ => rfl) 2 0 (-3) 1 7
    (by norm_num) []

/-- C5, counterexample: with the input values of the source and the real
exponential and power functions, `example1` ends with `w1.Grad` less than 1,
so not equal to 1. -/
theorem example1_w1_grad_lt_one :
    ∃ hf pw1 pw2 pn po,
      example1 ⟨fun x k => x ^ k, Real.exp, Real.tanh, Real.exp 1, fun _ => ""⟩
        ([] : Heap ℝ) = some (hf, pw1, pw2, pn, po) ∧
      gradOf hf pw1 ≠ some 1 ∧ ∃ g, gradOf hf pw1 = some g ∧ g < 1 := by
  obtain ⟨hf, pw1, pw2, pn, po, hrun, hn, ho, h1, h2⟩ :=
    example1With_eval ⟨fun x k => x ^ k, Real.exp, Real.tanh, Real.exp 1, fun _ => ""⟩
      (2 : ℝ) 0 (-3) 1 6.8813735970195432 []
  have harg : (2 * -3 + 0 * 1 + 6.8813735970195432 : ℝ) = 0.8813735970195432 := by norm_num
  simp only [harg] at h1
  rw [tanh_gradient_formula] at h1
  have hlt : (2 : ℝ) * (1 - Real.tanh 0.8813735970195432 ^ 2) < 1 := by
    have := tanh_example_gt
    linarith
  refine ⟨hf, pw1, pw2, pn, po, hrun, ?_, _, h1, hlt⟩
  rw [h1]
  intro h
  have := Option.some.inj h
  linarith
/-! ## The exponential and hyperbolic tangent rules -/

theorem expProgram_eval [Field α] (L : GoLib α) (v : α) (h0 : Heap α) :
    ∃ hf x y, unaryProgram (Exp L) L v h0 = some (hf, x, y) ∧
      dataOf hf y = some (L.Exp v) ∧ gradOf hf x = some (L.Exp v) := by
  simp [-List.getElem?_eq_getElem, List.getElem?_cons_zero, List.getElem?_cons_succ,
    unaryProgram, Val, Exp, alloc, Backprop, topologyOf, buildTopology_succ, forChildren,
    backwardLoop, runBackward, bumpChild, addGrad, childData, Nat.add_assoc,
    heap_get_new, heap_get_new_zero, heap_set_new, heap_set_new_zero]
  refine ⟨_, _, _, ⟨rfl, rfl, rfl⟩, ?_⟩
  simp [-List.getElem?_eq_getElem, List.getElem?_cons_zero, List.getElem?_cons_succ,
    gradOf, dataOf, heap_get_new, heap_get_new_zero]

/-- C11. Exponential rule: when `math.Exp` is the real exponential, on any
heap and for every value `v` the program `x := Val(v); y := Exp(x);
y.Backprop()` runs without a fault, `y.Data` is `e^v` and `x.Grad` is `y.Data`,
that is `e^v`; for `v = 0` both are 1. -/
theorem exp_rule (L : GoLib ℝ) (hExp : ∀ x : ℝ, L.Exp x = Real.exp x) (v : ℝ)
    (h0 : Heap ℝ) :
    (∃ hf x y, unaryProgram (Exp L) L v h0 = some (hf, x, y) ∧
      dataOf hf y = some (Real.exp v) ∧ gradOf hf x = dataOf hf y ∧
      gradOf hf x = some (Real.exp v)) ∧
    ∃ hf x y, unaryProgram (Exp L) L 0 h0 = some (hf, x, y) ∧
      dataOf hf y = some 1 ∧ gradOf hf x = some 1 := by
  constructor
  · obtain ⟨hf, x, y, hrun, hd, hg⟩ := expProgram_eval L v h0
    exact ⟨hf, x, y, hrun, by rw [hd, hExp], by rw [hd, hg], by rw [hg, hExp]⟩
  · obtain ⟨hf, x, y, hrun, hd, hg⟩ := expProgram_eval L 0 h0
    exact ⟨hf, x, y, hrun, by rw [hd, hExp, Real.exp_zero], by rw [hg, hExp, Real.exp_zero]⟩

/-- Witness of C11 with `v = 2` on the empty heap. -/
theorem exp_rule_witness :
    (∃ hf x y,
      unaryProgram (Exp ⟨fun x k => x ^ k, Real.exp, Real.tanh, Real.exp 1, fun _ => ""⟩)
        ⟨fun x k => x ^ k, Real.exp, Real.tanh, Real.exp 1, fun _ => ""⟩ (2 : ℝ) []
        = some (hf, x, y) ∧
      dataOf hf y = some (Real.exp 2) ∧ gradOf hf x = dataOf hf y ∧
      gradOf hf x = some (Real.exp 2)) ∧
    ∃ hf x y,
      unaryProgram (Exp ⟨fun x k => x ^ k, Real.exp, Real.tanh, Real.exp 1, fun _ => ""⟩)
        ⟨fun x k => x ^ k, Real.exp, Real.tanh, Real.exp 1, fun _ => ""⟩ (0 : ℝ) []
        = some (hf, x, y) ∧
      dataOf hf y = some 1 ∧ gradOf hf x = some 1 :=
  exp_rule _ (fun _ => rfl) 2 []

theorem tanhProgram_eval [Field α] (L : GoLib α) (v : α) (h0 : Heap α) :
    ∃ hf x t, unaryProgram (Tanh L) L v h0 = some (hf, x, t) ∧
      dataOf hf t = some ((L.Pow L.E (2 * v) - 1) / (L.Pow L.E (2 * v) + 1)) ∧
      gradOf hf x = some (1 - L.Pow (L.Tanh v) 2) := by
  simp [-List.getElem?_eq_getElem, List.getElem?_cons_zero, List.getElem?_cons_succ,
    unaryProgram, Val, Tanh, alloc, Backprop, topologyOf, buildTopology_succ, forChildren,
    backwardLoop, runBackward, bumpChild, addGrad, childData, Nat.add_assoc,
    heap_get_new, heap_get_new_zero, heap_set_new, heap_set_new_zero]
  refine ⟨_, _, _, ⟨rfl, rfl, rfl⟩, ?_⟩
  simp [-List.getElem?_eq_getElem, List.getElem?_cons_zero, List.getElem?_cons_succ,
    gradOf, dataOf, heap_get_new, heap_get_new_zero]

theorem tanh_exp_formula (v : ℝ) :
    (Real.exp (2 * v) - 1) / (Real.exp (2 * v) + 1) = Real.tanh v := by
  have h := tanh_value_formula v
  rw [Real.rpow_neg_one, ← div_eq_mul_inv, mul_comm v 2] at h
  exact h

/-- In exact real arithmetic the two formulas of `Tanh` agree: when
`math.Pow`, `math.E` and `math.Tanh` are the real power function, the number
`e` and the real hyperbolic tangent, for every real `v` the program
`x := Val(v); t := Tanh(x); t.Backprop()` runs without a fault, `t.Data` is
`(e^(2v) - 1) / (e^(2v) + 1)`, which equals `tanh v`, and `x.Grad` is
`1 - tanh(v)^2`, which equals `1 - t.Data^2`. -/
theorem tanh_rule (L : GoLib ℝ) (hPow : ∀ x k : ℝ, L.Pow x k = x ^ k)
    (hE : L.E = Real.exp 1) (hTanh : ∀ x : ℝ, L.Tanh x = Real.tanh x) (v : ℝ)
    (h0 : Heap ℝ) :
    ∃ hf x t d, unaryProgram (Tanh L) L v h0 = some (hf, x, t) ∧
      dataOf hf t = some d ∧
      d = (Real.exp (2 * v) - 1) / (Real.exp (2 * v) + 1) ∧
      d = Real.tanh v ∧
      gradOf hf x = some (1 - Real.tanh v ^ 2) ∧
      gradOf hf x = some (1 - d ^ 2) := by
  obtain ⟨hf, x, t, hrun, hd, hg⟩ := tanhProgram_eval L v h0
  have hpow : L.Pow L.E (2 * v) = Real.exp (2 * v) := by
    rw [hPow, hE, Real.exp_one_rpow]
  have hgrad : (1 : ℝ) - L.Pow (L.Tanh v) 2 = 1 - Real.tanh v ^ 2 := by
    rw [hPow, hTanh, Real.rpow_two]
  refine ⟨hf, x, t, _, hrun, hd, ?_, ?_, ?_, ?_⟩
  · rw [hpow]
  · rw [hpow, tanh_exp_formula]
  · rw [hg, hgrad]
  · rw [hg, hgrad, hpow, tanh_exp_formula]

/-- The rule `tanh_rule` in exact real arithmetic at `v = 1 / 2` on the empty
heap. -/
theorem tanh_rule_witness :
    ∃ hf x t d,
      unaryProgram (Tanh ⟨fun x k => x ^ k, Real.exp, Real.tanh, Real.exp 1, fun _ => ""⟩)
        ⟨fun x k => x ^ k, Real.exp, Real.tanh, Real.exp 1, fun _ => ""⟩ (1 / 2 : ℝ) []
        = some (hf, x, t) ∧
      dataOf hf t = some d ∧
      d = (Real.exp (2 * (1 / 2 : ℝ)) - 1) / (Real.exp (2 * (1 / 2 : ℝ)) + 1) ∧
      d = Real.tanh (1 / 2) ∧
      gradOf hf x = some (1 - Real.tanh (1 / 2) ^ 2) ∧
      gradOf hf x = some (1 - d ^ 2) :=
  tanh_rule _ (fun _ _ => rfl) rfl (fun _ => rfl) (1 / 2) []

theorem exp_800_bound : (2 : ℝ) ^ 1024 < Real.exp 1 ^ (2 * 400 : ℝ) := by
  have h2 : (2.7 : ℝ) < Real.exp 1 := by
    have := Real.exp_one_gt_d9
    linarith
  have h0 : (2 * 400 : ℝ) = ((800 : ℕ) : ℝ) := by norm_num
  rw [h0, Real.rpow_natCast]
  have h3 : (2.7 : ℝ) ^ 800 < Real.exp 1 ^ 800 :=
    pow_lt_pow_left₀ h2 (by norm_num) (by norm_num)
  have h4 : (2 : ℝ) ^ 1024 ≤ (2.7 : ℝ) ^ 800 := by norm_num
  linarith

/-- C20, at the input where it fails.  On any heap and whatever the library
functions return, `x := Val(400); t := Tanh(x); t.Backprop()` runs without a
fault; `t.Data` is `(P - 1) / (P + 1)` for `P = math.Pow(math.E, 2 * 400)`,
the value of the forward formula, while `x.Grad` is
`1 - math.Pow(math.Tanh(400), 2)`, computed from `math.Tanh`; and the power
`e ^ 800` that the forward formula asks of `math.Pow` is above `2 ^ 1024`, so
above every finite `float64`: in Go `P` is `+Inf` there and `t.Data` is
`Inf / Inf`. -/
theorem tanh_value_overflows (L : GoLib ℝ) (h0 : Heap ℝ) :
    ∃ hf x t, unaryProgram (Tanh L) L 400 h0 = some (hf, x, t) ∧
      dataOf hf t = some ((L.Pow L.E (2 * 400) - 1) / (L.Pow L.E (2 * 400) + 1)) ∧
      gradOf hf x = some (1 - L.Pow (L.Tanh 400) 2) ∧
      (2 : ℝ) ^ 1024 < Real.exp 1 ^ (2 * 400 : ℝ) := by
  obtain ⟨hf, x, t, hrun, hd, hg⟩ := tanhProgram_eval L 400 h0
  exact ⟨hf, x, t, hrun, hd, hg, exp_800_bound⟩

/-! ## The constructors: what they allocate and what they leave alone -/

theorem lookup_append {β : Type} (h t : List β) (q : Nat) (w : β) (hq : h[q]? = some w) :
    (h ++ t)[q]? = some w := by
  rw [List.getElem?_append_left (List.getElem?_eq_some_iff.mp hq).1]
  exact hq

theorem lookup_new {β : Type} (h : List β) (w : β) (t : List β) :
    (h ++ w :: t)[h.length]? = some w := by
  rw [heap_get_new_zero, List.getElem?_cons_zero]

theorem lookup_of_lt (h : Heap α) (a : Ptr) (ha : a < h.length) : ∃ va, h[a]? = some va :=
  ⟨h[a], List.getElem?_eq_getElem ha⟩

theorem Add_some [Field α] (h : Heap α) (a b : Ptr) (label : String) (va vb : Value α)
    (ha : h[a]? = some va) (hb : h[b]? = some vb) :
    Add a b label h = some (h ++ [⟨label, va.Data + vb.Data, 0, [a, b], "+",
      some BackwardFn.add⟩], h.length) := by
  simp [Add, ha, hb, alloc]

theorem Sub_some [Field α] (h : Heap α) (a b : Ptr) (label : String) (va vb : Value α)
    (ha : h[a]? = some va) (hb : h[b]? = some vb) :
    Sub a b label h = some (h ++ [⟨label, va.Data - vb.Data, 0, [a, b], "-",
      some BackwardFn.sub⟩], h.length) := by
  simp [Sub, ha, hb, alloc]

theorem Mul_some [Field α] (h : Heap α) (a b : Ptr) (label : String) (va vb : Value α)
    (ha : h[a]? = some va) (hb : h[b]? = some vb) :
    Mul a b label h = some (h ++ [⟨label, va.Data * vb.Data, 0, [a, b], "*",
      some BackwardFn.mul⟩], h.length) := by
  simp [Mul, ha, hb, alloc]

theorem Pow_some [Field α] (L : GoLib α) (h : Heap α) (x : Ptr) (k : α) (label : String)
    (vx : Value α) (hx : h[x]? = some vx) :
    Pow L x k label h = some (h ++ [⟨label, L.Pow vx.Data k, 0, [x], "^ " ++ L.Fmt k,
      some (BackwardFn.pow k)⟩], h.length) := by
  simp [Pow, hx, alloc]

theorem Exp_some [Field α] (L : GoLib α) (h : Heap α) (x : Ptr) (label : String)
    (vx : Value α) (hx : h[x]? = some vx) :
    Exp L x label h = some (h ++ [⟨label, L.Exp vx.Data, 0, [x], "exp",
      some BackwardFn.exp⟩], h.length) := by
  simp [Exp, hx, alloc]

theorem Tanh_some [Field α] (L : GoLib α) (h : Heap α) (x : Ptr) (label : String)
    (vx : Value α) (hx : h[x]? = some vx) :
    Tanh L x label h = some (h ++ [⟨label,
      (L.Pow L.E (2 * vx.Data) - 1) / (L.Pow L.E (2 * vx.Data) + 1), 0, [x], "Tanh",
      some BackwardFn.tanh⟩], h.length) := by
  simp [Tanh, hx, alloc]

theorem AddConst_some [Field α] (h : Heap α) (a : Ptr) (num : α) (label : String)
    (va : Value α) (ha : h[a]? = some va) :
    AddConst a num label h = some (h ++ [⟨"const", num, 0, [], " ", none⟩,
      ⟨label, va.Data + num, 0, [a, h.length], "+", some BackwardFn.add⟩],
      h.length + 1) := by
  have hrun := Add_some (h ++ [⟨"const", num, 0, [], " ", none⟩]) a h.length label va _
    (lookup_append h _ a va ha) (lookup_new h _ [])
  simpa [AddConst, Val, alloc] using hrun

theorem SubConst_some [Field α] (h : Heap α) (a : Ptr) (num : α) (label : String)
    (va : Value α) (ha : h[a]? = some va) :
    SubConst a num label h = some (h ++ [⟨"const", num, 0, [], " ", none⟩,
      ⟨label, va.Data - num, 0, [a, h.length], "-", some BackwardFn.sub⟩],
      h.length + 1) := by
  have hrun := Sub_some (h ++ [⟨"const", num, 0, [], " ", none⟩]) a h.length label va _
    (lookup_append h _ a va ha) (lookup_new h _ [])
  simpa [SubConst, Val, alloc] using hrun

theorem MulConst_some [Field α] (h : Heap α) (a : Ptr) (num : α) (label : String)
    (va : Value α) (ha : h[a]? = some va) :
    MulConst a num label h = some (h ++ [⟨"const", num, 0, [], " ", none⟩,
      ⟨label, va.Data * num, 0, [a, h.length], "*", some BackwardFn.mul⟩],
      h.length + 1) := by
  have hrun := Mul_some (h ++ [⟨"const", num, 0, [], " ", none⟩]) a h.length label va _
    (lookup_append h _ a va ha) (lookup_new h _ [])
  simpa [MulConst, Val, alloc] using hrun

theorem Div_some [Field α] (L : GoLib α) (h : Heap α) (a b : Ptr) (label : String)
    (va vb : Value α) (ha : h[a]? = some va) (hb : h[b]? = some vb) :
    Div L a b label h = some (h ++ [⟨"", L.Pow vb.Data (-1), 0, [b], "^ " ++ L.Fmt (-1),
      some (BackwardFn.pow (-1))⟩,
      ⟨label, va.Data * L.Pow vb.Data (-1), 0, [a, h.length], "*", some BackwardFn.mul⟩],
      h.length + 1) := by
  have hrun := Mul_some (h ++ [⟨"", L.Pow vb.Data (-1), 0, [b], "^ " ++ L.Fmt (-1),
    some (BackwardFn.pow (-1))⟩]) a h.length label va _
    (lookup_append h _ a va ha) (lookup_new h _ [])
  simpa [Div, Pow_some L h b (-1) "" vb hb] using hrun

theorem DivConst_some [Field α] (L : GoLib α) (h : Heap α) (a : Ptr) (num : α)
    (label : String) (va : Value α) (ha : h[a]? = some va) :
    DivConst L a num label h = some (h ++ [⟨"const", num, 0, [], " ", none⟩,
      ⟨"", L.Pow num (-1), 0, [h.length], "^ " ++ L.Fmt (-1), some (BackwardFn.pow (-1))⟩,
      ⟨label, va.Data * L.Pow num (-1), 0, [a, h.length + 1], "*", some BackwardFn.mul⟩],
      h.length + 2) := by
  have hrun := Div_some L (h ++ [⟨"const", num, 0, [], " ", none⟩]) a h.length label va _
    (lookup_append h _ a va ha) (lookup_new h _ [])
  simpa [DivConst, Val, alloc, Nat.add_assoc] using hrun

theorem unchanged_append (h t : Heap α) : Unchanged h (h ++ t) :=
  fun q w hq => lookup_append h t q w hq

/-- C15. No construction operation mutates its inputs: for arguments `a`, `b`
that are records of the heap, each of `Add`, `AddConst`, `Sub`, `SubConst`,
`Mul`, `MulConst`, `Div`, `DivConst`, `Pow`, `Exp` and `Tanh` returns without a
fault, and every record the heap had before the call (the arguments among
them) is the same record after it. -/
theorem constructors_keep_inputs [Field α] (L : GoLib α) (h : Heap α) (a b : Ptr)
    (num k : α) (label : String) (ha : a < h.length) (hb : b < h.length) :
    (∃ r, Add a b label h = some r ∧ Unchanged h r.1) ∧
    (∃ r, AddConst a num label h = some r ∧ Unchanged h r.1) ∧
    (∃ r, Sub a b label h = some r ∧ Unchanged h r.1) ∧
    (∃ r, SubConst a num label h = some r ∧ Unchanged h r.1) ∧
    (∃ r, Mul a b label h = some r ∧ Unchanged h r.1) ∧
    (∃ r, MulConst a num label h = some r ∧ Unchanged h r.1) ∧
    (∃ r, Div L a b label h = some r ∧ Unchanged h r.1) ∧
    (∃ r, DivConst L a num label h = some r ∧ Unchanged h r.1) ∧
    (∃ r, Pow L a k label h = some r ∧ Unchanged h r.1) ∧
    (∃ r, Exp L a label h = some r ∧ Unchanged h r.1) ∧
    (∃ r, Tanh L a label h = some r ∧ Unchanged h r.1) := by
  obtain ⟨va, hva⟩ := lookup_of_lt h a ha
  obtain ⟨vb, hvb⟩ := lookup_of_lt h b hb
  exact ⟨⟨_, Add_some h a b label va vb hva hvb, unchanged_append h _⟩,
    ⟨_, AddConst_some h a num label va hva, unchanged_append h _⟩,
    ⟨_, Sub_some h a b label va vb hva hvb, unchanged_append h _⟩,
    ⟨_, SubConst_some h a num label va hva, unchanged_append h _⟩,
    ⟨_, Mul_some h a b label va vb hva hvb, unchanged_append h _⟩,
    ⟨_, MulConst_some h a num label va hva, unchanged_append h _⟩,
    ⟨_, Div_some L h a b label va vb hva hvb, unchanged_append h _⟩,
    ⟨_, DivConst_some L h a num label va hva, unchanged_append h _⟩,
    ⟨_, Pow_some L h a k label va hva, unchanged_append h _⟩,
    ⟨_, Exp_some L h a label va hva, unchanged_append h _⟩,
    ⟨_, Tanh_some L h a label va hva, unchanged_append h _⟩⟩

/-- Witness of C15 on the heap `twoLeaves`. -/
theorem constructors_keep_inputs_witness :
    (∃ r, Add 0 1 "c" twoLeaves = some r ∧ Unchanged twoLeaves r.1) ∧
    (∃ r, AddConst 0 (2 : ℝ) "c" twoLeaves = some r ∧ Unchanged twoLeaves r.1) ∧
    (∃ r, Sub 0 1 "c" twoLeaves = some r ∧ Unchanged twoLeaves r.1) ∧
    (∃ r, SubConst 0 (2 : ℝ) "c" twoLeaves = some r ∧ Unchanged twoLeaves r.1) ∧
    (∃ r, Mul 0 1 "c" twoLeaves = some r ∧ Unchanged twoLeaves r.1) ∧
    (∃ r, MulConst 0 (2 : ℝ) "c" twoLeaves = some r ∧ Unchanged twoLeaves r.1) ∧
    (∃ r, Div ⟨fun x k => x ^ k, Real.exp, Real.tanh, Real.exp 1, fun _ => ""⟩
      0 1 "c" twoLeaves = some r ∧ Unchanged twoLeaves r.1) ∧
    (∃ r, DivConst ⟨fun x k => x ^ k, Real.exp, Real.tanh, Real.exp 1, fun _ => ""⟩
      0 (2 : ℝ) "c" twoLeaves = some r ∧ Unchanged twoLeaves r.1) ∧
    (∃ r, Pow ⟨fun x k => x ^ k, Real.exp, Real.tanh, Real.exp 1, fun _ => ""⟩
      0 (3 : ℝ) "c" twoLeaves = some r ∧ Unchanged twoLeaves r.1) ∧
    (∃ r, Exp ⟨fun x k => x ^ k, Real.exp, Real.tanh, Real.exp 1, fun _ => ""⟩
      0 "c" twoLeaves = some r ∧ Unchanged twoLeaves r.1) ∧
    (∃ r, Tanh ⟨fun x k => x ^ k, Real.exp, Real.tanh, Real.exp 1, fun _ => ""⟩
      0 "c" twoLeaves = some r ∧ Unchanged twoLeaves r.1) :=
  constructors_keep_inputs _ twoLeaves 0 1 2 3 "c" (by decide) (by decide)

theorem freshNode_last [Field α] (h t : Heap α) (w : Value α) (children : List Ptr)
    (p : Ptr) (hp : p = h.length + t.length) (hg : w.Grad = 0)
    (hc : w.Children = children) : FreshNode h (h ++ (t ++ [w])) p children := by
  subst hp
  have hlook : (h ++ (t ++ [w]))[h.length + t.length]? = some w := by
    rw [heap_get_new, heap_get_new_zero, List.getElem?_cons_zero]
  exact ⟨Nat.le_add_right _ _, by simp [gradOf, hlook, hg], by simp [childrenOf, hlook, hc]⟩

theorem freshNode_mid [Field α] (h t s : Heap α) (w : Value α) (children : List Ptr)
    (p : Ptr) (hp : p = h.length + t.length) (hg : w.Grad = 0)
    (hc : w.Children = children) : FreshNode h (h ++ (t ++ w :: s)) p children := by
  subst hp
  have hlook : (h ++ (t ++ w :: s))[h.length + t.length]? = some w := by
    rw [heap_get_new, heap_get_new_zero, List.getElem?_cons_zero]
  exact ⟨Nat.le_add_right _ _, by simp [gradOf, hlook, hg], by simp [childrenOf, hlook, hc]⟩

/-- C14, as amended.  Every construction operation returns a new node whose
`Grad` is 0.  For `Val`, `Add`, `Sub`, `Mul`, `Pow`, `Exp` and `Tanh` its
`Children` are the node arguments of the call, in call order.  For `AddConst`,
`SubConst` and `MulConst` they are `[a, c]` with `c` a new leaf that holds the
constant.  For `Div(a, b)` they are `[a, b1]` with `b1` a new node whose
`Children` are `[b]`; for `DivConst(a, num)` they are `[a, b1]` with the
`Children` of the new node `b1` being `[c]` and `c` a new leaf that holds the
constant. -/
theorem constructors_allocate [Field α] (L : GoLib α) (h : Heap α) (a b : Ptr)
    (data num k : α) (label : String) (ha : a < h.length) (hb : b < h.length) :
    FreshNode h (Val data label h).1 (Val data label h).2 [] ∧
    (∃ r, Add a b label h = some r ∧ FreshNode h r.1 r.2 [a, b]) ∧
    (∃ r, Sub a b label h = some r ∧ FreshNode h r.1 r.2 [a, b]) ∧
    (∃ r, Mul a b label h = some r ∧ FreshNode h r.1 r.2 [a, b]) ∧
    (∃ r, Pow L a k label h = some r ∧ FreshNode h r.1 r.2 [a]) ∧
    (∃ r, Exp L a label h = some r ∧ FreshNode h r.1 r.2 [a]) ∧
    (∃ r, Tanh L a label h = some r ∧ FreshNode h r.1 r.2 [a]) ∧
    (∃ r c, AddConst a num label h = some r ∧ FreshNode h r.1 r.2 [a, c] ∧
      FreshNode h r.1 c [] ∧ dataOf r.1 c = some num) ∧
    (∃ r c, SubConst a num label h = some r ∧ FreshNode h r.1 r.2 [a, c] ∧
      FreshNode h r.1 c [] ∧ dataOf r.1 c = some num) ∧
    (∃ r c, MulConst a num label h = some r ∧ FreshNode h r.1 r.2 [a, c] ∧
      FreshNode h r.1 c [] ∧ dataOf r.1 c = some num) ∧
    (∃ r b1, Div L a b label h = some r ∧ FreshNode h r.1 r.2 [a, b1] ∧
      FreshNode h r.1 b1 [b]) ∧
    (∃ r b1 c, DivConst L a num label h = some r ∧ FreshNode h r.1 r.2 [a, b1] ∧
      FreshNode h r.1 b1 [c] ∧ FreshNode h r.1 c [] ∧ dataOf r.1 c = some num) := by
  obtain ⟨va, hva⟩ := lookup_of_lt h a ha
  obtain ⟨vb, hvb⟩ := lookup_of_lt h b hb
  refine ⟨freshNode_last h [] _ _ _ rfl rfl rfl,
    ⟨_, Add_some h a b label va vb hva hvb, freshNode_last h [] _ _ _ rfl rfl rfl⟩,
    ⟨_, Sub_some h a b label va vb hva hvb, freshNode_last h [] _ _ _ rfl rfl rfl⟩,
    ⟨_, Mul_some h a b label va vb hva hvb, freshNode_last h [] _ _ _ rfl rfl rfl⟩,
    ⟨_, Pow_some L h a k label va hva, freshNode_last h [] _ _ _ rfl rfl rfl⟩,
    ⟨_, Exp_some L h a label va hva, freshNode_last h [] _ _ _ rfl rfl rfl⟩,
    ⟨_, Tanh_some L h a label va hva, freshNode_last h [] _ _ _ rfl rfl rfl⟩,
    ⟨_, h.length, AddConst_some h a num label va hva, freshNode_last h [_] _ _ _ rfl rfl rfl,
      freshNode_mid h [] [_] _ _ _ rfl rfl rfl, ?_⟩,
    ⟨_, h.length, SubConst_some h a num label va hva, freshNode_last h [_] _ _ _ rfl rfl rfl,
      freshNode_mid h [] [_] _ _ _ rfl rfl rfl, ?_⟩,
    ⟨_, h.length, MulConst_some h a num label va hva, freshNode_last h [_] _ _ _ rfl rfl rfl,
      freshNode_mid h [] [_] _ _ _ rfl rfl rfl, ?_⟩,
    ⟨_, h.length, Div_some L h a b label va vb hva hvb,
      freshNode_last h [_] _ _ _ rfl rfl rfl, freshNode_mid h [] [_] _ _ _ rfl rfl rfl⟩,
    ⟨_, h.length + 1, h.length, DivConst_some L h a num label va hva,
      freshNode_last h [_, _] _ _ _ rfl rfl rfl, freshNode_mid h [_] [_] _ _ _ rfl rfl rfl,
      freshNode_mid h [] [_, _] _ _ _ rfl rfl rfl, ?_⟩⟩
  all_goals (unfold dataOf; rw [lookup_new]; rfl)

/-- Witness of C14 as amended, on the heap `twoLeaves`. -/
theorem constructors_allocate_witness :
    FreshNode twoLeaves (Val (7 : ℝ) "c" twoLeaves).1 (Val (7 : ℝ) "c" twoLeaves).2 [] ∧
    (∃ r, Add 0 1 "c" twoLeaves = some r ∧ FreshNode twoLeaves r.1 r.2 [0, 1]) ∧
    (∃ r, Sub 0 1 "c" twoLeaves = some r ∧ FreshNode twoLeaves r.1 r.2 [0, 1]) ∧
    (∃ r, Mul 0 1 "c" twoLeaves = some r ∧ FreshNode twoLeaves r.1 r.2 [0, 1]) ∧
    (∃ r, Pow ⟨fun x k => x ^ k, Real.exp, Real.tanh, Real.exp 1, fun _ => ""⟩
      0 (3 : ℝ) "c" twoLeaves = some r ∧ FreshNode twoLeaves r.1 r.2 [0]) ∧
    (∃ r, Exp ⟨fun x k => x ^ k, Real.exp, Real.tanh, Real.exp 1, fun _ => ""⟩
      0 "c" twoLeaves = some r ∧ FreshNode twoLeaves r.1 r.2 [0]) ∧
    (∃ r, Tanh ⟨fun x k => x ^ k, Real.exp, Real.tanh, Real.exp 1, fun _ => ""⟩
      0 "c" twoLeaves = some r ∧ FreshNode twoLeaves r.1 r.2 [0]) ∧
    (∃ r c, AddConst 0 (2 : ℝ) "c" twoLeaves = some r ∧ FreshNode twoLeaves r.1 r.2 [0, c] ∧
      FreshNode twoLeaves r.1 c [] ∧ dataOf r.1 c = some 2) ∧
    (∃ r c, SubConst 0 (2 : ℝ) "c" twoLeaves = some r ∧ FreshNode twoLeaves r.1 r.2 [0, c] ∧
      FreshNode twoLeaves r.1 c [] ∧ dataOf r.1 c = some 2) ∧
    (∃ r c, MulConst 0 (2 : ℝ) "c" twoLeaves = some r ∧ FreshNode twoLeaves r.1 r.2 [0, c] ∧
      FreshNode twoLeaves r.1 c [] ∧ dataOf r.1 c = some 2) ∧
    (∃ r b1, Div ⟨fun x k => x ^ k, Real.exp, Real.tanh, Real.exp 1, fun _ => ""⟩
      0 1 "c" twoLeaves = some r ∧ FreshNode twoLeaves r.1 r.2 [0, b1] ∧
      FreshNode twoLeaves r.1 b1 [1]) ∧
    (∃ r b1 c, DivConst ⟨fun x k => x ^ k, Real.exp, Real.tanh, Real.exp 1, fun _ => ""⟩
      0 (2 : ℝ) "c" twoLeaves = some r ∧ FreshNode twoLeaves r.1 r.2 [0, b1] ∧
      FreshNode twoLeaves r.1 b1 [c] ∧ FreshNode twoLeaves r.1 c [] ∧
      dataOf r.1 c = some 2) :=
  constructors_allocate _ twoLeaves 0 1 7 2 3 "c" (by decide) (by decide)

/-- C14, counterexample: with `a` and `b` the two leaves of `twoLeaves`, the
`Children` of `Div(a, b)` are `[a, b1]` for the new node `b1` at pointer 2, and
not `[a, b]`. -/
theorem div_children_not_arguments :
    ∃ r, Div ⟨fun x k => x ^ k, Real.exp, Real.tanh, Real.exp 1, fun _ => ""⟩
        0 1 "d" twoLeaves = some r ∧
      childrenOf r.1 r.2 = some [0, 2] ∧ childrenOf r.1 r.2 ≠ some [0, 1] := by
  refine ⟨_, Div_some _ twoLeaves 0 1 "d" _ _ rfl rfl, ?_, ?_⟩
  · rfl
  · intro hc
    have h2 : some [0, 2] = some [0, 1] := Eq.trans (Eq.symm (by rfl)) hc
    exact absurd h2 (by decide)

/-! ## A leaf in the backward pass -/

/-- C18. A leaf is a no-op in the backward pass rather than a fault.  For
every leaf `x = Val(v, label)` on any heap, `x.Backprop()` returns and the heap
after it is the heap before it with `x.Grad` set to 1.  And in any heap, the
iteration of the loop of `Backprop` at a node whose `Backward` is nil leaves
the heap as it is. -/
theorem leaf_is_noop [Field α] (L : GoLib α) (v : α) (label : String) (h0 : Heap α)
    (topology : List Ptr) (i : Nat) (h : Heap α) (node : Ptr) (w : Value α)
    (hnode : topology[i]? = some node) (hw : h[node]? = some w)
    (hnil : w.Backward = none) :
    ((Val v label h0).1 = h0 ++ [⟨label, v, 0, [], " ", none⟩] ∧
      Backprop L (Val v label h0).2 (Val v label h0).1
        = some (h0 ++ [⟨label, v, 1, [], " ", none⟩])) ∧
    backwardLoop L topology (i + 1) h = backwardLoop L topology i h := by
  refine ⟨⟨rfl, ?_⟩, ?_⟩
  · simp [-List.getElem?_eq_getElem, List.getElem?_cons_zero, List.getElem?_cons_succ,
      Val, alloc, Backprop, topologyOf, buildTopology_succ, forChildren,
      backwardLoop, Nat.add_assoc,
      heap_get_new, heap_get_new_zero, heap_set_new, heap_set_new_zero]
  · rw [backwardLoop]
    simp only [hnode, hw, hnil]

/-- Witness of C18: the leaf `Val(5, "x")` on the empty heap, and the loop
iteration at the leaf `a` of `twoLeaves`. -/
theorem leaf_is_noop_witness :
    ((Val (5 : ℝ) "x" []).1 = [] ++ [⟨"x", 5, 0, [], " ", none⟩] ∧
      Backprop ⟨fun x k => x ^ k, Real.exp, Real.tanh, Real.exp 1, fun _ => ""⟩
        (Val (5 : ℝ) "x" []).2 (Val (5 : ℝ) "x" []).1
        = some ([] ++ [⟨"x", 5, 1, [], " ", none⟩])) ∧
    backwardLoop ⟨fun x k => x ^ k, Real.exp, Real.tanh, Real.exp 1, fun _ => ""⟩
        [0] (0 + 1) twoLeaves
      = backwardLoop ⟨fun x k => x ^ k, Real.exp, Real.tanh, Real.exp 1, fun _ => ""⟩
        [0] 0 twoLeaves :=
  leaf_is_noop _ 5 "x" [] [0] 0 twoLeaves 0 ⟨"a", 6, 0, [], " ", none⟩ rfl rfl rfl

/-! ## The backward loop: what it changes -/

theorem set_lookup_self {β : Type} (l : List β) (c : Nat) (x : β) (hx : l[c]? = some x) :
    l.set c x = l := by
  apply List.ext_getElem?
  intro j
  rw [List.getElem?_set]
  by_cases hcj : c = j
  · subst hcj
    rw [if_pos rfl, if_pos (List.getElem?_eq_some_iff.mp hx).1, hx]
  · rw [if_neg hcj]

theorem resetGrads_set [Field α] (h : Heap α) (c : Ptr) (vc : Value α) (x : α)
    (hc : h[c]? = some vc) : resetGrads (h.set c { vc with Grad := x }) = resetGrads h := by
  unfold resetGrads
  rw [List.map_set]
  apply set_lookup_self
  rw [List.getElem?_map, hc]
  rfl

theorem resetGrads_lookup [Field α] (h h1 : Heap α) (hr : resetGrads h1 = resetGrads h)
    (p : Ptr) (v : Value α) (hv : h[p]? = some v) :
    ∃ v1, h1[p]? = some v1 ∧ v1.Label = v.Label ∧ v1.Data = v.Data ∧
      v1.Children = v.Children ∧ v1.Op = v.Op ∧ v1.Backward = v.Backward := by
  have hp : (resetGrads h1)[p]? = (resetGrads h)[p]? := by rw [hr]
  unfold resetGrads at hp
  rw [List.getElem?_map, List.getElem?_map, hv] at hp
  cases hv1 : h1[p]? with
  | none => rw [hv1] at hp; simp at hp
  | some v1 =>
    rw [hv1] at hp
    simp only [Option.map_some', Option.some.injEq] at hp
    have e := Value.mk.inj hp
    exact ⟨v1, rfl, e.1, e.2.1, e.2.2.2.1, e.2.2.2.2.1, e.2.2.2.2.2⟩

theorem resetGrads_length [Field α] (h h1 : Heap α) (hr : resetGrads h1 = resetGrads h) :
    h1.length = h.length := by
  have := congrArg List.length hr
  simpa [resetGrads] using this

theorem resetGrads_link [Field α] (h h1 : Heap α) (hr : resetGrads h1 = resetGrads h)
    (p c : Ptr) : Link h1 p c ↔ Link h p c := by
  constructor
  · rintro ⟨v1, hv1, hc⟩
    obtain ⟨v, hv, -, -, hch, -⟩ := resetGrads_lookup h1 h hr.symm p v1 hv1
    exact ⟨v, hv, by rw [hch]; exact hc⟩
  · rintro ⟨v, hv, hc⟩
    obtain ⟨v1, hv1, -, -, hch, -⟩ := resetGrads_lookup h h1 hr p v hv
    exact ⟨v1, hv1, by rw [hch]; exact hc⟩

theorem lookup_eq_of_grad [Field α] (h h1 : Heap α) (hr : resetGrads h1 = resetGrads h)
    (p : Ptr) (hg : gradD h1 p = gradD h p) : h1[p]? = h[p]? := by
  cases hv : h[p]? with
  | none =>
    have hlen := resetGrads_length h h1 hr
    rw [List.getElem?_eq_none_iff] at hv ⊢
    rw [hlen]; exact hv
  | some v =>
    obtain ⟨v1, hv1, h1l, h1d, h1c, h1o, h1b⟩ := resetGrads_lookup h h1 hr p v hv
    rw [hv1]
    have hgg : v1.Grad = v.Grad := by
      simpa [gradD, gradOf, hv, hv1] using hg
    cases v1
    cases v
    simp_all

theorem addGrad_inv [Field α] (h : Heap α) (c : Ptr) (g : α) (h1 : Heap α)
    (hrun : addGrad h c g = some h1) :
    ∃ vc, h[c]? = some vc ∧ h1 = h.set c { vc with Grad := vc.Grad + g } := by
  unfold addGrad at hrun
  cases hc : h[c]? with
  | none => simp [hc] at hrun
  | some vc =>
    simp only [hc, Option.some.injEq] at hrun
    exact ⟨vc, rfl, hrun.symm⟩

theorem bumpChild_inv [Field α] (h : Heap α) (val : Ptr) (i : Nat)
    (f : Value α → Option α) (h1 : Heap α) (hrun : bumpChild h val i f = some h1) :
    ∃ v c g vc, h[val]? = some v ∧ v.Children[i]? = some c ∧ f v = some g ∧
      h[c]? = some vc ∧ h1 = h.set c { vc with Grad := vc.Grad + g } := by
  unfold bumpChild at hrun
  cases hv : h[val]? with
  | none => simp [hv] at hrun
  | some v =>
    simp only [hv] at hrun
    cases hc : v.Children[i]? with
    | none => simp [hc] at hrun
    | some c =>
      simp only [hc] at hrun
      cases hf : f v with
      | none => simp [hf] at hrun
      | some g =>
        simp only [hf] at hrun
        obtain ⟨vc, hvc, hh⟩ := addGrad_inv h c g h1 hrun
        exact ⟨v, c, g, vc, rfl, hc, hf, hvc, hh⟩

theorem bumpChild_frame [Field α] (h : Heap α) (val : Ptr) (i : Nat)
    (f : Value α → Option α) (h1 : Heap α) (hrun : bumpChild h val i f = some h1) :
    resetGrads h1 = resetGrads h ∧ ∀ n, ¬ Link h val n → h1[n]? = h[n]? := by
  obtain ⟨v, c, g, vc, hv, hc, -, hvc, hh⟩ := bumpChild_inv h val i f h1 hrun
  subst hh
  refine ⟨resetGrads_set h c vc _ hvc, ?_⟩
  intro n hn
  apply List.getElem?_set_ne
  intro hcn
  exact hn ⟨v, hv, by rw [← hcn]; exact List.getElem?_mem hc⟩

theorem runBackward_frame [Field α] (L : GoLib α) (fn : BackwardFn α) (val : Ptr)
    (h h1 : Heap α) (hrun : runBackward L fn val h = some h1) :
    resetGrads h1 = resetGrads h ∧ ∀ n, ¬ Link h val n → h1[n]? = h[n]? := by
  have two : ∀ (f g : Heap α → Value α → Option α),
      (match bumpChild h val 0 (f h) with
        | none => none
        | some hm => bumpChild hm val 1 (g hm)) = some h1 →
      resetGrads h1 = resetGrads h ∧ ∀ n, ¬ Link h val n → h1[n]? = h[n]? := by
    intro f g hr
    cases hb : bumpChild h val 0 (f h) with
    | none => simp [hb] at hr
    | some hm =>
      simp only [hb] at hr
      obtain ⟨r1, f1⟩ := bumpChild_frame h val 0 _ hm hb
      obtain ⟨r2, f2⟩ := bumpChild_frame hm val 1 _ h1 hr
      refine ⟨r2.trans r1, fun n hn => ?_⟩
      rw [f2 n (fun hl => hn ((resetGrads_link h hm r1 val n).mp hl)), f1 n hn]
  cases fn with
  | add => exact two (fun _ v => some v.Grad) (fun _ v => some v.Grad) hrun
  | sub => exact two (fun _ v => some v.Grad) (fun _ v => some v.Grad) hrun
  | mul =>
    exact two (fun hh v => (childData hh v 1).map (fun d => d * v.Grad))
      (fun hh v => (childData hh v 0).map (fun d => d * v.Grad)) hrun
  | pow k =>
    unfold runBackward at hrun
    cases hv : h[val]? with
    | none => simp [hv] at hrun
    | some v =>
      simp only [hv] at hrun
      cases hd : childData h v 0 with
      | none => simp [hd] at hrun
      | some d =>
        simp only [hd] at hrun
        exact bumpChild_frame h val 0 _ h1 hrun
  | exp =>
    unfold runBackward at hrun
    exact bumpChild_frame h val 0 _ h1 hrun
  | tanh =>
    unfold runBackward at hrun
    cases hv : h[val]? with
    | none => simp [hv] at hrun
    | some v =>
      simp only [hv] at hrun
      cases hd : childData h v 0 with
      | none => simp [hd] at hrun
      | some d =>
        simp only [hd] at hrun
        exact bumpChild_frame h val 0 _ h1 hrun

/-! ## The backward loop: what it adds -/

theorem gradD_set [Field α] (h : Heap α) (c : Ptr) (vc : Value α) (x : α)
    (hc : h[c]? = some vc) (n : Ptr) :
    gradD (h.set c { vc with Grad := x }) n = if n = c then x else gradD h n := by
  unfold gradD gradOf
  rw [List.getElem?_set]
  by_cases hcn : c = n
  · subst hcn
    rw [if_pos rfl, if_pos rfl, if_pos (List.getElem?_eq_some_iff.mp hc).1]
    rfl
  · rw [if_neg hcn, if_neg (fun e => hcn e.symm)]

theorem gradD_eq [Field α] (h : Heap α) (c : Ptr) (vc : Value α) (hc : h[c]? = some vc) :
    gradD h c = vc.Grad := by
  simp [gradD, gradOf, hc]

theorem bumpChild_some [Field α] (h : Heap α) (val : Ptr) (i : Nat)
    (f : Value α → Option α) (v : Value α) (c : Ptr) (vc : Value α) (g : α)
    (hv : h[val]? = some v) (hc : v.Children[i]? = some c) (hvc : h[c]? = some vc)
    (hf : f v = some g) :
    ∃ h1, bumpChild h val i f = some h1 ∧ resetGrads h1 = resetGrads h ∧
      (∀ n, gradD h1 n = gradD h n + if n = c then g else 0) ∧
      ∀ n, n ≠ c → h1[n]? = h[n]? := by
  refine ⟨h.set c { vc with Grad := vc.Grad + g }, ?_, resetGrads_set h c vc _ hvc, ?_, ?_⟩
  · simp only [bumpChild, hv, hc, hf, addGrad, hvc]
  · intro n
    rw [gradD_set h c vc _ hvc]
    by_cases hn : n = c
    · rw [if_pos hn, if_pos hn, hn, gradD_eq h c vc hvc]
    · rw [if_neg hn, if_neg hn, add_zero]
  · intro n hn
    exact List.getElem?_set_ne (fun e => hn e.symm)

theorem childData_reset [Field α] (h h1 : Heap α) (hr : resetGrads h1 = resetGrads h)
    (v : Value α) (i : Nat) : childData h1 v i = childData h v i := by
  unfold childData
  cases hc : v.Children[i]? with
  | none => rfl
  | some c =>
    simp only []
    cases hvc : h[c]? with
    | none =>
      have hlen := resetGrads_length h h1 hr
      have : h1[c]? = none := by
        rw [List.getElem?_eq_none_iff] at hvc ⊢
        rw [hlen]; exact hvc
      rw [this]
    | some vc =>
      obtain ⟨vc1, hvc1, -, hd, -⟩ := resetGrads_lookup h h1 hr c vc hvc
      rw [hvc1]
      simp only [hd]

theorem childData_some (h : Heap α) (v : Value α) (i : Nat) (c : Ptr) (vc : Value α)
    (hc : v.Children[i]? = some c) (hvc : h[c]? = some vc) :
    childData h v i = some vc.Data := by
  simp only [childData, hc, hvc]

theorem two_bumps [Field α] (h : Heap α) (val : Ptr) (v : Value α) (c0 c1 : Ptr)
    (vc0 vc1 : Value α) (g0 g1 : α) (f0 f1 : Heap α → Value α → Option α)
    (hv : h[val]? = some v) (hc0 : v.Children[0]? = some c0)
    (hc1 : v.Children[1]? = some c1) (hv0 : h[c0]? = some vc0) (hv1 : h[c1]? = some vc1)
    (hself : val ≠ c0) (hf0 : f0 h v = some g0)
    (hf1 : ∀ hm, resetGrads hm = resetGrads h → f1 hm v = some g1) :
    ∃ h2, (match bumpChild h val 0 (f0 h) with
        | none => none
        | some hm => bumpChild hm val 1 (f1 hm)) = some h2 ∧
      resetGrads h2 = resetGrads h ∧
      ∀ n, gradD h2 n = gradD h n + ((if n = c0 then g0 else 0) + if n = c1 then g1 else 0) := by
  obtain ⟨hm, hb0, r0, e0, k0⟩ := bumpChild_some h val 0 (f0 h) v c0 vc0 g0 hv hc0 hv0 hf0
  have hvm : hm[val]? = some v := by rw [k0 val hself, hv]
  obtain ⟨vm1, hvm1, -⟩ := resetGrads_lookup h hm r0 c1 vc1 hv1
  obtain ⟨h2, hb1, r1, e1, -⟩ :=
    bumpChild_some hm val 1 (f1 hm) v c1 vm1 g1 hvm hc1 hvm1 (hf1 hm r0)
  refine ⟨h2, ?_, r1.trans r0, ?_⟩
  · simp only [hb0, hb1]
  · intro n
    rw [e1 n, e0 n, add_assoc]

theorem one_bump_pushed [Field α] (L : GoLib α) (h : Heap α) (val : Ptr) (v : Value α)
    (fn : BackwardFn α) (hv : h[val]? = some v) (hfn : v.Backward = some fn)
    (har1 : fn.arity = 1) (c0 : Ptr) (hc0 : v.Children[0]? = some c0) (n : Ptr) :
    pushed L h val n = if n = c0 then slotPartial L h v fn 0 * v.Grad else 0 := by
  simp only [pushed, hv, hfn, har1, List.range_succ, List.range_zero, List.nil_append,
    List.map_cons, List.map_nil, List.sum_cons, List.sum_nil, add_zero, hc0,
    Option.some.injEq]
  by_cases hn : n = c0
  · rw [if_pos hn, if_pos hn.symm]
  · rw [if_neg hn, if_neg (fun e => hn e.symm)]

theorem two_bump_pushed [Field α] (L : GoLib α) (h : Heap α) (val : Ptr) (v : Value α)
    (fn : BackwardFn α) (hv : h[val]? = some v) (hfn : v.Backward = some fn)
    (har2 : fn.arity = 2) (c0 c1 : Ptr) (hc0 : v.Children[0]? = some c0)
    (hc1 : v.Children[1]? = some c1) (n : Ptr) :
    pushed L h val n = (if n = c0 then slotPartial L h v fn 0 * v.Grad else 0) +
      if n = c1 then slotPartial L h v fn 1 * v.Grad else 0 := by
  simp only [pushed, hv, hfn, har2, List.range_succ, List.range_zero, List.nil_append,
    List.cons_append, List.map_cons, List.map_nil, List.sum_cons, List.sum_nil, add_zero,
    hc0, hc1, Option.some.injEq]
  congr 1
  · by_cases hn : n = c0
    · rw [if_pos hn, if_pos hn.symm]
    · rw [if_neg hn, if_neg (fun e => hn e.symm)]
  · by_cases hn : n = c1
    · rw [if_pos hn, if_pos hn.symm]
    · rw [if_neg hn, if_neg (fun e => hn e.symm)]

theorem slot_of_arity (v : Value α) (i k : Nat) (hk : k ≤ v.Children.length) (hi : i < k) :
    ∃ c, v.Children[i]? = some c ∧ c ∈ v.Children :=
  ⟨v.Children[i], List.getElem?_eq_getElem (lt_of_lt_of_le hi hk),
    List.getElem_mem _⟩

theorem arity_pos (fn : BackwardFn α) : 0 < fn.arity := by
  cases fn <;> simp [BackwardFn.arity]

theorem runBackward_exact [Field α] (L : GoLib α) (h : Heap α) (val : Ptr) (v : Value α)
    (fn : BackwardFn α) (hv : h[val]? = some v) (hfn : v.Backward = some fn)
    (har : fn.arity ≤ v.Children.length) (hcl : ∀ c ∈ v.Children, c < h.length)
    (hself : val ∉ v.Children) :
    ∃ h1, runBackward L fn val h = some h1 ∧ resetGrads h1 = resetGrads h ∧
      ∀ n, gradD h1 n = gradD h n + pushed L h val n := by
  have hpos : 0 < fn.arity := arity_pos fn
  obtain ⟨c0, hc0, hm0⟩ := slot_of_arity v 0 fn.arity har hpos
  obtain ⟨vc0, hv0⟩ := lookup_of_lt h c0 (hcl c0 hm0)
  have hne0 : val ≠ c0 := fun e => hself (e ▸ hm0)
  have hd0 : childData h v 0 = some vc0.Data := childData_some h v 0 c0 vc0 hc0 hv0
  have binary : fn.arity = 2 → ∀ (f0 f1 : Heap α → Value α → Option α) (p0 p1 : α),
      f0 h v = some (p0 * v.Grad) →
      (∀ hm, resetGrads hm = resetGrads h → f1 hm v = some (p1 * v.Grad)) →
      slotPartial L h v fn 0 = p0 → slotPartial L h v fn 1 = p1 →
      ∃ h1, (match bumpChild h val 0 (f0 h) with
          | none => none
          | some hm => bumpChild hm val 1 (f1 hm)) = some h1 ∧
        resetGrads h1 = resetGrads h ∧ ∀ n, gradD h1 n = gradD h n + pushed L h val n := by
    intro har2 f0 f1 p0 p1 hf0 hf1 hp0 hp1
    obtain ⟨c1, hc1, hm1⟩ := slot_of_arity v 1 fn.arity har (by rw [har2]; decide)
    obtain ⟨vc1, hv1⟩ := lookup_of_lt h c1 (hcl c1 hm1)
    obtain ⟨h2, hrun, hr, he⟩ := two_bumps h val v c0 c1 vc0 vc1 _ _ f0 f1 hv hc0 hc1 hv0 hv1
      hne0 hf0 hf1
    refine ⟨h2, hrun, hr, fun n => ?_⟩
    rw [he n, two_bump_pushed L h val v fn hv hfn har2 c0 c1 hc0 hc1 n, hp0, hp1]
  have unary : fn.arity = 1 → ∀ (p0 : α), slotPartial L h v fn 0 = p0 →
      ∃ h1, bumpChild h val 0 (fun w => some (p0 * w.Grad)) = some h1 ∧
        resetGrads h1 = resetGrads h ∧ ∀ n, gradD h1 n = gradD h n + pushed L h val n := by
    intro har1 p0 hp0
    obtain ⟨h1, hrun, hr, he, -⟩ := bumpChild_some h val 0 (fun w => some (p0 * w.Grad))
      v c0 vc0 _ hv hc0 hv0 rfl
    refine ⟨h1, hrun, hr, fun n => ?_⟩
    rw [he n, one_bump_pushed L h val v fn hv hfn har1 c0 hc0 n, hp0]
  cases fn with
  | add =>
    have := binary rfl (fun _ w => some w.Grad) (fun _ w => some w.Grad) 1 1
      (by rw [one_mul]) (fun _ _ => by rw [one_mul]) rfl rfl
    exact this
  | sub =>
    have := binary rfl (fun _ w => some w.Grad) (fun _ w => some w.Grad) 1 1
      (by rw [one_mul]) (fun _ _ => by rw [one_mul]) rfl rfl
    exact this
  | mul =>
    obtain ⟨c1, hc1, hm1⟩ := slot_of_arity v 1 2 har (by decide)
    obtain ⟨vc1, hv1⟩ := lookup_of_lt h c1 (hcl c1 hm1)
    have hd1 : childData h v 1 = some vc1.Data := childData_some h v 1 c1 vc1 hc1 hv1
    have := binary rfl (fun hh w => (childData hh w 1).map (fun d => d * w.Grad))
      (fun hh w => (childData hh w 0).map (fun d => d * w.Grad)) vc1.Data vc0.Data
      (by simp only [hd1, Option.map_some'])
      (fun hm hr => by simp only [childData_reset h hm hr, hd0, Option.map_some'])
      (by simp only [slotPartial, hd1, Option.getD_some])
      (by simp only [slotPartial, hd0, Option.getD_some])
    exact this
  | pow k =>
    obtain ⟨h1, hrun, hr, he⟩ := unary rfl (k * L.Pow vc0.Data (k - 1))
      (by simp only [slotPartial, hd0, Option.getD_some])
    refine ⟨h1, ?_, hr, he⟩
    simp only [runBackward, hv, hd0]
    exact hrun
  | exp =>
    obtain ⟨h1, hrun, hr, he⟩ := unary rfl v.Data (by simp only [slotPartial])
    refine ⟨h1, ?_, hr, he⟩
    unfold runBackward
    simp only [bumpChild, hv, hc0, addGrad, hv0] at hrun ⊢
    exact hrun
  | tanh =>
    obtain ⟨h1, hrun, hr, he⟩ := unary rfl (1 - L.Pow (L.Tanh vc0.Data) 2)
      (by simp only [slotPartial, hd0, Option.getD_some])
    refine ⟨h1, ?_, hr, he⟩
    simp only [runBackward, hv, hd0]
    exact hrun

theorem backwardLoop_eq_runNodes [Field α] (L : GoLib α) (topology : List Ptr) :
    ∀ (i : Nat) (h : Heap α), i ≤ topology.length →
      backwardLoop L topology i h = runNodes L (topology.take i).reverse h := by
  intro i
  induction i with
  | zero => intro h _; simp [backwardLoop, runNodes]
  | succ i ih =>
    intro h hi
    have hlt : i < topology.length := hi
    have hget : topology[i]? = some topology[i] := List.getElem?_eq_getElem hlt
    rw [backwardLoop, List.take_succ, hget]
    simp only [Option.toList_some, List.reverse_append, List.reverse_cons, List.reverse_nil,
      List.nil_append, List.singleton_append, runNodes]
    cases hv : h[topology[i]]? with
    | none => rfl
    | some v =>
      simp only []
      cases hb : v.Backward with
      | none => exact ih h (Nat.le_of_lt hlt)
      | some fn =>
        simp only []
        cases hr : runBackward L fn topology[i] h with
        | none => rfl
        | some h1 => exact ih h1 (Nat.le_of_lt hlt)

theorem runNodes_frame [Field α] (L : GoLib α) :
    ∀ (nodes : List Ptr) (h h1 : Heap α), runNodes L nodes h = some h1 →
      resetGrads h1 = resetGrads h ∧
      ∀ n, (∀ x ∈ nodes, ¬ Link h x n) → h1[n]? = h[n]? := by
  intro nodes
  induction nodes with
  | nil =>
    intro h h1 hrun
    simp only [runNodes, Option.some.injEq] at hrun
    subst hrun
    exact ⟨rfl, fun _ _ => rfl⟩
  | cons x rest ih =>
    intro h h1 hrun
    rw [runNodes] at hrun
    cases hv : h[x]? with
    | none => simp [hv] at hrun
    | some v =>
      simp only [hv] at hrun
      cases hb : v.Backward with
      | none =>
        simp only [hb] at hrun
        obtain ⟨hr, hf⟩ := ih h h1 hrun
        exact ⟨hr, fun n hn => hf n (fun y hy => hn y (List.mem_cons_of_mem _ hy))⟩
      | some fn =>
        simp only [hb] at hrun
        cases hm : runBackward L fn x h with
        | none => simp [hm] at hrun
        | some hmid =>
          simp only [hm] at hrun
          obtain ⟨r1, f1⟩ := runBackward_frame L fn x h hmid hm
          obtain ⟨r2, f2⟩ := ih hmid h1 hrun
          refine ⟨r2.trans r1, fun n hn => ?_⟩
          rw [f2 n (fun y hy hl => hn y (List.mem_cons_of_mem _ hy)
            ((resetGrads_link h hmid r1 y n).mp hl)), f1 n (hn x (List.mem_cons_self _ _))]

theorem pushed_zero [Field α] (L : GoLib α) (h : Heap α) (p n : Ptr)
    (hl : ¬ Link h p n) : pushed L h p n = 0 := by
  unfold pushed
  cases hv : h[p]? with
  | none => rfl
  | some v =>
    simp only []
    cases hb : v.Backward with
    | none => rfl
    | some fn =>
      simp only []
      apply List.sum_eq_zero
      intro x hx
      obtain ⟨i, -, hi⟩ := List.mem_map.mp hx
      rw [← hi, if_neg]
      intro hc
      exact hl ⟨v, hv, List.getElem?_mem hc⟩

theorem pushed_congr [Field α] (L : GoLib α) (h h1 : Heap α)
    (hr : resetGrads h1 = resetGrads h) (p n : Ptr) (hg : gradD h1 p = gradD h p) :
    pushed L h1 p n = pushed L h p n := by
  have hp : h1[p]? = h[p]? := lookup_eq_of_grad h h1 hr p hg
  unfold pushed
  rw [hp]
  cases hv : h[p]? with
  | none => rfl
  | some v =>
    simp only []
    cases hb : v.Backward with
    | none => rfl
    | some fn =>
      simp only []
      have hs : ∀ i, slotPartial L h1 v fn i = slotPartial L h v fn i := by
        intro i
        unfold slotPartial
        simp only [childData_reset h h1 hr]
      simp only [hs]

theorem closed_of_reset [Field α] (h0 h : Heap α) (hr : resetGrads h = resetGrads h0)
    (hcl : Closed h0) (x : Ptr) (v : Value α) (hv : h[x]? = some v) :
    ∀ c ∈ v.Children, c < h.length := by
  obtain ⟨v0, hv0, -, -, hch, -⟩ := resetGrads_lookup h h0 hr.symm x v hv
  intro c hc
  rw [resetGrads_length h0 h hr]
  exact hcl x v0 hv0 c (by rw [hch]; exact hc)

theorem runNodes_exact [Field α] (L : GoLib α) (h0 : Heap α) (hcl : Closed h0)
    (har : ArityOk h0) :
    ∀ (nodes : List Ptr) (h : Heap α), resetGrads h = resetGrads h0 →
      (∀ x ∈ nodes, x < h0.length) → (∀ x ∈ nodes, ¬ Link h0 x x) →
      nodes.Pairwise (fun a b => ¬ Link h0 b a) →
      ∃ h1, runNodes L nodes h = some h1 ∧ resetGrads h1 = resetGrads h0 ∧
        ∀ n, gradD h1 n = gradD h n + (nodes.map (fun p => pushed L h1 p n)).sum := by
  intro nodes
  induction nodes with
  | nil =>
    intro h hr _ _ _
    exact ⟨h, rfl, hr, fun n => by simp⟩
  | cons x rest ih =>
    intro h hr hval hself hpair
    have hlen : h.length = h0.length := resetGrads_length h0 h hr
    obtain ⟨v, hv⟩ := lookup_of_lt h x (by rw [hlen]; exact hval x (List.mem_cons_self _ _))
    obtain ⟨v0, hv0, -, -, hch, -, hbw⟩ := resetGrads_lookup h h0 hr.symm x v hv
    have hxx : ¬ Link h x x := fun hl =>
      hself x (List.mem_cons_self _ _) ((resetGrads_link h0 h hr x x).mp hl)
    have hrest_val : ∀ y ∈ rest, y < h0.length := fun y hy => hval y (List.mem_cons_of_mem _ hy)
    have hrest_self : ∀ y ∈ rest, ¬ Link h0 y y :=
      fun y hy => hself y (List.mem_cons_of_mem _ hy)
    have hrest_pair := (List.pairwise_cons.mp hpair).2
    have hno : ∀ y ∈ rest, ¬ Link h0 y x := (List.pairwise_cons.mp hpair).1
    -- the rest of the pass leaves `x.Grad` as it is
    have keep : ∀ (hm h1 : Heap α), resetGrads hm = resetGrads h0 →
        resetGrads h1 = resetGrads h0 →
        (∀ n, gradD h1 n = gradD hm n + (rest.map (fun p => pushed L h1 p n)).sum) →
        gradD h1 x = gradD hm x := by
      intro hm h1 _ hr1 he
      rw [he x, List.sum_eq_zero, add_zero]
      intro t ht
      obtain ⟨y, hy, hyt⟩ := List.mem_map.mp ht
      rw [← hyt]
      exact pushed_zero L h1 y x (fun hl => hno y hy ((resetGrads_link h0 h1 hr1 y x).mp hl))
    rw [runNodes]
    simp only [hv]
    cases hb : v.Backward with
    | none =>
      simp only []
      obtain ⟨h1, hrun, hr1, he⟩ := ih h hr hrest_val hrest_self hrest_pair
      refine ⟨h1, hrun, hr1, fun n => ?_⟩
      have hz : pushed L h1 x n = 0 := by
        have hx1 : h1[x]? = h[x]? :=
          lookup_eq_of_grad h h1 (hr1.trans hr.symm) x (keep h h1 hr hr1 he)
        simp only [pushed, hx1, hv, hb]
      rw [List.map_cons, List.sum_cons, hz, zero_add]
      exact he n
    | some fn =>
      simp only []
      obtain ⟨hm, hstep, hrm, hem⟩ := runBackward_exact L h x v fn hv hb
        (by rw [← hch]; exact har x v0 fn hv0 (by rw [hbw]; exact hb))
        (closed_of_reset h0 h hr hcl x v hv)
        (fun hmem => hxx ⟨v, hv, hmem⟩)
      simp only [hstep]
      obtain ⟨h1, hrun, hr1, he⟩ := ih hm (hrm.trans hr) hrest_val hrest_self hrest_pair
      refine ⟨h1, hrun, hr1, fun n => ?_⟩
      have hgx : gradD h1 x = gradD h x := by
        rw [keep hm h1 (hrm.trans hr) hr1 he, hem x, pushed_zero L h x x hxx, add_zero]
      rw [List.map_cons, List.sum_cons, pushed_congr L h h1 (hr1.trans hr.symm) x n hgx,
        he n, hem n, add_assoc]


/-! ## `Backprop` as a whole -/

theorem Backprop_inv [Field α] (L : GoLib α) (h : Heap α) (root : Ptr) (hf : Heap α)
    (hrun : Backprop L root h = some hf) :
    ∃ topology vx, topologyOf h root = some topology ∧ h[root]? = some vx ∧
      runNodes L topology.reverse (h.set root { vx with Grad := 1 }) = some hf := by
  unfold Backprop at hrun
  cases ht : topologyOf h root with
  | none => simp [ht] at hrun
  | some topology =>
    simp only [ht] at hrun
    cases hx : h[root]? with
    | none => simp [hx] at hrun
    | some vx =>
      simp only [hx] at hrun
      rw [backwardLoop_eq_runNodes L topology topology.length _ (Nat.le_refl _),
        List.take_length] at hrun
      exact ⟨topology, vx, rfl, rfl, hrun⟩

theorem Backprop_of_runNodes [Field α] (L : GoLib α) (h : Heap α) (root : Ptr)
    (topology : List Ptr) (vx : Value α) (hf : Heap α)
    (ht : topologyOf h root = some topology) (hx : h[root]? = some vx)
    (hrun : runNodes L topology.reverse (h.set root { vx with Grad := 1 }) = some hf) :
    Backprop L root h = some hf := by
  unfold Backprop
  simp only [ht, hx]
  rw [backwardLoop_eq_runNodes L topology topology.length _ (Nat.le_refl _),
    List.take_length]
  exact hrun

theorem forChildren_reach (h : Heap α) (body : Ptr → TopoState → Option TopoState)
    (hbody : ∀ c st st1, body c st = some st1 →
      ∀ x ∈ st1.topology, x ∈ st.topology ∨ Reachable h c x) :
    ∀ cs st st1, forChildren body cs st = some st1 →
      ∀ x ∈ st1.topology, x ∈ st.topology ∨ ∃ c ∈ cs, Reachable h c x := by
  intro cs
  induction cs with
  | nil =>
    intro st st1 hrun x hx
    simp only [forChildren, Option.some.injEq] at hrun
    subst hrun
    exact Or.inl hx
  | cons c rest ih =>
    intro st st2 hrun x hx
    simp only [forChildren] at hrun
    cases hb : body c st with
    | none => simp [hb] at hrun
    | some st1 =>
      simp only [hb] at hrun
      rcases ih st1 st2 hrun x hx with h1 | ⟨d, hd, hr⟩
      · rcases hbody c st st1 hb x h1 with h0 | hr
        · exact Or.inl h0
        · exact Or.inr ⟨c, List.mem_cons_self _ _, hr⟩
      · exact Or.inr ⟨d, List.mem_cons_of_mem _ hd, hr⟩

theorem buildTopology_reach (h : Heap α) :
    ∀ fuel val st st1, buildTopology h fuel val st = some st1 →
      ∀ x ∈ st1.topology, x ∈ st.topology ∨ Reachable h val x := by
  intro fuel
  induction fuel with
  | zero => intro val st st1 hrun; simp [buildTopology] at hrun
  | succ fuel ih =>
    intro val st st2 hrun x hx
    rw [buildTopology] at hrun
    by_cases hvis : val ∈ st.visited
    · rw [if_pos hvis, Option.some.injEq] at hrun
      subst hrun
      exact Or.inl hx
    · rw [if_neg hvis] at hrun
      cases hv : h[val]? with
      | none => simp [hv] at hrun
      | some v =>
        simp only [hv] at hrun
        cases hloop : forChildren (buildTopology h fuel) v.Children
            { st with visited := val :: st.visited } with
        | none => simp [hloop] at hrun
        | some st1 =>
          simp only [hloop, Option.some.injEq] at hrun
          subst hrun
          rcases List.mem_append.mp hx with hx1 | hx1
          · rcases forChildren_reach h (buildTopology h fuel) ih _ _ _ hloop x hx1 with
              h0 | ⟨c, hc, hr⟩
            · exact Or.inl h0
            · exact Or.inr (Relation.ReflTransGen.head ⟨v, hv, hc⟩ hr)
          · rw [List.mem_singleton] at hx1
            rw [hx1]
            exact Or.inr Relation.ReflTransGen.refl

theorem topologyOf_reach (h : Heap α) (root : Ptr) (topology : List Ptr)
    (ht : topologyOf h root = some topology) : ∀ x ∈ topology, Reachable h root x := by
  unfold topologyOf at ht
  cases hb : buildTopology h (h.length + 1) root ⟨[], []⟩ with
  | none => simp [hb] at ht
  | some st =>
    simp only [hb, Option.map_some', Option.some.injEq] at ht
    subst ht
    intro x hx
    rcases buildTopology_reach h _ _ _ _ hb x hx with h0 | hr
    · simp at h0
    · exact hr

theorem Backprop_frame [Field α] (L : GoLib α) (h : Heap α) (root : Ptr) (hf : Heap α)
    (hrun : Backprop L root h = some hf) :
    resetGrads hf = resetGrads h ∧ ∀ p, ¬ Reachable h root p → hf[p]? = h[p]? := by
  obtain ⟨topology, vx, ht, hx, hnodes⟩ := Backprop_inv L h root hf hrun
  have hseed : resetGrads (h.set root { vx with Grad := 1 }) = resetGrads h :=
    resetGrads_set h root vx 1 hx
  obtain ⟨hr, hframe⟩ := runNodes_frame L _ _ _ hnodes
  refine ⟨hr.trans hseed, fun p hp => ?_⟩
  have hne : root ≠ p := fun e => hp (e ▸ Relation.ReflTransGen.refl)
  rw [hframe p, List.getElem?_set_ne hne]
  intro x hxr hl
  have hxT : x ∈ topology := List.mem_reverse.mp hxr
  exact hp (Relation.ReflTransGen.tail (topologyOf_reach h root topology ht x hxT)
    ((resetGrads_link h _ hseed x p).mp hl))

theorem operandsFirst_pairwise (h : Heap α) :
    ∀ (l : List Ptr) (S : Ptr → Prop), OperandsFirst h S l → (∀ y ∈ l, ¬ S y) → l.Nodup →
      l.Pairwise (fun a b => ¬ Link h a b) := by
  intro l
  induction l with
  | nil => intro _ _ _ _; exact List.Pairwise.nil
  | cons x xs ih =>
    intro S ho hS hnd
    rw [List.nodup_cons] at hnd
    refine List.pairwise_cons.mpr ⟨?_, ih _ ho.2 ?_ hnd.2⟩
    · intro b hb hl
      exact hS b (List.mem_cons_of_mem _ hb) (ho.1 b hl)
    · intro y hy hs
      rcases hs with hs | hs
      · exact hS y (List.mem_cons_of_mem _ hy) hs
      · exact hnd.1 (hs ▸ hy)

theorem reachable_lt (h : Heap α) (hcl : Closed h) (root : Ptr) (hroot : root < h.length)
    (p : Ptr) (hp : Reachable h root p) : p < h.length := by
  induction hp with
  | refl => exact hroot
  | tail _ hl _ =>
    obtain ⟨v, hv, hc⟩ := hl
    exact hcl _ v hv _ hc

theorem topologyOf_mem_iff (h : Heap α) (root : Ptr) (hcl : Closed h) (hac : Acyclic h)
    (hroot : root < h.length) :
    ∃ topology, topologyOf h root = some topology ∧ topology.Nodup ∧
      (∀ p, p ∈ topology ↔ Reachable h root p) ∧
      topology.Pairwise (fun a b => ¬ Link h a b) := by
  obtain ⟨topology, hrun, -, hmem, e⟩ := topologyOf_extends h root hcl hac hroot
  refine ⟨topology, hrun, e.nodup, fun p => ⟨topologyOf_reach h root topology hrun p, ?_⟩,
    operandsFirst_pairwise h topology _ e.order (by simp) e.nodup⟩
  intro hp
  induction hp with
  | refl => exact hmem
  | tail _ hl ih =>
    obtain ⟨i, hi⟩ := List.getElem?_of_mem ih
    rcases operandsFirst_index h topology _ e.order i _ hi _ hl with hin | ⟨j, -, hj⟩
    · simp at hin
    · exact List.getElem?_mem hj

theorem Backprop_exact [Field α] (L : GoLib α) (h : Heap α) (root : Ptr) (hcl : Closed h)
    (hac : Acyclic h) (har : ArityOk h) (hroot : root < h.length) :
    ∃ hf topology, Backprop L root h = some hf ∧ topologyOf h root = some topology ∧
      topology.Nodup ∧ (∀ p, p ∈ topology ↔ Reachable h root p) ∧
      resetGrads hf = resetGrads h ∧
      ∀ n, gradD hf n = (if n = root then 1 else gradD h n)
        + (topology.map (fun p => pushed L hf p n)).sum := by
  obtain ⟨topology, ht, hnd, hmem, hpair⟩ := topologyOf_mem_iff h root hcl hac hroot
  obtain ⟨vx, hx⟩ := lookup_of_lt h root hroot
  have hseed : resetGrads (h.set root { vx with Grad := 1 }) = resetGrads h :=
    resetGrads_set h root vx 1 hx
  obtain ⟨hf, hrun, hr, he⟩ := runNodes_exact L h hcl har topology.reverse
    (h.set root { vx with Grad := 1 }) hseed
    (fun x hxr => reachable_lt h hcl root hroot x ((hmem x).mp (List.mem_reverse.mp hxr)))
    (fun x _ hl => hac x (Relation.TransGen.single hl))
    (List.pairwise_reverse.mpr hpair)
  refine ⟨hf, topology, Backprop_of_runNodes L h root topology vx hf ht hx hrun, ht, hnd,
    hmem, hr, fun n => ?_⟩
  rw [he n, gradD_set h root vx 1 hx n, List.map_reverse, List.sum_reverse]

theorem gradOf_of_gradD [Field α] (h : Heap α) (n : Ptr) (hn : n < h.length) :
    gradOf h n = some (gradD h n) := by
  obtain ⟨v, hv⟩ := lookup_of_lt h n hn
  simp [gradD, gradOf, hv]

theorem pushed_root_zero [Field α] (L : GoLib α) (h hf : Heap α) (root : Ptr)
    (hac : Acyclic h) (hr : resetGrads hf = resetGrads h) (topology : List Ptr)
    (hmem : ∀ p, p ∈ topology → Reachable h root p) :
    (topology.map (fun p => pushed L hf p root)).sum = 0 := by
  apply List.sum_eq_zero
  intro t ht
  obtain ⟨p, hp, hpt⟩ := List.mem_map.mp ht
  rw [← hpt]
  apply pushed_zero
  intro hl
  have hl0 : Link h p root := (resetGrads_link h hf hr p root).mp hl
  exact hac root (Relation.TransGen.tail' (hmem p hp) hl0)

/-- C12. Seed: for every acyclic heap in which no `Children` slice holds a
dangling pointer and every closure has the operand slots it indexes, for every
root in it and whatever the `Grad` fields hold before the call,
`root.Backprop()` returns and the `Grad` of the root is exactly 1 after it. -/
theorem seed_is_one [Field α] (L : GoLib α) (h : Heap α) (root : Ptr) (hcl : Closed h)
    (hac : Acyclic h) (har : ArityOk h) (hroot : root < h.length) :
    ∃ hf, Backprop L root h = some hf ∧ gradOf hf root = some 1 := by
  obtain ⟨hf, topology, hrun, -, -, hmem, hr, he⟩ := Backprop_exact L h root hcl hac har hroot
  refine ⟨hf, hrun, ?_⟩
  rw [gradOf_of_gradD hf root (by rw [resetGrads_length h hf hr]; exact hroot), he root,
    if_pos rfl, pushed_root_zero L h hf root hac hr topology (fun p hp => (hmem p).mp hp),
    add_zero]


theorem arityCheck_ok (h : Heap α) (hc : arityCheck h = true) : ArityOk h := by
  intro p v fn hv hb
  unfold arityCheck at hc
  rw [List.all_eq_true] at hc
  have := hc v (List.getElem?_mem hv)
  simpa [hb] using this

theorem resetGrads_of_zero [Field α] (h : Heap α) (hz : AllGradZero h) : resetGrads h = h := by
  apply List.ext_getElem?
  intro p
  unfold resetGrads
  rw [List.getElem?_map]
  cases hv : h[p]? with
  | none => rfl
  | some v =>
    have := hz p v hv
    cases v
    simp_all

theorem sharedHeap_zero : AllGradZero sharedHeap := by
  intro p v hv
  have hm := List.getElem?_mem hv
  simp only [sharedHeap, List.mem_cons, List.mem_singleton, List.not_mem_nil, or_false] at hm
  rcases hm with h | h | h | h | h | h <;> rw [h]

theorem chainHeap_zero : AllGradZero chainHeap := by
  intro p v hv
  have hm := List.getElem?_mem hv
  simp only [chainHeap, List.mem_cons, List.mem_singleton, List.not_mem_nil, or_false] at hm
  rcases hm with h | h | h | h | h <;> rw [h]

/-- Witness of C12 on the graph `sharedHeap` with root `r`. -/
theorem seed_is_one_witness :
    ∃ hf, Backprop ⟨fun x k => x ^ k, Real.exp, Real.tanh, Real.exp 1, fun _ => ""⟩
        5 sharedHeap = some hf ∧ gradOf hf 5 = some 1 :=
  seed_is_one _ sharedHeap 5 (builtInOrder_closed _ rfl) (builtInOrder_acyclic _ rfl)
    (arityCheck_ok _ rfl) (by decide)

/-- C16. Idempotent re-seeding: for every acyclic heap with no dangling
operand, with the operand slots every closure indexes, and with every `Grad`
0, running `root.Backprop()`, then resetting the `Grad` of every node to 0,
then running `root.Backprop()` again gives the heap that the first run
gave: every node has the same `Grad` as after the first run. -/
theorem reseeding_is_idempotent [Field α] (L : GoLib α) (h : Heap α) (root : Ptr)
    (hcl : Closed h) (hac : Acyclic h) (har : ArityOk h) (hroot : root < h.length)
    (hzero : AllGradZero h) :
    ∃ hf, Backprop L root h = some hf ∧ Backprop L root (resetGrads hf) = some hf := by
  obtain ⟨hf, -, hrun, -, -, -, hr, -⟩ := Backprop_exact L h root hcl hac har hroot
  refine ⟨hf, hrun, ?_⟩
  rw [hr, resetGrads_of_zero h hzero]
  exact hrun

/-- Witness of C16 on the graph `sharedHeap` with root `r`. -/
theorem reseeding_is_idempotent_witness :
    ∃ hf, Backprop ⟨fun x k => x ^ k, Real.exp, Real.tanh, Real.exp 1, fun _ => ""⟩
        5 sharedHeap = some hf ∧
      Backprop ⟨fun x k => x ^ k, Real.exp, Real.tanh, Real.exp 1, fun _ => ""⟩
        5 (resetGrads hf) = some hf :=
  reseeding_is_idempotent _ sharedHeap 5 (builtInOrder_closed _ rfl)
    (builtInOrder_acyclic _ rfl) (arityCheck_ok _ rfl) (by decide) sharedHeap_zero


/-! ## A second `Backprop` on the gradients of the first -/

theorem closed_reset [Field α] (h h1 : Heap α) (hr : resetGrads h1 = resetGrads h)
    (hcl : Closed h) : Closed h1 :=
  fun p v hv => closed_of_reset h h1 hr hcl p v hv

theorem acyclic_reset [Field α] (h h1 : Heap α) (hr : resetGrads h1 = resetGrads h)
    (hac : Acyclic h) : Acyclic h1 := by
  have hlink : Link h1 = Link h := by
    funext p c
    exact propext (resetGrads_link h h1 hr p c)
  intro p hp
  rw [hlink] at hp
  exact hac p hp

theorem arityOk_reset [Field α] (h h1 : Heap α) (hr : resetGrads h1 = resetGrads h)
    (har : ArityOk h) : ArityOk h1 := by
  intro p v1 fn hv1 hb
  obtain ⟨v, hv, -, -, hch, -, hbw⟩ := resetGrads_lookup h1 h hr.symm p v1 hv1
  rw [← hch]
  exact har p v fn hv (by rw [hbw]; exact hb)

theorem buildTopology_reset [Field α] (h h1 : Heap α) (hr : resetGrads h1 = resetGrads h) :
    ∀ fuel, buildTopology h1 fuel = buildTopology h fuel := by
  intro fuel
  induction fuel with
  | zero => funext val st; simp [buildTopology]
  | succ fuel ih =>
    funext val st
    rw [buildTopology, buildTopology, ih]
    by_cases hvis : val ∈ st.visited
    · rw [if_pos hvis, if_pos hvis]
    · rw [if_neg hvis, if_neg hvis]
      cases hv : h[val]? with
      | none =>
        have : h1[val]? = none := by
          rw [List.getElem?_eq_none_iff] at hv ⊢
          rw [resetGrads_length h h1 hr]; exact hv
        rw [this]
      | some v =>
        obtain ⟨v1, hv1, -, -, hch, -⟩ := resetGrads_lookup h h1 hr val v hv
        rw [hv1]
        simp only [hch]

theorem topologyOf_reset [Field α] (h h1 : Heap α) (hr : resetGrads h1 = resetGrads h)
    (root : Ptr) : topologyOf h1 root = topologyOf h root := by
  unfold topologyOf
  rw [buildTopology_reset h h1 hr, resetGrads_length h h1 hr]

theorem sum_map_single {β : Type} [AddCommMonoid β] (f : Ptr → β) (a : Ptr) :
    ∀ (l : List Ptr), l.Nodup → a ∈ l → (∀ x ∈ l, x ≠ a → f x = 0) →
      (l.map f).sum = f a := by
  intro l
  induction l with
  | nil => intro _ ha; simp at ha
  | cons x xs ih =>
    intro hnd ha hz
    rw [List.nodup_cons] at hnd
    rw [List.map_cons, List.sum_cons]
    rcases List.mem_cons.mp ha with hax | hax
    · subst hax
      rw [List.sum_eq_zero, add_zero]
      intro t ht
      obtain ⟨y, hy, hyt⟩ := List.mem_map.mp ht
      rw [← hyt]
      exact hz y (List.mem_cons_of_mem _ hy) (fun e => hnd.1 (e ▸ hy))
    · rw [hz x (List.mem_cons_self _ _) (fun e => hnd.1 (e ▸ hax)), zero_add]
      exact ih hnd.2 hax (fun y hy => hz y (List.mem_cons_of_mem _ hy))

theorem gradD_of_zero [Field α] (h : Heap α) (hz : AllGradZero h) (n : Ptr) :
    gradD h n = 0 := by
  unfold gradD gradOf
  cases hv : h[n]? with
  | none => rfl
  | some v => simp [hz n v hv]

/-- C17, as amended.  For every acyclic heap with no dangling operand, with
the operand slots every closure indexes, and with every `Grad` 0, two calls
of `root.Backprop()` with no reset in between both return; the `Grad` of the
root is 1 after both; every reachable node other than the root whose only
consumer is the root has after the second call twice the `Grad` it had after
the first; and every node other than the root has after the second call the
`Grad` of the first call plus what the closures of the reachable nodes push
to it from their `Grad` of the second call. -/
theorem second_backprop_accumulates [Field α] (L : GoLib α) (h : Heap α) (root : Ptr)
    (hcl : Closed h) (hac : Acyclic h) (har : ArityOk h) (hroot : root < h.length)
    (hzero : AllGradZero h) :
    ∃ hf1 hf2 topology, Backprop L root h = some hf1 ∧ Backprop L root hf1 = some hf2 ∧
      topologyOf h root = some topology ∧ topology.Nodup ∧
      (∀ p, p ∈ topology ↔ Reachable h root p) ∧
      gradOf hf1 root = some 1 ∧ gradOf hf2 root = some 1 ∧
      (∀ n, Reachable h root n → n ≠ root →
        (∀ p, Reachable h root p → Link h p n → p = root) →
        ∃ g, gradOf hf1 n = some g ∧ gradOf hf2 n = some (2 * g)) ∧
      ∀ n, n ≠ root →
        gradD hf2 n = gradD hf1 n + (topology.map (fun p => pushed L hf2 p n)).sum := by
  obtain ⟨hf1, topology, hrun1, ht, hnd, hmem, hr1, he1⟩ :=
    Backprop_exact L h root hcl hac har hroot
  have hlen1 : hf1.length = h.length := resetGrads_length h hf1 hr1
  obtain ⟨hf2, topology2, hrun2, ht2, -, -, hr2, he2⟩ :=
    Backprop_exact L hf1 root (closed_reset h hf1 hr1 hcl) (acyclic_reset h hf1 hr1 hac)
      (arityOk_reset h hf1 hr1 har) (by rw [hlen1]; exact hroot)
  have htt : topology2 = topology := by
    rw [topologyOf_reset h hf1 hr1 root, ht] at ht2
    exact (Option.some.inj ht2).symm
  subst htt
  have hr20 : resetGrads hf2 = resetGrads h := hr2.trans hr1
  have hlen2 : hf2.length = h.length := resetGrads_length h hf2 hr20
  have hroot1 : gradD hf1 root = 1 := by
    rw [he1 root, if_pos rfl,
      pushed_root_zero L h hf1 root hac hr1 topology2 (fun p hp => (hmem p).mp hp), add_zero]
  have hroot2 : gradD hf2 root = 1 := by
    rw [he2 root, if_pos rfl,
      pushed_root_zero L h hf2 root hac hr20 topology2 (fun p hp => (hmem p).mp hp), add_zero]
  refine ⟨hf1, hf2, topology2, hrun1, hrun2, ht, hnd, hmem, ?_, ?_, ?_, ?_⟩
  · rw [gradOf_of_gradD hf1 root (by rw [hlen1]; exact hroot), hroot1]
  · rw [gradOf_of_gradD hf2 root (by rw [hlen2]; exact hroot), hroot2]
  · intro n hn hne honly
    have hnlt : n < h.length := reachable_lt h hcl root hroot n hn
    have single : ∀ hf : Heap α, resetGrads hf = resetGrads h →
        (topology2.map (fun p => pushed L hf p n)).sum = pushed L hf root n := by
      intro hf hr
      apply sum_map_single (fun p => pushed L hf p n) root topology2 hnd
        ((hmem root).mpr Relation.ReflTransGen.refl)
      intro x hx hxr
      apply pushed_zero
      intro hl
      exact hxr (honly x ((hmem x).mp hx) ((resetGrads_link h hf hr x n).mp hl))
    have hg1 : gradD hf1 n = pushed L hf1 root n := by
      rw [he1 n, if_neg hne, gradD_of_zero h hzero n, zero_add, single hf1 hr1]
    have hg2 : gradD hf2 n = 2 * gradD hf1 n := by
      rw [he2 n, if_neg hne, single hf2 hr20,
        pushed_congr L hf1 hf2 hr2 root n (by rw [hroot2, hroot1]), ← hg1, two_mul]
    refine ⟨gradD hf1 n, gradOf_of_gradD hf1 n (by rw [hlen1]; exact hnlt), ?_⟩
    rw [gradOf_of_gradD hf2 n (by rw [hlen2]; exact hnlt), hg2]
  · intro n hne
    rw [he2 n, if_neg hne]

/-- Witness of C17 as amended, on the graph `chainHeap` with root `r`. -/
theorem second_backprop_accumulates_witness :
    ∃ hf1 hf2 topology,
      Backprop ⟨fun x k => x ^ k, Real.exp, Real.tanh, Real.exp 1, fun _ => ""⟩
        4 chainHeap = some hf1 ∧
      Backprop ⟨fun x k => x ^ k, Real.exp, Real.tanh, Real.exp 1, fun _ => ""⟩
        4 hf1 = some hf2 ∧
      topologyOf chainHeap 4 = some topology ∧ topology.Nodup ∧
      (∀ p, p ∈ topology ↔ Reachable chainHeap 4 p) ∧
      gradOf hf1 4 = some 1 ∧ gradOf hf2 4 = some 1 ∧
      (∀ n, Reachable chainHeap 4 n → n ≠ 4 →
        (∀ p, Reachable chainHeap 4 p → Link chainHeap p n → p = 4) →
        ∃ g, gradOf hf1 n = some g ∧ gradOf hf2 n = some (2 * g)) ∧
      ∀ n, n ≠ 4 →
        gradD hf2 n = gradD hf1 n + (topology.map (fun p =>
          pushed ⟨fun x k => x ^ k, Real.exp, Real.tanh, Real.exp 1, fun _ => ""⟩
            hf2 p n)).sum :=
  second_backprop_accumulates _ chainHeap 4 (builtInOrder_closed _ rfl)
    (builtInOrder_acyclic _ rfl) (arityCheck_ok _ rfl) (by decide) chainHeap_zero

/-- C17, counterexample: in the graph `chainHeap` (`m = Add(a, b)`,
`r = Add(m, c)`, every `Grad` 0) the leaf `a` is reachable from the root `r`,
has `Grad` 1 after the first `r.Backprop()` and `Grad` 3, not 2, after the
second. -/
theorem second_backprop_triples :
    ∃ hf1 hf2,
      Backprop ⟨fun x k => x ^ k, Real.exp, Real.tanh, Real.exp 1, fun _ => ""⟩
        4 chainHeap = some hf1 ∧
      Backprop ⟨fun x k => x ^ k, Real.exp, Real.tanh, Real.exp 1, fun _ => ""⟩
        4 hf1 = some hf2 ∧
      Reachable chainHeap 4 0 ∧ gradOf hf1 0 = some 1 ∧ gradOf hf2 0 = some 3 ∧
      gradOf hf2 0 ≠ some (2 * 1) := by
  have l1 : Link chainHeap 4 3 :=
    ⟨⟨"r", 9, 0, [3, 2], "+", some BackwardFn.add⟩, rfl, by simp⟩
  have l2 : Link chainHeap 3 0 :=
    ⟨⟨"m", 5, 0, [0, 1], "+", some BackwardFn.add⟩, rfl, by simp⟩
  have hreach : Reachable chainHeap 4 0 :=
    Relation.ReflTransGen.tail (Relation.ReflTransGen.single l1) l2
  simp [chainHeap, Backprop, topologyOf, buildTopology_succ, forChildren,
    backwardLoop, runBackward, bumpChild, addGrad, gradOf]
  exact ⟨hreach, by norm_num, by norm_num⟩


/-! ## Graphs of `Val`, `Add` and `Mul` -/

theorem addMul_arityOk (h : Heap α) (hg : AddMulGraph h) : ArityOk h := by
  intro p v fn hv hb
  rcases hg p v hv with ⟨hnone, -⟩ | ⟨a, b, hch, hfn⟩
  · rw [hnone] at hb; cases hb
  · rw [hch]
    rcases hfn with hfn | hfn <;> rw [hfn] at hb <;> cases hb <;> exact Nat.le_refl 2

theorem pushed_add [Field α] (L : GoLib α) (h : Heap α) (p n : Ptr) (v : Value α)
    (a b : Ptr) (hv : h[p]? = some v) (hch : v.Children = [a, b])
    (hb : v.Backward = some BackwardFn.add) :
    pushed L h p n = (if a = n then 1 * v.Grad else 0) + if b = n then 1 * v.Grad else 0 := by
  simp [pushed, hv, hb, hch, BackwardFn.arity, slotPartial, List.range_succ]

theorem pushed_mul [Field α] (L : GoLib α) (h : Heap α) (p n : Ptr) (v : Value α)
    (a b : Ptr) (da db : α) (hv : h[p]? = some v) (hch : v.Children = [a, b])
    (hb : v.Backward = some BackwardFn.mul) (hda : dataOf h a = some da)
    (hdb : dataOf h b = some db) :
    pushed L h p n = (if a = n then db * v.Grad else 0) + if b = n then da * v.Grad else 0 := by
  obtain ⟨va, hva, hvad⟩ := Option.map_eq_some'.mp hda
  obtain ⟨vb, hvb, hvbd⟩ := Option.map_eq_some'.mp hdb
  simp [pushed, hv, hb, hch, BackwardFn.arity, slotPartial, List.range_succ, childData,
    hva, hvb, hvad, hvbd]

theorem pushed_leaf [Field α] (L : GoLib α) (h : Heap α) (p n : Ptr) (v : Value α)
    (hv : h[p]? = some v) (hb : v.Backward = none) : pushed L h p n = 0 := by
  simp [pushed, hv, hb]

/-- In an acyclic heap of leaves, `Add` and `Mul` nodes with every `Grad` 0,
over any field: `Backprop` returns, the `Grad` of the root is 1 and the `Grad`
of every other reachable node is the sum of what the reachable nodes push to
it. -/
theorem addmul_pushed_sum [Field α] (L : GoLib α) (h : Heap α) (root : Ptr)
    (hcl : Closed h) (hac : Acyclic h) (hgraph : AddMulGraph h) (hroot : root < h.length)
    (hzero : AllGradZero h) :
    ∃ hf topology, Backprop L root h = some hf ∧ topologyOf h root = some topology ∧
      topology.Nodup ∧ (∀ p, p ∈ topology ↔ Reachable h root p) ∧
      gradOf hf root = some 1 ∧
      (∀ n, Reachable h root n → n ≠ root →
        gradOf hf n = some ((topology.map (fun p => pushed L hf p n)).sum)) ∧
      (∀ (p n : Ptr) (v : Value α) (a b : Ptr), hf[p]? = some v → v.Children = [a, b] →
        v.Backward = some BackwardFn.add →
        pushed L hf p n
          = (if a = n then 1 * v.Grad else 0) + if b = n then 1 * v.Grad else 0) ∧
      (∀ (p n : Ptr) (v : Value α) (a b : Ptr) (da db : α), hf[p]? = some v →
        v.Children = [a, b] → v.Backward = some BackwardFn.mul →
        dataOf hf a = some da → dataOf hf b = some db →
        pushed L hf p n
          = (if a = n then db * v.Grad else 0) + if b = n then da * v.Grad else 0) ∧
      (∀ (p n : Ptr) (v : Value α), hf[p]? = some v → v.Backward = none →
        pushed L hf p n = 0) := by
  obtain ⟨hf, topology, hrun, ht, hnd, hmem, hr, he⟩ :=
    Backprop_exact L h root hcl hac (addMul_arityOk h hgraph) hroot
  have hlen : hf.length = h.length := resetGrads_length h hf hr
  refine ⟨hf, topology, hrun, ht, hnd, hmem, ?_, ?_,
    fun p n v a b hv hch hb => pushed_add L hf p n v a b hv hch hb,
    fun p n v a b da db hv hch hb hda hdb => pushed_mul L hf p n v a b da db hv hch hb hda hdb,
    fun p n v hv hb => pushed_leaf L hf p n v hv hb⟩
  · rw [gradOf_of_gradD hf root (by rw [hlen]; exact hroot), he root, if_pos rfl,
      pushed_root_zero L h hf root hac hr topology (fun p hp => (hmem p).mp hp), add_zero]
  · intro n hn hne
    rw [gradOf_of_gradD hf n (by rw [hlen]; exact reachable_lt h hcl root hroot n hn), he n,
      if_neg hne, gradD_of_zero h hzero n, zero_add]

theorem sharedHeap_addMul : AddMulGraph sharedHeap := by
  intro p v hv
  have hm := List.getElem?_mem hv
  simp only [sharedHeap, List.mem_cons, List.mem_singleton, List.not_mem_nil, or_false] at hm
  rcases hm with h | h | h | h | h | h <;> rw [h] <;> simp


/-! ## The gradient of a graph of `Val`, `Add` and `Mul` is the derivative -/

theorem valueWith_hasDerivAt (h : Heap ℝ) (n : Ptr) (t0 : ℝ) :
    ∀ (fuel : Nat) (i : Ptr),
      HasDerivAt (fun t => valueWith h n t fuel i) (tangentWith h n t0 fuel i) t0 := by
  intro fuel
  induction fuel with
  | zero =>
    intro i
    simp only [valueWith, tangentWith]
    exact hasDerivAt_const t0 0
  | succ fuel ih =>
    intro i
    simp only [valueWith, tangentWith]
    by_cases hin : i = n
    · simp only [if_pos hin]
      exact hasDerivAt_id t0
    · simp only [if_neg hin]
      cases hv : h[i]? with
      | none => exact hasDerivAt_const t0 0
      | some v =>
        simp only []
        split
        · exact (ih _).add (ih _)
        · exact (ih _).mul (ih _)
        · exact hasDerivAt_const t0 _

theorem valueWith_stable [Field α] (h : Heap α) (hb : builtInOrder h = true) (n : Ptr)
    (t : α) : ∀ (i : Ptr) (fuel : Nat), i < fuel →
      valueWith h n t fuel i = valueWith h n t (i + 1) i := by
  intro i
  induction i using Nat.strong_induction_on with
  | _ i ih =>
    intro fuel hfuel
    obtain ⟨f, rfl⟩ : ∃ f, fuel = f + 1 :=
      ⟨fuel - 1, (Nat.succ_pred_eq_of_pos (Nat.lt_of_le_of_lt (Nat.zero_le _) hfuel)).symm⟩
    have hif : i ≤ f := Nat.le_of_lt_succ hfuel
    simp only [valueWith]
    by_cases hin : i = n
    · simp only [if_pos hin]
    · simp only [if_neg hin]
      cases hv : h[i]? with
      | none => rfl
      | some v =>
        simp only []
        split
        · next a b hbw hch =>
          have ha : a < i := builtInOrder_link h hb ⟨v, hv, by rw [hch]; simp⟩
          have hb2 : b < i := builtInOrder_link h hb ⟨v, hv, by rw [hch]; simp⟩
          rw [ih a ha f (lt_of_lt_of_le ha hif), ih a ha i ha, ih b hb2 f (lt_of_lt_of_le hb2 hif), ih b hb2 i hb2]
        · next a b hbw hch =>
          have ha : a < i := builtInOrder_link h hb ⟨v, hv, by rw [hch]; simp⟩
          have hb2 : b < i := builtInOrder_link h hb ⟨v, hv, by rw [hch]; simp⟩
          rw [ih a ha f (lt_of_lt_of_le ha hif), ih a ha i ha, ih b hb2 f (lt_of_lt_of_le hb2 hif), ih b hb2 i hb2]
        · rfl

theorem tangentWith_stable [Field α] (h : Heap α) (hb : builtInOrder h = true) (n : Ptr)
    (t : α) : ∀ (i : Ptr) (fuel : Nat), i < fuel →
      tangentWith h n t fuel i = tangentWith h n t (i + 1) i := by
  intro i
  induction i using Nat.strong_induction_on with
  | _ i ih =>
    intro fuel hfuel
    obtain ⟨f, rfl⟩ : ∃ f, fuel = f + 1 :=
      ⟨fuel - 1, (Nat.succ_pred_eq_of_pos (Nat.lt_of_le_of_lt (Nat.zero_le _) hfuel)).symm⟩
    have hif : i ≤ f := Nat.le_of_lt_succ hfuel
    simp only [tangentWith]
    by_cases hin : i = n
    · simp only [if_pos hin]
    · simp only [if_neg hin]
      cases hv : h[i]? with
      | none => rfl
      | some v =>
        simp only []
        split
        · next a b hbw hch =>
          have ha : a < i := builtInOrder_link h hb ⟨v, hv, by rw [hch]; simp⟩
          have hb2 : b < i := builtInOrder_link h hb ⟨v, hv, by rw [hch]; simp⟩
          rw [ih a ha f (lt_of_lt_of_le ha hif), ih a ha i ha, ih b hb2 f (lt_of_lt_of_le hb2 hif), ih b hb2 i hb2]
        · next a b hbw hch =>
          have ha : a < i := builtInOrder_link h hb ⟨v, hv, by rw [hch]; simp⟩
          have hb2 : b < i := builtInOrder_link h hb ⟨v, hv, by rw [hch]; simp⟩
          rw [ih a ha f (lt_of_lt_of_le ha hif), ih a ha i ha, ih b hb2 f (lt_of_lt_of_le hb2 hif), ih b hb2 i hb2,
            valueWith_stable h hb n t a f (lt_of_lt_of_le ha hif), valueWith_stable h hb n t a i ha,
            valueWith_stable h hb n t b f (lt_of_lt_of_le hb2 hif), valueWith_stable h hb n t b i hb2]
        · rfl

theorem dataD_eq [Field α] (h : Heap α) (i : Ptr) (v : Value α) (hv : h[i]? = some v) :
    dataD h i = v.Data := by
  simp [dataD, dataOf, hv]

theorem dataD_none [Field α] (h : Heap α) (i : Ptr) (hv : h[i]? = none) :
    dataD h i = 0 := by
  simp [dataD, dataOf, hv]

theorem valueWith_data [Field α] (h : Heap α) (hb : builtInOrder h = true)
    (hd : DataConsistent h) (n : Ptr) : ∀ (i : Ptr) (fuel : Nat), i < fuel →
      valueWith h n (dataD h n) fuel i = dataD h i := by
  intro i
  induction i using Nat.strong_induction_on with
  | _ i ih =>
    intro fuel hfuel
    obtain ⟨f, rfl⟩ : ∃ f, fuel = f + 1 :=
      ⟨fuel - 1, (Nat.succ_pred_eq_of_pos (Nat.lt_of_le_of_lt (Nat.zero_le _) hfuel)).symm⟩
    have hif : i ≤ f := Nat.le_of_lt_succ hfuel
    simp only [valueWith]
    by_cases hin : i = n
    · rw [if_pos hin, hin]
    · simp only [if_neg hin]
      cases hv : h[i]? with
      | none => exact (dataD_none h i hv).symm
      | some v =>
        simp only []
        rw [dataD_eq h i v hv]
        split
        · next a b hbw hch =>
          have ha : a < i := builtInOrder_link h hb ⟨v, hv, by rw [hch]; simp⟩
          have hb2 : b < i := builtInOrder_link h hb ⟨v, hv, by rw [hch]; simp⟩
          rw [ih a ha f (lt_of_lt_of_le ha hif), ih b hb2 f (lt_of_lt_of_le hb2 hif)]
          exact ((hd i v a b hv hch).1 hbw).symm
        · next a b hbw hch =>
          have ha : a < i := builtInOrder_link h hb ⟨v, hv, by rw [hch]; simp⟩
          have hb2 : b < i := builtInOrder_link h hb ⟨v, hv, by rw [hch]; simp⟩
          rw [ih a ha f (lt_of_lt_of_le ha hif), ih b hb2 f (lt_of_lt_of_le hb2 hif)]
          exact ((hd i v a b hv hch).2 hbw).symm
        · rfl

theorem tangentWith_zero [Field α] (h : Heap α) (n : Ptr) (t : α) :
    ∀ (fuel : Nat) (i : Ptr), ¬ Reachable h i n → tangentWith h n t fuel i = 0 := by
  intro fuel
  induction fuel with
  | zero => intro i _; rfl
  | succ fuel ih =>
    intro i hi
    simp only [tangentWith]
    have hin : i ≠ n := fun e => hi (e ▸ Relation.ReflTransGen.refl)
    simp only [if_neg hin]
    cases hv : h[i]? with
    | none => rfl
    | some v =>
      simp only []
      have hchild : ∀ c ∈ v.Children, ¬ Reachable h c n :=
        fun c hc hr => hi (Relation.ReflTransGen.head ⟨v, hv, hc⟩ hr)
      split
      · next a b hbw hch =>
        rw [ih a (hchild a (by rw [hch]; simp)), ih b (hchild b (by rw [hch]; simp)), add_zero]
      · next a b hbw hch =>
        rw [ih a (hchild a (by rw [hch]; simp)), ih b (hchild b (by rw [hch]; simp)),
          zero_mul, mul_zero, add_zero]
      · rfl

theorem tangentWith_succ [Field α] (h : Heap α) (n : Ptr) (t : α) (fuel : Nat) (i : Ptr) :
    tangentWith h n t (fuel + 1) i =
      if i = n then 1
      else
        match h[i]? with
        | none => 0
        | some v =>
          match v.Backward, v.Children with
          | some BackwardFn.add, [a, b] => tangentWith h n t fuel a + tangentWith h n t fuel b
          | some BackwardFn.mul, [a, b] =>
            tangentWith h n t fuel a * valueWith h n t fuel b
              + valueWith h n t fuel a * tangentWith h n t fuel b
          | _, _ => 0 := by
  simp only [tangentWith]

/-- The tangent of a node of an `Add`/`Mul` graph, at the stored values:
what the sum and product rules give from the tangents of its operands. -/
theorem tangentWith_node [Field α] (h : Heap α) (hb : builtInOrder h = true)
    (hd : DataConsistent h) (n : Ptr) (i : Ptr) (hi : i < h.length) (hin : i ≠ n)
    (v : Value α) (hv : h[i]? = some v) :
    (v.Backward = none → tangentWith h n (dataD h n) (h.length + 1) i = 0) ∧
    (∀ a b, v.Children = [a, b] → v.Backward = some BackwardFn.add →
      tangentWith h n (dataD h n) (h.length + 1) i
        = tangentWith h n (dataD h n) (h.length + 1) a
          + tangentWith h n (dataD h n) (h.length + 1) b) ∧
    (∀ a b, v.Children = [a, b] → v.Backward = some BackwardFn.mul →
      tangentWith h n (dataD h n) (h.length + 1) i
        = tangentWith h n (dataD h n) (h.length + 1) a * dataD h b
          + dataD h a * tangentWith h n (dataD h n) (h.length + 1) b) := by
  have hch : ∀ c ∈ v.Children, c < h.length :=
    fun c hc => lt_trans (builtInOrder_link h hb ⟨v, hv, hc⟩) hi
  have st : ∀ c, c < h.length → tangentWith h n (dataD h n) h.length c
      = tangentWith h n (dataD h n) (h.length + 1) c := by
    intro c hc
    rw [tangentWith_stable h hb n _ c h.length hc,
      tangentWith_stable h hb n _ c (h.length + 1) (Nat.lt_succ_of_lt hc)]
  refine ⟨?_, ?_, ?_⟩
  · intro hbw
    rw [tangentWith_succ h n _ h.length i]
    simp only [if_neg hin, hv, hbw]
  · intro a b hab hbw
    rw [tangentWith_succ h n _ h.length i]
    simp only [if_neg hin, hv, hbw, hab]
    rw [st a (hch a (by rw [hab]; simp)), st b (hch b (by rw [hab]; simp))]
  · intro a b hab hbw
    have ha := hch a (by rw [hab]; simp)
    have hb2 := hch b (by rw [hab]; simp)
    rw [tangentWith_succ h n _ h.length i]
    simp only [if_neg hin, hv, hbw, hab]
    rw [st a ha, st b hb2, valueWith_data h hb hd n a h.length ha,
      valueWith_data h hb hd n b h.length hb2]

theorem sum_pick [Field α] (N : Nat) (a : Ptr) (ha : a < N) (g : α) (D : Nat → α) :
    ∑ i ∈ Finset.range N, (if a = i then g else 0) * D i = g * D a := by
  have : ∀ i, (if a = i then g else 0) * D i = if a = i then g * D i else 0 := by
    intro i
    by_cases hai : a = i
    · rw [if_pos hai, if_pos hai]
    · rw [if_neg hai, if_neg hai, zero_mul]
  simp only [this]
  rw [Finset.sum_ite_eq, if_pos (Finset.mem_range.mpr ha)]

theorem dataOf_reset [Field α] (h hf : Heap α) (hr : resetGrads hf = resetGrads h)
    (a : Ptr) (ha : a < h.length) : dataOf hf a = some (dataD h a) := by
  obtain ⟨va, hva⟩ := lookup_of_lt h a ha
  obtain ⟨va1, hva1, -, hd, -⟩ := resetGrads_lookup h hf hr a va hva
  rw [dataD_eq h a va hva]
  simp [dataOf, hva1, hd]

theorem pushed_pairing [Field α] (L : GoLib α) (h hf : Heap α)
    (hr : resetGrads hf = resetGrads h) (hb : builtInOrder h = true)
    (hgraph : AddMulGraph h) (hd : DataConsistent h) (n p : Ptr) (hp : p < h.length) :
    ∑ i ∈ Finset.range h.length,
        pushed L hf p i * tangentWith h n (dataD h n) (h.length + 1) i
      = if p = n then 0
        else gradD hf p * tangentWith h n (dataD h n) (h.length + 1) p := by
  obtain ⟨v, hv⟩ := lookup_of_lt h p hp
  obtain ⟨v1, hv1, -, -, hch1, -, hbw1⟩ := resetGrads_lookup h hf hr p v hv
  have hg : gradD hf p = v1.Grad := gradD_eq hf p v1 hv1
  have hzero_child : p = n → ∀ c ∈ v.Children,
      tangentWith h n (dataD h n) (h.length + 1) c = 0 := by
    intro hpn c hc
    apply tangentWith_zero
    intro hreach
    exact builtInOrder_acyclic h hb p
      (Relation.TransGen.head' ⟨v, hv, hc⟩ (hpn ▸ hreach))
  rcases hgraph p v hv with ⟨hnone, -⟩ | ⟨a, b, hab, hfn⟩
  · have hz : ∀ i, pushed L hf p i = 0 :=
      fun i => pushed_leaf L hf p i v1 hv1 (by rw [hbw1]; exact hnone)
    simp only [hz, zero_mul, Finset.sum_const_zero]
    by_cases hpn : p = n
    · rw [if_pos hpn]
    · rw [if_neg hpn, (tangentWith_node h hb hd n p hp hpn v hv).1 hnone, mul_zero]
  · have ha : a < h.length :=
      lt_trans (builtInOrder_link h hb ⟨v, hv, by rw [hab]; simp⟩) hp
    have hb2 : b < h.length :=
      lt_trans (builtInOrder_link h hb ⟨v, hv, by rw [hab]; simp⟩) hp
    rcases hfn with hadd | hmul
    · have hpush : ∀ i, pushed L hf p i
          = (if a = i then v1.Grad else 0) + if b = i then v1.Grad else 0 := by
        intro i
        rw [pushed_add L hf p i v1 a b hv1 (by rw [hch1]; exact hab)
          (by rw [hbw1]; exact hadd), one_mul]
      simp only [hpush, add_mul, Finset.sum_add_distrib, sum_pick _ a ha, sum_pick _ b hb2]
      by_cases hpn : p = n
      · rw [if_pos hpn, hzero_child hpn a (by rw [hab]; simp),
          hzero_child hpn b (by rw [hab]; simp), mul_zero, add_zero]
      · rw [if_neg hpn, (tangentWith_node h hb hd n p hp hpn v hv).2.1 a b hab hadd, hg,
          mul_add]
    · have hpush : ∀ i, pushed L hf p i
          = (if a = i then dataD h b * v1.Grad else 0)
            + if b = i then dataD h a * v1.Grad else 0 := by
        intro i
        exact pushed_mul L hf p i v1 a b _ _ hv1 (by rw [hch1]; exact hab)
          (by rw [hbw1]; exact hmul) (dataOf_reset h hf hr a ha) (dataOf_reset h hf hr b hb2)
      simp only [hpush, add_mul, Finset.sum_add_distrib, sum_pick _ a ha, sum_pick _ b hb2]
      by_cases hpn : p = n
      · rw [if_pos hpn, hzero_child hpn a (by rw [hab]; simp),
          hzero_child hpn b (by rw [hab]; simp), mul_zero, mul_zero, add_zero]
      · rw [if_neg hpn, (tangentWith_node h hb hd n p hp hpn v hv).2.2 a b hab hmul, hg]
        ring

theorem sum_list_exchange [Field α] (s : Finset Nat) (F : Ptr → Nat → α) (D : Nat → α) :
    ∀ (T : List Ptr), ∑ i ∈ s, (T.map (fun p => F p i)).sum * D i
      = (T.map (fun p => ∑ i ∈ s, F p i * D i)).sum := by
  intro T
  induction T with
  | nil => simp
  | cons x xs ih =>
    simp only [List.map_cons, List.sum_cons, add_mul, Finset.sum_add_distrib, ih]

theorem sum_range_eq_list [Field α] (N : Nat) (T : List Ptr) (hnd : T.Nodup)
    (hlt : ∀ p ∈ T, p < N) (f : Nat → α) (hz : ∀ i, i ∉ T → f i = 0) :
    ∑ i ∈ Finset.range N, f i = (T.map f).sum := by
  rw [← List.sum_toFinset f hnd]
  symm
  apply Finset.sum_subset
  · intro x hx
    exact Finset.mem_range.mpr (hlt x (List.mem_toFinset.mp hx))
  · intro x _ hx
    exact hz x (fun hm => hx (List.mem_toFinset.mpr hm))

theorem gradient_is_tangent [Field α] (L : GoLib α) (h : Heap α) (root : Ptr)
    (hb : builtInOrder h = true) (hgraph : AddMulGraph h) (hd : DataConsistent h)
    (hroot : root < h.length) (hzero : AllGradZero h) (hf : Heap α) (topology : List Ptr)
    (hnd : topology.Nodup) (hmem : ∀ p, p ∈ topology ↔ Reachable h root p)
    (hr : resetGrads hf = resetGrads h)
    (he : ∀ n, gradD hf n = (if n = root then 1 else gradD h n)
      + (topology.map (fun p => pushed L hf p n)).sum)
    (n : Ptr) (hn : Reachable h root n) :
    gradD hf n = tangentWith h n (dataD h n) (h.length + 1) root := by
  have hcl := builtInOrder_closed h hb
  have hac := builtInOrder_acyclic h hb
  have hlt : ∀ p ∈ topology, p < h.length :=
    fun p hp => reachable_lt h hcl root hroot p ((hmem p).mp hp)
  have hg : ∀ i, gradD hf i = (if i = root then 1 else 0)
      + (topology.map (fun p => pushed L hf p i)).sum := by
    intro i
    rw [he i, gradD_of_zero h hzero i]
  have hgz : ∀ i, i ∉ topology → gradD hf i = 0 := by
    intro i hi
    have hir : i ≠ root := fun e => hi (e ▸ (hmem root).mpr Relation.ReflTransGen.refl)
    rw [hg i, if_neg hir, zero_add]
    apply List.sum_eq_zero
    intro t ht
    obtain ⟨p, hp, hpt⟩ := List.mem_map.mp ht
    rw [← hpt]
    apply pushed_zero
    intro hl
    exact hi ((hmem i).mpr (Relation.ReflTransGen.tail ((hmem p).mp hp)
      ((resetGrads_link h hf hr p i).mp hl)))
  -- the pairing of the gradients with the tangents, computed in two ways
  have left : ∑ i ∈ Finset.range h.length,
      gradD hf i * tangentWith h n (dataD h n) (h.length + 1) i
      = (topology.map (fun p =>
          gradD hf p * tangentWith h n (dataD h n) (h.length + 1) p)).sum :=
    sum_range_eq_list h.length topology hnd hlt _
      (fun i hi => by rw [hgz i hi, zero_mul])
  have right : ∑ i ∈ Finset.range h.length,
      gradD hf i * tangentWith h n (dataD h n) (h.length + 1) i
      = tangentWith h n (dataD h n) (h.length + 1) root
        + (topology.map (fun p => if p = n then 0
            else gradD hf p * tangentWith h n (dataD h n) (h.length + 1) p)).sum := by
    have e1 : ∀ i, gradD hf i * tangentWith h n (dataD h n) (h.length + 1) i
        = (if root = i then 1 else 0) * tangentWith h n (dataD h n) (h.length + 1) i
          + (topology.map (fun p => pushed L hf p i)).sum
            * tangentWith h n (dataD h n) (h.length + 1) i := by
      intro i
      rw [hg i, add_mul]
      by_cases hir : i = root
      · rw [if_pos hir, if_pos hir.symm]
      · rw [if_neg hir, if_neg (fun e => hir e.symm)]
    rw [Finset.sum_congr rfl (fun i _ => e1 i), Finset.sum_add_distrib,
      sum_pick _ root hroot, one_mul, sum_list_exchange]
    congr 1
    apply congrArg
    apply List.map_congr_left
    intro p hp
    exact pushed_pairing L h hf hr hb hgraph hd n p (hlt p hp)
  have split : (topology.map (fun p =>
        gradD hf p * tangentWith h n (dataD h n) (h.length + 1) p)).sum
      = (topology.map (fun p => if p = n then 0
          else gradD hf p * tangentWith h n (dataD h n) (h.length + 1) p)).sum
        + (topology.map (fun p => if p = n
            then gradD hf p * tangentWith h n (dataD h n) (h.length + 1) p else 0)).sum := by
    rw [← List.sum_map_add]
    apply congrArg
    apply List.map_congr_left
    intro p _
    by_cases hpn : p = n
    · rw [if_pos hpn, if_pos hpn, zero_add]
    · rw [if_neg hpn, if_neg hpn, add_zero]
  have single : (topology.map (fun p => if p = n
      then gradD hf p * tangentWith h n (dataD h n) (h.length + 1) p else 0)).sum
      = gradD hf n := by
    rw [sum_map_single _ n topology hnd ((hmem n).mpr hn)
      (fun x _ hxn => if_neg hxn), if_pos rfl, tangentWith_succ, if_pos rfl, mul_one]
  have := left.symm.trans right
  rw [split, single] at this
  have h2 := add_left_cancel (a := (topology.map (fun p => if p = n then 0
      else gradD hf p * tangentWith h n (dataD h n) (h.length + 1) p)).sum)
    (b := gradD hf n) (c := tangentWith h n (dataD h n) (h.length + 1) root)
    (by rw [this]; exact add_comm _ _)
  exact h2

theorem sharedHeap_consistent : DataConsistent sharedHeap := by
  intro p v a b hv hch
  have hm := List.getElem?_mem hv
  simp only [sharedHeap, List.mem_cons, List.mem_singleton, List.not_mem_nil, or_false] at hm
  rcases hm with h | h | h | h | h | h <;> rw [h] at hch ⊢ <;>
    simp at hch <;> obtain ⟨rfl, rfl⟩ := hch <;>
    simp [dataD, dataOf, sharedHeap] <;> norm_num

/-- C19. For every heap built only from `Val`, `Add` and `Mul` (every record
has its operands allocated before it, is a leaf or an `Add` or `Mul` of two
operands, and holds the `Data` its constructor computes), with any sharing of
nodes and with every `Grad` 0, `root.Backprop()` returns; the `Grad` of the
root is 1; the `Grad` of every other reachable node `n` is the sum, over the
reachable nodes `p` (the entries of `topology`, each once), of what `p` pushes
to `n`: for each operand slot of `p` that holds `n`, the `Grad` of `p` times 1
when `p` is an `Add` and times the `Data` of the other operand when `p` is a
`Mul`; and the `Grad` of every reachable node `n` is the derivative of the value
of the root with respect to the value of `n`, at the value `n` has. -/
theorem addmul_gradient_is_derivative (L : GoLib ℝ) (h : Heap ℝ) (root : Ptr)
    (hbuilt : builtInOrder h = true) (hgraph : AddMulGraph h) (hdata : DataConsistent h)
    (hroot : root < h.length) (hzero : AllGradZero h) :
    ∃ hf topology, Backprop L root h = some hf ∧ topologyOf h root = some topology ∧
      topology.Nodup ∧ (∀ p, p ∈ topology ↔ Reachable h root p) ∧
      gradOf hf root = some 1 ∧
      (∀ n, Reachable h root n → n ≠ root →
        gradOf hf n = some ((topology.map (fun p => pushed L hf p n)).sum)) ∧
      (∀ (p n : Ptr) (v : Value ℝ) (a b : Ptr), hf[p]? = some v → v.Children = [a, b] →
        v.Backward = some BackwardFn.add →
        pushed L hf p n
          = (if a = n then 1 * v.Grad else 0) + if b = n then 1 * v.Grad else 0) ∧
      (∀ (p n : Ptr) (v : Value ℝ) (a b : Ptr) (da db : ℝ), hf[p]? = some v →
        v.Children = [a, b] → v.Backward = some BackwardFn.mul →
        dataOf hf a = some da → dataOf hf b = some db →
        pushed L hf p n
          = (if a = n then db * v.Grad else 0) + if b = n then da * v.Grad else 0) ∧
      (∀ (p n : Ptr) (v : Value ℝ), hf[p]? = some v → v.Backward = none →
        pushed L hf p n = 0) ∧
      (∀ n, valueWith h n (dataD h n) (h.length + 1) root = dataD h root) ∧
      ∀ n, Reachable h root n →
        ∃ g, gradOf hf n = some g ∧
          HasDerivAt (fun t => valueWith h n t (h.length + 1) root) g (dataD h n) := by
  have hcl := builtInOrder_closed h hbuilt
  have hac := builtInOrder_acyclic h hbuilt
  obtain ⟨hf, topology, hrun, ht, hnd, hmem, hr, he⟩ :=
    Backprop_exact L h root hcl hac (addMul_arityOk h hgraph) hroot
  obtain ⟨hf1, topology1, hrun1, ht1, -, -, hroot1, hsum, hadd, hmul, hleaf⟩ :=
    addmul_pushed_sum L h root hcl hac hgraph hroot hzero
  have e1 : hf1 = hf := Option.some.inj (hrun1.symm.trans hrun)
  have e2 : topology1 = topology := Option.some.inj (ht1.symm.trans ht)
  subst e1 e2
  refine ⟨hf1, topology1, hrun, ht, hnd, hmem, hroot1, hsum, hadd, hmul, hleaf, ?_, ?_⟩
  · intro n
    exact valueWith_data h hbuilt hdata n root (h.length + 1) (Nat.lt_succ_of_lt hroot)
  · intro n hn
    have hlen : hf1.length = h.length := resetGrads_length h hf1 hr
    refine ⟨gradD hf1 n,
      gradOf_of_gradD hf1 n (by rw [hlen]; exact reachable_lt h hcl root hroot n hn), ?_⟩
    rw [gradient_is_tangent L h root hbuilt hgraph hdata hroot hzero hf1 topology1 hnd hmem
      hr he n hn]
    exact valueWith_hasDerivAt h n (dataD h n) (h.length + 1) root

/-- Witness of C19 on the graph `sharedHeap` with root `r`. -/
theorem addmul_gradient_is_derivative_witness :
    ∃ hf topology,
      Backprop ⟨fun x k => x ^ k, Real.exp, Real.tanh, Real.exp 1, fun _ => ""⟩
        5 sharedHeap = some hf ∧ topologyOf sharedHeap 5 = some topology ∧
      topology.Nodup ∧ (∀ p, p ∈ topology ↔ Reachable sharedHeap 5 p) ∧
      gradOf hf 5 = some 1 ∧
      (∀ n, Reachable sharedHeap 5 n → n ≠ 5 →
        gradOf hf n = some ((topology.map (fun p =>
          pushed ⟨fun x k => x ^ k, Real.exp, Real.tanh, Real.exp 1, fun _ => ""⟩
            hf p n)).sum)) ∧
      (∀ (p n : Ptr) (v : Value ℝ) (a b : Ptr), hf[p]? = some v → v.Children = [a, b] →
        v.Backward = some BackwardFn.add →
        pushed ⟨fun x k => x ^ k, Real.exp, Real.tanh, Real.exp 1, fun _ => ""⟩ hf p n
          = (if a = n then 1 * v.Grad else 0) + if b = n then 1 * v.Grad else 0) ∧
      (∀ (p n : Ptr) (v : Value ℝ) (a b : Ptr) (da db : ℝ), hf[p]? = some v →
        v.Children = [a, b] → v.Backward = some BackwardFn.mul →
        dataOf hf a = some da → dataOf hf b = some db →
        pushed ⟨fun x k => x ^ k, Real.exp, Real.tanh, Real.exp 1, fun _ => ""⟩ hf p n
          = (if a = n then db * v.Grad else 0) + if b = n then da * v.Grad else 0) ∧
      (∀ (p n : Ptr) (v : Value ℝ), hf[p]? = some v → v.Backward = none →
        pushed ⟨fun x k => x ^ k, Real.exp, Real.tanh, Real.exp 1, fun _ => ""⟩ hf p n
          = 0) ∧
      (∀ n, valueWith sharedHeap n (dataD sharedHeap n) (sharedHeap.length + 1) 5
        = dataD sharedHeap 5) ∧
      ∀ n, Reachable sharedHeap 5 n →
        ∃ g, gradOf hf n = some g ∧
          HasDerivAt (fun t => valueWith sharedHeap n t (sharedHeap.length + 1) 5) g
            (dataD sharedHeap n) :=
  addmul_gradient_is_derivative _ sharedHeap 5 rfl sharedHeap_addMul sharedHeap_consistent
    (by decide) sharedHeap_zero


/-! ## `Backprop` returns on every heap without dangling operands -/

theorem bumpChild_total [Field α] (h : Heap α) (val : Ptr) (i : Nat)
    (f : Value α → Option α) (v : Value α) (hv : h[val]? = some v)
    (hi : i < v.Children.length) (hcl : ∀ c ∈ v.Children, c < h.length)
    (hf : ∃ g, f v = some g) :
    ∃ h1, bumpChild h val i f = some h1 ∧ resetGrads h1 = resetGrads h := by
  obtain ⟨c, hc, hmem⟩ := slot_of_arity v i v.Children.length (Nat.le_refl _) hi
  obtain ⟨vc, hvc⟩ := lookup_of_lt h c (hcl c hmem)
  obtain ⟨g, hg⟩ := hf
  obtain ⟨h1, hrun, hr, -⟩ := bumpChild_some h val i f v c vc g hv hc hvc hg
  exact ⟨h1, hrun, hr⟩

theorem childData_total (h : Heap α) (v : Value α) (i : Nat) (hi : i < v.Children.length)
    (hcl : ∀ c ∈ v.Children, c < h.length) : ∃ d, childData h v i = some d := by
  obtain ⟨c, hc, hmem⟩ := slot_of_arity v i v.Children.length (Nat.le_refl _) hi
  obtain ⟨vc, hvc⟩ := lookup_of_lt h c (hcl c hmem)
  exact ⟨vc.Data, childData_some h v i c vc hc hvc⟩

theorem runBackward_total [Field α] (L : GoLib α) (h : Heap α) (val : Ptr) (v : Value α)
    (fn : BackwardFn α) (hv : h[val]? = some v) (har : fn.arity ≤ v.Children.length)
    (hcl : ∀ c ∈ v.Children, c < h.length) :
    ∃ h1, runBackward L fn val h = some h1 ∧ resetGrads h1 = resetGrads h := by
  have h0 : 0 < v.Children.length := lt_of_lt_of_le (arity_pos fn) har
  have two : fn.arity = 2 → ∀ (f0 f1 : Heap α → Value α → Option α),
      (∀ (hh : Heap α) (w : Value α), w.Children = v.Children →
        (∀ c ∈ w.Children, c < hh.length) → ∃ g, f0 hh w = some g) →
      (∀ (hh : Heap α) (w : Value α), w.Children = v.Children →
        (∀ c ∈ w.Children, c < hh.length) → ∃ g, f1 hh w = some g) →
      ∃ h1, (match bumpChild h val 0 (f0 h) with
          | none => none
          | some hm => bumpChild hm val 1 (f1 hm)) = some h1 ∧
        resetGrads h1 = resetGrads h := by
    intro har2 f0 f1 hf0 hf1
    have h1lt : 1 < v.Children.length := by rw [har2] at har; exact har
    obtain ⟨hm, hb0, r0⟩ := bumpChild_total h val 0 (f0 h) v hv h0 hcl (hf0 h v rfl hcl)
    obtain ⟨w, hw, -, -, hwc, -⟩ := resetGrads_lookup h hm r0 val v hv
    have hclm : ∀ c ∈ w.Children, c < hm.length := by
      intro c hc
      rw [resetGrads_length h hm r0]
      exact hcl c (by rw [← hwc]; exact hc)
    obtain ⟨h2, hb1, r1⟩ := bumpChild_total hm val 1 (f1 hm) w hw (by rw [hwc]; exact h1lt)
      hclm (hf1 hm w hwc hclm)
    exact ⟨h2, by simp only [hb0, hb1], r1.trans r0⟩
  cases fn with
  | add =>
    exact two rfl (fun _ w => some w.Grad) (fun _ w => some w.Grad)
      (fun _ w _ _ => ⟨_, rfl⟩) (fun _ w _ _ => ⟨_, rfl⟩)
  | sub =>
    exact two rfl (fun _ w => some w.Grad) (fun _ w => some w.Grad)
      (fun _ w _ _ => ⟨_, rfl⟩) (fun _ w _ _ => ⟨_, rfl⟩)
  | mul =>
    have h1lt : 1 < v.Children.length := har
    refine two rfl (fun hh w => (childData hh w 1).map (fun d => d * w.Grad))
      (fun hh w => (childData hh w 0).map (fun d => d * w.Grad)) ?_ ?_
    · intro hh w hwc hclw
      obtain ⟨d, hd⟩ := childData_total hh w 1 (by rw [hwc]; exact h1lt) hclw
      exact ⟨d * w.Grad, by simp only [hd, Option.map_some']⟩
    · intro hh w hwc hclw
      obtain ⟨d, hd⟩ := childData_total hh w 0 (by rw [hwc]; exact h0) hclw
      exact ⟨d * w.Grad, by simp only [hd, Option.map_some']⟩
  | pow k =>
    obtain ⟨d, hd⟩ := childData_total h v 0 h0 hcl
    simp only [runBackward, hv, hd]
    exact bumpChild_total h val 0 _ v hv h0 hcl ⟨_, rfl⟩
  | exp =>
    unfold runBackward
    exact bumpChild_total h val 0 _ v hv h0 hcl ⟨_, rfl⟩
  | tanh =>
    obtain ⟨d, hd⟩ := childData_total h v 0 h0 hcl
    simp only [runBackward, hv, hd]
    exact bumpChild_total h val 0 _ v hv h0 hcl ⟨_, rfl⟩

theorem runNodes_total [Field α] (L : GoLib α) (h0 : Heap α) (hcl : Closed h0)
    (har : ArityOk h0) :
    ∀ (nodes : List Ptr) (h : Heap α), resetGrads h = resetGrads h0 →
      (∀ x ∈ nodes, x < h0.length) → ∃ h1, runNodes L nodes h = some h1 := by
  intro nodes
  induction nodes with
  | nil => intro h _ _; exact ⟨h, rfl⟩
  | cons x rest ih =>
    intro h hr hval
    have hlen : h.length = h0.length := resetGrads_length h0 h hr
    obtain ⟨v, hv⟩ := lookup_of_lt h x (by rw [hlen]; exact hval x (List.mem_cons_self _ _))
    obtain ⟨v0, hv0, -, -, hch, -, hbw⟩ := resetGrads_lookup h h0 hr.symm x v hv
    have hrest : ∀ y ∈ rest, y < h0.length := fun y hy => hval y (List.mem_cons_of_mem _ hy)
    rw [runNodes]
    simp only [hv]
    cases hb : v.Backward with
    | none => exact ih h hr hrest
    | some fn =>
      simp only []
      obtain ⟨hm, hstep, hrm⟩ := runBackward_total L h x v fn hv
        (by rw [← hch]; exact har x v0 fn hv0 (by rw [hbw]; exact hb))
        (closed_of_reset h0 h hr hcl x v hv)
      simp only [hstep]
      exact ih hm (hrm.trans hr) hrest

theorem topologyOf_total (h : Heap α) (root : Ptr) (hcl : Closed h)
    (hroot : root < h.length) : ∃ topology, topologyOf h root = some topology := by
  obtain ⟨st1, hrun, -⟩ := buildTopology_terminates h hcl (h.length + 1) root ⟨[], []⟩ hroot
    (by rw [unvisited_nil]; exact Nat.lt_succ_self _)
  exact ⟨st1.topology, by simp [topologyOf, hrun]⟩

theorem Backprop_total [Field α] (L : GoLib α) (h : Heap α) (root : Ptr) (hcl : Closed h)
    (har : ArityOk h) (hroot : root < h.length) : ∃ hf, Backprop L root h = some hf := by
  obtain ⟨topology, ht⟩ := topologyOf_total h root hcl hroot
  obtain ⟨vx, hx⟩ := lookup_of_lt h root hroot
  obtain ⟨hf, hrun⟩ := runNodes_total L h hcl har topology.reverse
    (h.set root { vx with Grad := 1 }) (resetGrads_set h root vx 1 hx)
    (fun x hxr => reachable_lt h hcl root hroot x
      (topologyOf_reach h root topology ht x (List.mem_reverse.mp hxr)))
  exact ⟨hf, Backprop_of_runNodes L h root topology vx hf ht hx hrun⟩

/-- C13. `Backprop` mutates only `Grad` fields: for every heap, cyclic or
not, in which no `Children` slice holds a dangling pointer and every closure
has the operand slots it indexes, and for every root in it, `root.Backprop()`
returns; the heap after it has the same records as before, every record has
the `Label`, `Data`, `Children`, `Op` and `Backward` it had, and every record
that is not reachable from the root is the same record as before, its `Grad`
included. -/
theorem backprop_changes_only_grads [Field α] (L : GoLib α) (h : Heap α) (root : Ptr)
    (hcl : Closed h) (har : ArityOk h) (hroot : root < h.length) :
    ∃ hf, Backprop L root h = some hf ∧ hf.length = h.length ∧
      (∀ (p : Ptr) (v : Value α), h[p]? = some v →
        ∃ v1, hf[p]? = some v1 ∧ v1.Label = v.Label ∧ v1.Data = v.Data ∧
          v1.Children = v.Children ∧ v1.Op = v.Op ∧ v1.Backward = v.Backward) ∧
      ∀ p, ¬ Reachable h root p → hf[p]? = h[p]? := by
  obtain ⟨hf, hrun⟩ := Backprop_total L h root hcl har hroot
  obtain ⟨hr, hframe⟩ := Backprop_frame L h root hf hrun
  exact ⟨hf, hrun, resetGrads_length h hf hr,
    fun p v hv => resetGrads_lookup h hf hr p v hv, hframe⟩

/-- Witness of C13 on the graph `sharedHeap` with root `p = Mul(y, a)`. -/
theorem backprop_changes_only_grads_witness :
    ∃ hf, Backprop ⟨fun x k => x ^ k, Real.exp, Real.tanh, Real.exp 1, fun _ => ""⟩
        3 sharedHeap = some hf ∧
      hf.length = sharedHeap.length ∧
      (∀ (p : Ptr) (v : Value ℝ), sharedHeap[p]? = some v →
        ∃ v1, hf[p]? = some v1 ∧ v1.Label = v.Label ∧ v1.Data = v.Data ∧
          v1.Children = v.Children ∧ v1.Op = v.Op ∧ v1.Backward = v.Backward) ∧
      ∀ p, ¬ Reachable sharedHeap 3 p → hf[p]? = sharedHeap[p]? :=
  backprop_changes_only_grads _ sharedHeap 3 (builtInOrder_closed _ rfl)
    (arityCheck_ok _ rfl) (by decide)


/-! ## A shared operand under two products -/

theorem link_snoc (h : Heap α) (v : Value α) (t c : Ptr) :
    Link (h ++ [v]) t c ↔ Link h t c ∨ (t = h.length ∧ c ∈ v.Children) := by
  constructor
  · rintro ⟨w, hw, hc⟩
    by_cases ht : t < h.length
    · rw [List.getElem?_append_left ht] at hw
      exact Or.inl ⟨w, hw, hc⟩
    · have hle : h.length ≤ t := Nat.le_of_not_lt ht
      rw [List.getElem?_append_right hle] at hw
      cases hk : t - h.length with
      | zero =>
        rw [hk, List.getElem?_cons_zero] at hw
        have hwv : w = v := (Option.some.inj hw).symm
        exact Or.inr ⟨Nat.le_antisymm (Nat.sub_eq_zero_iff_le.mp hk) hle, hwv ▸ hc⟩
      | succ k =>
        rw [hk] at hw
        simp at hw
  · rintro (⟨w, hw, hc⟩ | ⟨ht, hc⟩)
    · exact ⟨w, lookup_append h [v] t w hw, hc⟩
    · exact ⟨v, by rw [ht]; exact lookup_new h v [], hc⟩

theorem link_lt (h : Heap α) (t c : Ptr) (hl : Link h t c) : t < h.length := by
  obtain ⟨w, hw, -⟩ := hl
  exact (List.getElem?_eq_some_iff.mp hw).1

theorem closed_iff_link (h : Heap α) : Closed h ↔ ∀ t c, Link h t c → c < h.length :=
  ⟨fun hcl _ c ⟨w, hw, hc⟩ => hcl _ w hw c hc, fun hl p v hv c hc => hl p c ⟨v, hv, hc⟩⟩

theorem closed_snoc (h : Heap α) (v : Value α) (hcl : Closed h)
    (hv : ∀ c ∈ v.Children, c < h.length) : Closed (h ++ [v]) := by
  rw [closed_iff_link]
  intro t c hl
  rw [List.length_append, List.length_singleton]
  rcases (link_snoc h v t c).mp hl with hl | ⟨-, hc⟩
  · exact Nat.lt_succ_of_lt ((closed_iff_link h).mp hcl t c hl)
  · exact Nat.lt_succ_of_lt (hv c hc)

theorem reach_snoc_old (h : Heap α) (v : Value α) (hcl : Closed h) (x z : Ptr)
    (hx : x < h.length) (hr : Relation.ReflTransGen (Link (h ++ [v])) x z) :
    Reachable h x z := by
  induction hr with
  | refl => exact Relation.ReflTransGen.refl
  | tail _ hl ih =>
    rcases (link_snoc h v _ _).mp hl with hl | ⟨hm, -⟩
    · exact Relation.ReflTransGen.tail ih hl
    · have := reachable_lt h hcl x hx _ ih
      rw [hm] at this
      exact absurd this (Nat.lt_irrefl _)

theorem acyclic_snoc (h : Heap α) (v : Value α) (hcl : Closed h) (hac : Acyclic h)
    (hv : ∀ c ∈ v.Children, c < h.length) : Acyclic (h ++ [v]) := by
  intro x hx
  obtain ⟨c, hl, hr⟩ := Relation.TransGen.head'_iff.mp hx
  rcases (link_snoc h v x c).mp hl with hl | ⟨hxe, hc⟩
  · have hcl1 : c < h.length := (closed_iff_link h).mp hcl x c hl
    exact hac x (Relation.TransGen.head' hl (reach_snoc_old h v hcl c x hcl1 hr))
  · have := reachable_lt h hcl c (hv c hc) x (reach_snoc_old h v hcl c x (hv c hc) hr)
    rw [hxe] at this
    exact Nat.lt_irrefl _ this

theorem arityOk_snoc (h : Heap α) (v : Value α) (har : ArityOk h)
    (hv : ∀ fn, v.Backward = some fn → fn.arity ≤ v.Children.length) :
    ArityOk (h ++ [v]) := by
  intro p w fn hw hb
  by_cases hp : p < h.length
  · rw [List.getElem?_append_left hp] at hw
    exact har p w fn hw hb
  · have hle : h.length ≤ p := Nat.le_of_not_lt hp
    rw [List.getElem?_append_right hle] at hw
    cases hk : p - h.length with
    | zero =>
      rw [hk, List.getElem?_cons_zero] at hw
      have hwv : w = v := (Option.some.inj hw).symm
      subst hwv
      exact hv fn hb
    | succ k =>
      rw [hk] at hw
      simp at hw

theorem sum_map_two {β : Type} [AddCommMonoid β] (f : Ptr → β) (a b : Ptr) (hab : a ≠ b)
    (l : List Ptr) (hnd : l.Nodup) (ha : a ∈ l) (hb : b ∈ l)
    (hz : ∀ x ∈ l, x ≠ a → x ≠ b → f x = 0) : (l.map f).sum = f a + f b := by
  have hsplit : ∀ x ∈ l, f x = (if x = a then f a else 0) + (if x = b then f b else 0) := by
    intro x hx
    by_cases hxa : x = a
    · subst hxa
      rw [if_pos rfl, if_neg hab, add_zero]
    · by_cases hxb : x = b
      · subst hxb
        rw [if_neg hxa, if_pos rfl, zero_add]
      · rw [if_neg hxa, if_neg hxb, add_zero]
        exact hz x hx hxa hxb
  rw [List.map_congr_left hsplit, List.sum_map_add,
    sum_map_single (fun x => if x = a then f a else 0) a l hnd ha
      (fun x _ hxa => if_neg hxa),
    sum_map_single (fun x => if x = b then f b else 0) b l hnd hb
      (fun x _ hxb => if_neg hxb), if_pos rfl, if_pos rfl]

set_option maxHeartbeats 1000000 in
theorem sharedGraph_eval [Field α] (L : GoLib α) (h : Heap α) (y a b : Ptr)
    (vy va vb : Value α) (hcl : Closed h) (hac : Acyclic h) (har : ArityOk h)
    (hy : h[y]? = some vy) (ha : h[a]? = some va) (hb : h[b]? = some vb)
    (hay : ¬ Reachable h a y) (hby : ¬ Reachable h b y) :
    ∃ hf, sharedGraph L y a b h = some (hf, h.length, h.length + 1, h.length + 2) ∧
      (∀ n v, h[n]? = some v → dataOf hf n = some v.Data) ∧
      gradD hf h.length = 1 ∧ gradD hf (h.length + 1) = 1 ∧ gradD hf (h.length + 2) = 1 ∧
      gradD hf y = vy.Grad + (va.Data + vb.Data) := by
  have hylt : y < h.length := (List.getElem?_eq_some_iff.mp hy).1
  have halt : a < h.length := (List.getElem?_eq_some_iff.mp ha).1
  have hblt : b < h.length := (List.getElem?_eq_some_iff.mp hb).1
  have n1 : ∀ n : Nat, ¬ n + 1 < n := fun n => by omega
  have n2 : ∀ n : Nat, ¬ n + 2 < n := fun n => by omega
  have d01 : ∀ n : Nat, n ≠ n + 1 := fun n => by omega
  have d02 : ∀ n : Nat, n ≠ n + 2 := fun n => by omega
  have d12 : ∀ n : Nat, n + 1 ≠ n + 2 := fun n => by omega
  have ylt2 : y ≠ h.length + 2 := fun e => n2 h.length (e ▸ hylt)
  have hya : a ≠ y := fun e => hay (e ▸ Relation.ReflTransGen.refl)
  have hyb : b ≠ y := fun e => hby (e ▸ Relation.ReflTransGen.refl)
  obtain ⟨P, hPdef⟩ : ∃ P : Value α,
      P = ⟨"p", vy.Data * va.Data, 0, [y, a], "*", some BackwardFn.mul⟩ := ⟨_, rfl⟩
  obtain ⟨Q, hQdef⟩ : ∃ Q : Value α,
      Q = ⟨"q", vy.Data * vb.Data, 0, [y, b], "*", some BackwardFn.mul⟩ := ⟨_, rfl⟩
  obtain ⟨R, hRdef⟩ : ∃ R : Value α,
      R = ⟨"r", P.Data + Q.Data, 0, [h.length, h.length + 1], "+", some BackwardFn.add⟩ :=
    ⟨_, rfl⟩
  have hPc : P.Children = [y, a] := by rw [hPdef]
  have hQc : Q.Children = [y, b] := by rw [hQdef]
  have hRc : R.Children = [h.length, h.length + 1] := by rw [hRdef]
  have hPb : P.Backward = some BackwardFn.mul := by rw [hPdef]
  have hQb : Q.Backward = some BackwardFn.mul := by rw [hQdef]
  have hRb : R.Backward = some BackwardFn.add := by rw [hRdef]
  have hPg : P.Grad = 0 := by rw [hPdef]
  have hQg : Q.Grad = 0 := by rw [hQdef]
  have l1 : (h ++ [P]).length = h.length + 1 := by simp
  have l2 : (h ++ [P] ++ [Q]).length = h.length + 2 := by simp
  have l3 : (h ++ [P] ++ [Q] ++ [R]).length = h.length + 3 := by simp
  -- the three constructor calls
  have m1 : Mul y a "p" h = some (h ++ [P], h.length) := by
    rw [hPdef]; exact Mul_some h y a "p" vy va hy ha
  have m2 : Mul y b "q" (h ++ [P]) = some (h ++ [P] ++ [Q], h.length + 1) := by
    have := Mul_some (h ++ [P]) y b "q" vy vb (lookup_append h _ y vy hy)
      (lookup_append h _ b vb hb)
    rw [l1, ← hQdef] at this
    exact this
  have hp1 : (h ++ [P])[h.length]? = some P := lookup_new h P []
  have hp2 : (h ++ [P] ++ [Q])[h.length]? = some P := lookup_append _ _ _ _ hp1
  have hq2 : (h ++ [P] ++ [Q])[h.length + 1]? = some Q := by
    have := lookup_new (h ++ [P]) Q []
    rw [l1] at this
    exact this
  have m3 : Add h.length (h.length + 1) "r" (h ++ [P] ++ [Q])
      = some (h ++ [P] ++ [Q] ++ [R], h.length + 2) := by
    have := Add_some (h ++ [P] ++ [Q]) h.length (h.length + 1) "r" P Q hp2 hq2
    rw [l2, ← hRdef] at this
    exact this
  have hp3 : (h ++ [P] ++ [Q] ++ [R])[h.length]? = some P := lookup_append _ _ _ _ hp2
  have hq3 : (h ++ [P] ++ [Q] ++ [R])[h.length + 1]? = some Q := lookup_append _ _ _ _ hq2
  have hr3 : (h ++ [P] ++ [Q] ++ [R])[h.length + 2]? = some R := by
    have := lookup_new (h ++ [P] ++ [Q]) R []
    rw [l2] at this
    exact this
  -- the heap with the three records is closed, acyclic and has the operand slots
  have c1 : Closed (h ++ [P]) := closed_snoc h P hcl (by
    intro c hc
    rw [hPc] at hc
    rcases List.mem_pair.mp hc with e | e <;> rw [e] <;> assumption)
  have c2 : Closed (h ++ [P] ++ [Q]) := closed_snoc _ Q c1 (by
    intro c hc
    rw [hQc] at hc
    rw [l1]
    rcases List.mem_pair.mp hc with e | e <;> rw [e] <;> exact Nat.lt_succ_of_lt (by assumption))
  have hRlt : ∀ c ∈ R.Children, c < (h ++ [P] ++ [Q]).length := by
    intro c hc
    rw [hRc] at hc
    rw [l2]
    rcases List.mem_pair.mp hc with e | e <;> rw [e]
    · exact Nat.lt_add_of_pos_right (Nat.succ_pos 1)
    · exact Nat.lt_succ_self _
  have c3 : Closed (h ++ [P] ++ [Q] ++ [R]) := closed_snoc _ R c2 hRlt
  have a1 : Acyclic (h ++ [P]) := acyclic_snoc h P hcl hac (by
    intro c hc
    rw [hPc] at hc
    rcases List.mem_pair.mp hc with e | e <;> rw [e] <;> assumption)
  have a2 : Acyclic (h ++ [P] ++ [Q]) := acyclic_snoc _ Q c1 a1 (by
    intro c hc
    rw [hQc] at hc
    rw [l1]
    rcases List.mem_pair.mp hc with e | e <;> rw [e] <;> exact Nat.lt_succ_of_lt (by assumption))
  have a3 : Acyclic (h ++ [P] ++ [Q] ++ [R]) := acyclic_snoc _ R c2 a2 hRlt
  have r1 : ArityOk (h ++ [P]) := arityOk_snoc h P har (by
    intro fn hfn
    rw [hPb] at hfn
    rw [← Option.some.inj hfn, hPc]
    exact Nat.le_refl 2)
  have r2 : ArityOk (h ++ [P] ++ [Q]) := arityOk_snoc _ Q r1 (by
    intro fn hfn
    rw [hQb] at hfn
    rw [← Option.some.inj hfn, hQc]
    exact Nat.le_refl 2)
  have r3 : ArityOk (h ++ [P] ++ [Q] ++ [R]) := arityOk_snoc _ R r2 (by
    intro fn hfn
    rw [hRb] at hfn
    rw [← Option.some.inj hfn, hRc]
    exact Nat.le_refl 2)
  -- the links of the heap with the three records
  have link3 : ∀ t c, Link (h ++ [P] ++ [Q] ++ [R]) t c ↔
      Link h t c ∨ (t = h.length ∧ (c = y ∨ c = a)) ∨
        (t = h.length + 1 ∧ (c = y ∨ c = b)) ∨
        (t = h.length + 2 ∧ (c = h.length ∨ c = h.length + 1)) := by
    intro t c
    rw [link_snoc, link_snoc, link_snoc, l1, l2, hPc, hQc, hRc, List.mem_pair, List.mem_pair,
      List.mem_pair]
    simp only [or_assoc]
  have hloop : ∀ c, Link h c y → ¬ Reachable h y c ∧ ¬ Reachable h a c ∧ ¬ Reachable h b c := by
    intro c hl
    exact ⟨fun hr => hac y (Relation.TransGen.tail' hr hl),
      fun hr => hay (Relation.ReflTransGen.tail hr hl),
      fun hr => hby (Relation.ReflTransGen.tail hr hl)⟩
  have reach3 : ∀ t, Reachable (h ++ [P] ++ [Q] ++ [R]) (h.length + 2) t →
      t = h.length + 2 ∨ t = h.length ∨ t = h.length + 1 ∨
        Reachable h y t ∨ Reachable h a t ∨ Reachable h b t := by
    intro t hrt
    induction hrt with
    | refl => exact Or.inl rfl
    | tail _ hl ih =>
      rcases (link3 _ _).mp hl with hl | ⟨-, e | e⟩ | ⟨-, e | e⟩ | ⟨-, e | e⟩
      · have hm := link_lt h _ _ hl
        rcases ih with e | e | e | hr | hr | hr
        · rw [e] at hm; exact absurd hm (n2 _)
        · rw [e] at hm; exact absurd hm (Nat.lt_irrefl _)
        · rw [e] at hm; exact absurd hm (n1 _)
        · exact Or.inr (Or.inr (Or.inr (Or.inl (Relation.ReflTransGen.tail hr hl))))
        · exact Or.inr (Or.inr (Or.inr (Or.inr (Or.inl (Relation.ReflTransGen.tail hr hl)))))
        · exact Or.inr (Or.inr (Or.inr (Or.inr (Or.inr (Relation.ReflTransGen.tail hr hl)))))
      · exact Or.inr (Or.inr (Or.inr (Or.inl (e ▸ Relation.ReflTransGen.refl))))
      · exact Or.inr (Or.inr (Or.inr (Or.inr (Or.inl (e ▸ Relation.ReflTransGen.refl)))))
      · exact Or.inr (Or.inr (Or.inr (Or.inl (e ▸ Relation.ReflTransGen.refl))))
      · exact Or.inr (Or.inr (Or.inr (Or.inr (Or.inr (e ▸ Relation.ReflTransGen.refl)))))
      · exact Or.inr (Or.inl e)
      · exact Or.inr (Or.inr (Or.inl e))
  -- the backward pass
  obtain ⟨hf, topology, hrun, ht, hnd, hmem, hr, he⟩ :=
    Backprop_exact L (h ++ [P] ++ [Q] ++ [R]) (h.length + 2) c3 a3 r3 (by rw [l3]; exact Nat.lt_succ_self _)
  have linkf : ∀ t c, Link hf t c → Link (h ++ [P] ++ [Q] ++ [R]) t c :=
    fun t c => (resetGrads_link _ hf hr t c).mp
  have hrm : h.length + 2 ∈ topology := (hmem _).mpr Relation.ReflTransGen.refl
  have hpm : h.length ∈ topology :=
    (hmem _).mpr (Relation.ReflTransGen.single
      ((link3 _ _).mpr (Or.inr (Or.inr (Or.inr ⟨rfl, Or.inl rfl⟩)))))
  have hqm : h.length + 1 ∈ topology :=
    (hmem _).mpr (Relation.ReflTransGen.single
      ((link3 _ _).mpr (Or.inr (Or.inr (Or.inr ⟨rfl, Or.inr rfl⟩)))))
  obtain ⟨R1, hR1, -, -, hR1c, -, hR1b⟩ := resetGrads_lookup _ hf hr _ R hr3
  obtain ⟨P1, hP1, -, -, hP1c, -, hP1b⟩ := resetGrads_lookup _ hf hr _ P hp3
  obtain ⟨Q1, hQ1, -, -, hQ1c, -, hQ1b⟩ := resetGrads_lookup _ hf hr _ Q hq3
  have hdata : ∀ n v, h[n]? = some v → dataOf hf n = some v.Data := by
    intro n v hv
    have h3 : (h ++ [P] ++ [Q] ++ [R])[n]? = some v :=
      lookup_append _ _ _ _ (lookup_append _ _ _ _ (lookup_append _ _ _ _ hv))
    obtain ⟨v1, hv1, -, hd, -⟩ := resetGrads_lookup _ hf hr n v h3
    simp [dataOf, hv1, hd]
  have gR : gradD hf (h.length + 2) = 1 := by
    rw [he, if_pos rfl,
      pushed_root_zero L _ hf _ a3 hr topology (fun p hp => (hmem p).mp hp), add_zero]
  have gP : gradD hf h.length = 1 := by
    rw [he, if_neg (d02 _), gradD_eq _ _ P hp3, hPg, zero_add,
      sum_map_single (fun t => pushed L hf t h.length) (h.length + 2) topology hnd hrm,
      pushed_add L hf _ _ R1 h.length (h.length + 1) hR1 (hR1c.trans hRc) (hR1b.trans hRb),
      if_pos rfl, if_neg (fun e => d01 _ e.symm), add_zero, one_mul, ← gradD_eq hf _ R1 hR1, gR]
    intro x _ hx
    apply pushed_zero
    intro hl
    rcases (link3 _ _).mp (linkf _ _ hl) with hl | ⟨-, e | e⟩ | ⟨-, e | e⟩ | ⟨e, -⟩
    · exact Nat.lt_irrefl _ ((closed_iff_link h).mp hcl _ _ hl)
    · rw [← e] at hylt; exact Nat.lt_irrefl _ hylt
    · rw [← e] at halt; exact Nat.lt_irrefl _ halt
    · rw [← e] at hylt; exact Nat.lt_irrefl _ hylt
    · rw [← e] at hblt; exact Nat.lt_irrefl _ hblt
    · exact hx e
  have gQ : gradD hf (h.length + 1) = 1 := by
    rw [he, if_neg (d12 _), gradD_eq _ _ Q hq3, hQg, zero_add,
      sum_map_single (fun t => pushed L hf t (h.length + 1)) (h.length + 2) topology hnd hrm,
      pushed_add L hf _ _ R1 h.length (h.length + 1) hR1 (hR1c.trans hRc) (hR1b.trans hRb),
      if_neg (d01 _), if_pos rfl, zero_add, one_mul, ← gradD_eq hf _ R1 hR1, gR]
    intro x _ hx
    apply pushed_zero
    intro hl
    rcases (link3 _ _).mp (linkf _ _ hl) with hl | ⟨-, e | e⟩ | ⟨-, e | e⟩ | ⟨e, -⟩
    · have := (closed_iff_link h).mp hcl _ _ hl
      exact n1 _ this
    · rw [← e] at hylt; exact n1 _ (by assumption)
    · rw [← e] at halt; exact n1 _ (by assumption)
    · rw [← e] at hylt; exact n1 _ (by assumption)
    · rw [← e] at hblt; exact n1 _ (by assumption)
    · exact hx e
  have gY : gradD hf y = vy.Grad + (va.Data + vb.Data) := by
    have hy3 : (h ++ [P] ++ [Q] ++ [R])[y]? = some vy :=
      lookup_append _ _ _ _ (lookup_append _ _ _ _ (lookup_append _ _ _ _ hy))
    rw [he, if_neg ylt2, gradD_eq _ _ vy hy3,
      sum_map_two (fun t => pushed L hf t y) h.length (h.length + 1) (d01 _) topology hnd
        hpm hqm,
      pushed_mul L hf _ _ P1 y a vy.Data va.Data hP1 (hP1c.trans hPc) (hP1b.trans hPb)
        (hdata y vy hy) (hdata a va ha),
      pushed_mul L hf _ _ Q1 y b vy.Data vb.Data hQ1 (hQ1c.trans hQc) (hQ1b.trans hQb)
        (hdata y vy hy) (hdata b vb hb),
      if_pos rfl, if_neg hya, if_pos rfl, if_neg hyb, add_zero, add_zero,
      ← gradD_eq hf _ P1 hP1, ← gradD_eq hf _ Q1 hQ1, gP, gQ, mul_one, mul_one]
    intro x hx hxp hxq
    apply pushed_zero
    intro hl
    rcases (link3 _ _).mp (linkf _ _ hl) with hl | ⟨e, -⟩ | ⟨e, -⟩ | ⟨-, e | e⟩
    · obtain ⟨k1, k2, k3⟩ := hloop x hl
      have hxlt := link_lt h _ _ hl
      rcases reach3 x ((hmem x).mp hx) with e | e | e | hr | hr | hr
      · rw [e] at hxlt; exact n2 _ hxlt
      · exact hxp e
      · exact hxq e
      · exact k1 hr
      · exact k2 hr
      · exact k3 hr
    · exact hxp e
    · exact hxq e
    · rw [e] at hylt; exact Nat.lt_irrefl _ hylt
    · rw [e] at hylt; exact n1 _ hylt
  refine ⟨hf, ?_, hdata, gP, gQ, gR, gY⟩
  simp only [sharedGraph, m1, m2, m3, hrun, Option.bind_eq_bind, Option.some_bind,
    Option.pure_def, bind, pure]

/-- C4, as amended.  A node used as an operand more than once receives the sum
of all contributions.  After `y := Val(v); p := Mul(y, y); p.Backprop()` the
gradient `y.Grad` is `2 * v` (6 for `v = 3`, and not 3).  After `y := Val(vy);
a := Val(va); b := Val(vb); p := Mul(y, a); q := Mul(y, b); r := Add(p, q);
r.Backprop()` on any heap the gradient `y.Grad` is `a.Data + b.Data`.  And for
any three nodes `y`, `a`, `b`, leaves or not, of an acyclic heap with no
dangling operand, with the operand slots every closure indexes and with every
`Grad` 0, where `y` is not reachable from `a` or from `b` (so `y` is neither
`a` nor `b`): the program `p := Mul(y, a); q := Mul(y, b); r := Add(p, q);
r.Backprop()` runs without a fault, leaves `a.Data` and `b.Data` as they were,
and after it `y.Grad` is `a.Data + b.Data`. -/
theorem shared_operand_sums (L : GoLib ℝ) (v vy va vb : ℝ) (h0 h : Heap ℝ) (y a b : Ptr)
    (hcl : Closed h) (hac : Acyclic h) (har : ArityOk h) (hzero : AllGradZero h)
    (hy : y < h.length) (ha : a < h.length) (hb : b < h.length)
    (hay : ¬ Reachable h a y) (hby : ¬ Reachable h b y) :
    (∃ hf y p, squareProgram L v h0 = some (hf, y, p) ∧ gradOf hf y = some (2 * v)) ∧
    (∃ hf y p, squareProgram L 3 h0 = some (hf, y, p) ∧ gradOf hf y = some 6 ∧
      gradOf hf y ≠ some 3) ∧
    (∃ hf y a b r, sharedProgram L vy va vb h0 = some (hf, y, a, b, r) ∧
      dataOf hf a = some va ∧ dataOf hf b = some vb ∧ gradOf hf y = some (va + vb)) ∧
    ∃ hf p q r da db, sharedGraph L y a b h = some (hf, p, q, r) ∧
      dataOf h a = some da ∧ dataOf h b = some db ∧
      dataOf hf a = some da ∧ dataOf hf b = some db ∧ gradOf hf y = some (da + db) := by
  refine ⟨squareProgram_eval L v h0, ?_, sharedProgram_eval L vy va vb h0, ?_⟩
  · obtain ⟨hf, y, p, hrun, hy⟩ := squareProgram_eval L 3 h0
    refine ⟨hf, y, p, hrun, by rw [hy]; norm_num, ?_⟩
    rw [hy]
    norm_num
  · obtain ⟨wy, hwy⟩ := lookup_of_lt h y hy
    obtain ⟨wa, hwa⟩ := lookup_of_lt h a ha
    obtain ⟨wb, hwb⟩ := lookup_of_lt h b hb
    obtain ⟨hf, hrun, hdata, -, -, -, gY⟩ :=
      sharedGraph_eval L h y a b wy wa wb hcl hac har hwy hwa hwb hay hby
    refine ⟨hf, _, _, _, wa.Data, wb.Data, hrun, by simp [dataOf, hwa], by simp [dataOf, hwb],
      hdata a wa hwa, hdata b wb hwb, ?_⟩
    obtain ⟨w, hw, -⟩ := Option.map_eq_some'.mp (hdata y wy hwy)
    have hg : gradOf hf y = some (gradD hf y) := by
      rw [gradD_eq hf y w hw]
      simp [gradOf, hw]
    rw [hg, gY, hzero y wy hwy, zero_add]

theorem reachable_le (h : Heap α) (hb : builtInOrder h = true) (x z : Ptr)
    (hr : Reachable h x z) : z ≤ x := by
  induction hr with
  | refl => exact Nat.le_refl _
  | tail _ hl ih => exact Nat.le_trans (Nat.le_of_lt (builtInOrder_link h hb hl)) ih

/-- Witness of C4 as amended: in the graph `sharedHeap` the shared node is the
product `q`, and its partners are the product `p` and the leaf `a`. -/
theorem shared_operand_sums_witness :
    (∃ hf y p, squareProgram ⟨fun x k => x ^ k, Real.exp, Real.tanh, Real.exp 1, fun _ => ""⟩
        (5 : ℝ) [] = some (hf, y, p) ∧ gradOf hf y = some (2 * 5)) ∧
    (∃ hf y p, squareProgram ⟨fun x k => x ^ k, Real.exp, Real.tanh, Real.exp 1, fun _ => ""⟩
        (3 : ℝ) [] = some (hf, y, p) ∧ gradOf hf y = some 6 ∧ gradOf hf y ≠ some 3) ∧
    (∃ hf y a b r,
      sharedProgram ⟨fun x k => x ^ k, Real.exp, Real.tanh, Real.exp 1, fun _ => ""⟩
        (3 : ℝ) 4 5 [] = some (hf, y, a, b, r) ∧
      dataOf hf a = some 4 ∧ dataOf hf b = some 5 ∧ gradOf hf y = some (4 + 5)) ∧
    ∃ hf p q r da db,
      sharedGraph ⟨fun x k => x ^ k, Real.exp, Real.tanh, Real.exp 1, fun _ => ""⟩
        4 3 1 sharedHeap = some (hf, p, q, r) ∧
      dataOf sharedHeap 3 = some da ∧ dataOf sharedHeap 1 = some db ∧
      dataOf hf 3 = some da ∧ dataOf hf 1 = some db ∧ gradOf hf 4 = some (da + db) :=
  shared_operand_sums _ 5 3 4 5 [] sharedHeap 4 3 1 (builtInOrder_closed _ rfl)
    (builtInOrder_acyclic _ rfl) (arityCheck_ok _ rfl) sharedHeap_zero (by decide) (by decide)
    (by decide) (fun hr => absurd (reachable_le sharedHeap rfl 3 4 hr) (by decide))
    (fun hr => absurd (reachable_le sharedHeap rfl 1 4 hr) (by decide))

/-- C4, counterexample: with `a := y` the shared node is counted on both sides
of `p`.  On the leaves `y = Val(3)` and `b = Val(5)`, every `Grad` 0, the
program `p := Mul(y, y); q := Mul(y, b); r := Add(p, q); r.Backprop()` ends
with `y.Grad = 11`, while `a.Data + b.Data` is `3 + 5`. -/
theorem shared_with_itself_counts_twice :
    ∃ hf p q r,
      sharedGraph ⟨fun x k => x ^ k, Real.exp, Real.tanh, Real.exp 1, fun _ => ""⟩
        0 0 1 yAndB = some (hf, p, q, r) ∧
      dataOf hf 0 = some 3 ∧ dataOf hf 1 = some 5 ∧ gradOf hf 0 = some 11 ∧
      gradOf hf 0 ≠ some (3 + 5) := by
  simp [sharedGraph, yAndB, Mul, Add, alloc, Backprop, topologyOf, buildTopology_succ,
    forChildren, backwardLoop, runBackward, bumpChild, addGrad, childData, gradOf, dataOf]
  norm_num

end Mugrad
